import Mathlib

/-!
# RayCaster: a shallow embedding of `main.cpp`

The grid world (`Map`), the agent (`Player`) and the DDA ray caster (`cast_ray`) of
`main.cpp` are embedded as executable Lean functions.

* A `float` value is a term of `F`: a rational number, or one of the IEEE-754 special values
  `+inf`, `-inf`, `NaN`.  Every `float` operation of the program computes the exact result of
  its operands and rounds it: `F.add`, `F.mul`, `F.div` and the conversion `F.ofInt` pass the
  exact rational through the rounding `Arith.rnd` of the arithmetic `A` they are given.
* `binary32` is the arithmetic of the program: IEEE-754 single precision, round to nearest,
  ties to even, with subnormal numbers and overflow to infinity (`round32`), and 32-bit
  `int`.  Each operation rounds once (no fused multiply-add, no wider intermediate format).
  The two zeros are one value: the program never inspects the sign of a zero (`1.f / dir.x`
  goes through `std::abs`, comparisons and `static_cast<int>` do not see it).
* `ideal` is arithmetic without rounding and with unbounded integers; it is the arithmetic of
  the geometric laws that the program follows up to rounding.
* An `int` is a term of `Int`; a conversion or a sum that leaves the range of `int` is
  undefined.  A `size_t` is a `Nat` below `2 ^ 64`.
* Undefined behaviour (indexing a `std::vector` out of range, converting a non-finite or too
  large `float` to `int`, signed overflow) is the result `none`.
-/

namespace RayCaster

/-! ## Floating-point values -/

/-- Value of a `float` expression: a rational number or an IEEE-754 special value. -/
inductive F where
  | fin (q : ℚ)
  | pinf
  | ninf
  | nan
  deriving DecidableEq, Repr

/-- The arithmetic of a machine: `rnd` rounds the exact result of a `float` operation to a
value of the format, `isInt` tells which integers are values of `int`. -/
class Arith where
  rnd : ℚ → F
  isInt : Int → Bool

namespace F

/-- Unary minus (exact: it flips the sign). -/
def neg : F → F
  | fin q => fin (-q)
  | pinf => ninf
  | ninf => pinf
  | nan => nan

/-- Addition: the exact sum, rounded; `inf + (-inf)` is `NaN`. -/
def add (A : Arith) : F → F → F
  | fin a, fin b => A.rnd (a + b)
  | fin _, pinf => pinf
  | fin _, ninf => ninf
  | pinf, fin _ => pinf
  | pinf, pinf => pinf
  | ninf, fin _ => ninf
  | ninf, ninf => ninf
  | _, _ => nan

/-- Subtraction `a - b`, the sum `a + (-b)`: the exact difference, rounded; `inf - inf` is
`NaN`. -/
def sub (A : Arith) (a b : F) : F := add A a (neg b)

/-- An infinity of the sign of `q`, `NaN` for `q = 0` (the product `q * inf`). -/
def signedInf (q : ℚ) : F :=
  if 0 < q then pinf else if q < 0 then ninf else nan

/-- Multiplication: the exact product, rounded; `0 * inf` is `NaN`. -/
def mul (A : Arith) : F → F → F
  | fin a, fin b => A.rnd (a * b)
  | fin a, pinf => signedInf a
  | fin a, ninf => signedInf (-a)
  | pinf, fin b => signedInf b
  | ninf, fin b => signedInf (-b)
  | pinf, pinf => pinf
  | pinf, ninf => ninf
  | ninf, pinf => ninf
  | ninf, ninf => pinf
  | _, _ => nan

/-- Division: the exact quotient, rounded; a non-zero finite value over zero is an infinity,
`0 / 0` and `inf / inf` are `NaN`. -/
def div (A : Arith) : F → F → F
  | fin a, fin b => if b = 0 then signedInf a else A.rnd (a / b)
  | fin _, pinf => fin 0
  | fin _, ninf => fin 0
  | pinf, fin b => if 0 ≤ b then pinf else ninf
  | ninf, fin b => if 0 ≤ b then ninf else pinf
  | _, _ => nan

/-- The function `std::abs` (exact). -/
def abs : F → F
  | fin q => fin |q|
  | pinf => pinf
  | ninf => pinf
  | nan => nan

/-- The comparison `a < b`; false as soon as one side is `NaN`. -/
def lt : F → F → Bool
  | fin a, fin b => decide (a < b)
  | fin _, pinf => true
  | ninf, fin _ => true
  | ninf, pinf => true
  | _, _ => false

/-- Conversion `int -> float`: the integer, rounded. -/
def ofInt (A : Arith) (n : Int) : F := A.rnd n

/-- Truncation of a rational towards zero. -/
def truncQ (q : ℚ) : Int := if 0 ≤ q then ⌊q⌋ else ⌈q⌉

/-- Conversion `float -> int` (`static_cast<int>`): truncation towards zero; undefined for a
non-finite value and when the truncated value is not a value of `int`. -/
def toInt (A : Arith) : F → Option Int
  | fin q => if A.isInt (truncQ q) then some (truncQ q) else none
  | _ => none

instance [A : Arith] : Add F := ⟨add A⟩
instance [A : Arith] : Sub F := ⟨sub A⟩
instance [A : Arith] : Mul F := ⟨mul A⟩
instance [A : Arith] : Div F := ⟨div A⟩
instance : Neg F := ⟨neg⟩

end F

/-! ## The two arithmetics -/

/-- The integer nearest to `m`, the even one of the two when `m` lies halfway. -/
def roundHalfEven (m : ℚ) : Int :=
  if m - ⌊m⌋ < 1 / 2 then ⌊m⌋
  else if 1 / 2 < m - ⌊m⌋ then ⌊m⌋ + 1
  else if ⌊m⌋ % 2 = 0 then ⌊m⌋ else ⌊m⌋ + 1

/-- Binary search for the exponent of `a`: the largest `e` in `[lo, lo + 2 ^ k)` with
`2 ^ e ≤ a`, given `2 ^ lo ≤ a`. -/
def expSearch (a : ℚ) : Nat → Int → Int
  | 0, lo => lo
  | k + 1, lo =>
    if (2 : ℚ) ^ (lo + 2 ^ k) ≤ a then expSearch a k (lo + 2 ^ k) else expSearch a k lo

/-- The exponent `e` of the spacing `2 ^ e` of the binary32 numbers around `q`: with
`2 ^ n ≤ |q| < 2 ^ (n + 1)` it is `n - 23` (24 significant bits), and not less than
`-126 - 23 = -149`, the fixed spacing of the subnormal numbers. -/
def ulpExp (q : ℚ) : Int := expSearch |q| 8 (-126) - 23

/-- Rounding to binary32: to the nearest multiple of the spacing, ties to the even multiple,
and to an infinity when the rounded magnitude reaches `2 ^ 128`. -/
def round32 (q : ℚ) : F :=
  if (2 : ℚ) ^ 128 ≤ (roundHalfEven (q / 2 ^ ulpExp q) : ℚ) * 2 ^ ulpExp q then F.pinf
  else if (roundHalfEven (q / 2 ^ ulpExp q) : ℚ) * 2 ^ ulpExp q ≤ -(2 : ℚ) ^ 128 then F.ninf
  else F.fin ((roundHalfEven (q / 2 ^ ulpExp q) : ℚ) * 2 ^ ulpExp q)

/-- The arithmetic of the program: binary32 `float`, 32-bit `int`. -/
def binary32 : Arith :=
  ⟨round32, fun n => decide (-(2 : Int) ^ 31 ≤ n) && decide (n < (2 : Int) ^ 31)⟩

/-- Arithmetic without rounding and with unbounded integers. -/
def ideal : Arith := ⟨F.fin, fun _ => true⟩

/-! ## Vectors -/

/-- The type `sf::Vector2f`. -/
structure Vector2f where
  x : F
  y : F
  deriving DecidableEq, Repr

/-- The type `sf::Vector2i`. -/
structure Vector2i where
  x : Int
  y : Int
  deriving DecidableEq, Repr

/-- Vector sum `a + b`. -/
def Vector2f.add (A : Arith) (a b : Vector2f) : Vector2f := ⟨a.x + b.x, a.y + b.y⟩

/-- Scalar product `k * v`, which `operator *(T left, const Vector2<T>& right)` computes as
`(right.x * left, right.y * left)`. -/
def Vector2f.smul (A : Arith) (k : F) (v : Vector2f) : Vector2f := ⟨v.x * k, v.y * k⟩

/-- The converting constructor `sf::Vector2i {v}`: a `static_cast<int>` per component. -/
def Vector2f.toVector2i (A : Arith) (v : Vector2f) : Option Vector2i :=
  match v.x.toInt A, v.y.toInt A with
  | some x, some y => some ⟨x, y⟩
  | _, _ => none

/-- A vector with finite components. -/
def vec (x y : ℚ) : Vector2f := ⟨F.fin x, F.fin y⟩

/-! ## Constants -/

/-- `#define MAX_CELL 128`. -/
def MAX_CELL : Nat := 128

/-- `#define SCREEN_W 1500`. -/
def SCREEN_W : Nat := 1500

/-- `#define SCREEN_H 1000`. -/
def SCREEN_H : Nat := 1000

/-- `constexpr float MOV_SPEED = 8.f`. -/
def MOV_SPEED : F := F.fin 8

/-- `constexpr float TUR_SPEED = 150.f`. -/
def TUR_SPEED : F := F.fin 150

/-- Number of values of a `size_t`. -/
def SIZE_MOD : Nat := 2 ^ 64

/-- The `size_t` expression `n - 1` for the size `n` of a vector; it wraps around for
`n = 0`. -/
def sizePred (n : Nat) : Nat := if n = 0 then SIZE_MOD - 1 else n - 1

/-! ## The grid world -/

/-- The occupancy grid `std::vector<std::vector<int>>`: `grid[row][col]`, `0` open, `1` wall. -/
abbrev Grid := List (List Int)

/-- The class `Map`. -/
structure Map where
  cellsize : F
  grid : Grid
  deriving DecidableEq, Repr

/-- The read `grid[p.y][p.x]`; `none` when an index is out of range. -/
def cellAt (grid : Grid) (p : Vector2i) : Option Int :=
  if p.x < 0 ∨ p.y < 0 then none
  else
    match grid[p.y.toNat]? with
    | none => none
    | some row => row[p.x.toNat]?

/-- The write `grid[p.y][p.x] = v`; `none` when an index is out of range. -/
def setCell (grid : Grid) (p : Vector2i) (v : Int) : Option Grid :=
  if p.x < 0 ∨ p.y < 0 then none
  else
    match grid[p.y.toNat]? with
    | none => none
    | some row =>
      if p.x.toNat < row.length then some (grid.set p.y.toNat (row.set p.x.toNat v))
      else none

/-- The guard of `Map::toggleCell`,
`gridX > 0 and gridX < grid[0].size() - 1 and gridY > 0 and gridY < grid.size() - 1`,
evaluated left to right; `none` when `grid[0]` is read on an empty grid. -/
def toggleGuard (grid : Grid) (p : Vector2i) : Option Bool :=
  if p.x > 0 then
    match grid with
    | [] => none
    | row0 :: _ =>
      some (decide (p.x.toNat < sizePred row0.length) && decide (p.y > 0)
        && decide (p.y.toNat < sizePred grid.length))
  else some false

/-- The method `Map::toggleCell`: `int gridX = mousePos.x / cellsize` converts the pixel
coordinate to `float`, divides, and converts the quotient to `int`. -/
def Map.toggleCell (A : Arith) (m : Map) (mousePos : Vector2i) : Option Map :=
  match (F.ofInt A mousePos.x / m.cellsize).toInt A,
      (F.ofInt A mousePos.y / m.cellsize).toInt A with
  | some gridX, some gridY =>
    match toggleGuard m.grid ⟨gridX, gridY⟩ with
    | none => none
    | some false => some m
    | some true =>
      match cellAt m.grid ⟨gridX, gridY⟩ with
      | none => none
      | some v =>
        match setCell m.grid ⟨gridX, gridY⟩ (1 - v) with
        | none => none
        | some g => some { m with grid := g }
  | _, _ => none

/-- The bounds test shared by `Player::update` and `cast_ray`,
`p.x >= 0 and p.x < grid[0].size() and p.y >= 0 and p.y < grid.size()`, evaluated left to
right; `none` when `grid[0]` is read on an empty grid. -/
def inGrid (grid : Grid) (p : Vector2i) : Option Bool :=
  if p.x ≥ 0 then
    match grid with
    | [] => none
    | row0 :: _ =>
      some (decide (p.x.toNat < row0.length) && decide (p.y ≥ 0)
        && decide (p.y.toNat < grid.length))
  else some false

/-! ## The agent -/

/-- The class `Player`. -/
structure Player where
  position : Vector2f
  angle : F
  direction : Vector2f
  deriving DecidableEq, Repr

/-- The four keys polled by `Player::update`. -/
structure Keys where
  Up : Bool
  Down : Bool
  Left : Bool
  Right : Bool
  deriving DecidableEq, Repr

/-- The test "the cell `p` is inside the grid and holds `0`" of `Player::update`; the cell
is read only when `p` passed the bounds test. -/
def openCell (grid : Grid) (p : Vector2i) : Option Bool :=
  match inGrid grid p with
  | none => none
  | some false => some false
  | some true =>
    match cellAt grid p with
    | none => none
    | some v => some (decide (v = 0))

/-- The method `Player::update`.  The values `cos(radian)` and `sin(radian)` of the heading
are the parameter `heading`; the state of the keyboard is the parameter `keys`. -/
def Player.update (A : Arith) (p : Player) (deltaTime : F) (map : Map) (keys : Keys)
    (heading : Vector2f) : Option Player :=
  let direction := heading
  let next := Vector2f.toVector2i A
    ⟨p.position.x + direction.x * deltaTime * MOV_SPEED,
     p.position.y + direction.y * deltaTime * MOV_SPEED⟩
  let back := Vector2f.toVector2i A
    ⟨p.position.x - direction.x * deltaTime * MOV_SPEED,
     p.position.y - direction.y * deltaTime * MOV_SPEED⟩
  match next, back with
  | some next_pos, some back_pos =>
    match openCell map.grid next_pos, openCell map.grid back_pos with
    | some fwdOpen, some backOpen =>
      let pos1 : Vector2f :=
        if fwdOpen && keys.Up then
          ⟨p.position.x + direction.x * MOV_SPEED * deltaTime,
           p.position.y + direction.y * MOV_SPEED * deltaTime⟩
        else p.position
      let pos2 : Vector2f :=
        if backOpen && keys.Down then
          ⟨pos1.x - direction.x * MOV_SPEED * deltaTime,
           pos1.y - direction.y * MOV_SPEED * deltaTime⟩
        else pos1
      let angle1 := if keys.Left then p.angle - TUR_SPEED * deltaTime else p.angle
      let angle2 := if keys.Right then angle1 + TUR_SPEED * deltaTime else angle1
      some ⟨pos2, angle2, direction⟩
    | _, _ => none
  | _, _ => none

/-! ## The ray caster -/

/-- The class `ray`. -/
structure ray where
  hitPosition : Vector2f
  distance : F
  hit : Bool
  isVertical : Bool
  deriving DecidableEq, Repr

/-- The local variables of `cast_ray` that its loop changes; `i` is the loop counter. -/
structure CastState where
  sideDist : Vector2f
  mapPos : Vector2i
  hit : Bool
  isVertical : Bool
  i : Nat
  deriving DecidableEq, Repr

/-- The first statement of the loop body of `cast_ray`: one step along X when
`sideDist.x < sideDist.y`, along Y otherwise. -/
def advance (A : Arith) (deltaDist : Vector2f) (step : Vector2i) (s : CastState) :
    CastState :=
  if F.lt s.sideDist.x s.sideDist.y then
    { s with
      sideDist := ⟨s.sideDist.x + deltaDist.x, s.sideDist.y⟩
      mapPos := ⟨s.mapPos.x + step.x, s.mapPos.y⟩
      isVertical := false }
  else
    { s with
      sideDist := ⟨s.sideDist.x, s.sideDist.y + deltaDist.y⟩
      mapPos := ⟨s.mapPos.x, s.mapPos.y + step.y⟩
      isVertical := true }

/-- One pass through the loop of `cast_ray`: the step (undefined when `mapPos += step`
leaves the range of `int`), the collision test `hit = grid[mapPos.y][mapPos.x]` guarded by
the bounds test, and `i++`. -/
def castBody (A : Arith) (grid : Grid) (deltaDist : Vector2f) (step : Vector2i)
    (s : CastState) : Option CastState :=
  let s1 := advance A deltaDist step s
  if A.isInt s1.mapPos.x && A.isInt s1.mapPos.y then
    match inGrid grid s1.mapPos with
    | none => none
    | some false => some { s1 with i := s.i + 1 }
    | some true =>
      match cellAt grid s1.mapPos with
      | none => none
      | some v => some { s1 with hit := decide (v ≠ 0), i := s.i + 1 }
  else none

/-- The loop `for (int i = 0; not hit and i < MAX_CELL; i++)` of `cast_ray`, run for at most
`fuel` passes. -/
def castLoop (A : Arith) (grid : Grid) (deltaDist : Vector2f) (step : Vector2i) :
    Nat → CastState → Option CastState
  | 0, s => some s
  | fuel + 1, s =>
    if !s.hit && decide (s.i < MAX_CELL) then
      match castBody A grid deltaDist step s with
      | none => none
      | some s1 => castLoop A grid deltaDist step fuel s1
    else some s

/-- The vector `deltaDist` of `cast_ray`. -/
def deltaDistOf (A : Arith) (dir : Vector2f) : Vector2f :=
  ⟨F.abs (F.fin 1 / dir.x), F.abs (F.fin 1 / dir.y)⟩

/-- The vector `step` of `cast_ray`. -/
def stepOf (dir : Vector2f) : Vector2i :=
  ⟨if F.lt dir.x (F.fin 0) then -1 else 1, if F.lt dir.y (F.fin 0) then -1 else 1⟩

/-- The initial vector `sideDist` of `cast_ray`. -/
def sideDistOf (A : Arith) (start dir : Vector2f) (mapPos : Vector2i) : Vector2f :=
  let deltaDist := deltaDistOf A dir
  ⟨if F.lt dir.x (F.fin 0) then (F.ofInt A (-mapPos.x) + start.x) * deltaDist.x
    else (F.ofInt A mapPos.x - start.x + F.fin 1) * deltaDist.x,
   if F.lt dir.y (F.fin 0) then (F.ofInt A (-mapPos.y) + start.y) * deltaDist.y
    else (F.ofInt A mapPos.y - start.y + F.fin 1) * deltaDist.y⟩

/-- The state of `cast_ray` before its loop, for the start cell `mapPos`. -/
def initState (A : Arith) (start dir : Vector2f) (mapPos : Vector2i) : CastState :=
  ⟨sideDistOf A start dir mapPos, mapPos, false, false, 0⟩

/-- The state of `cast_ray` when its loop is left (`MAX_CELL` passes of fuel are enough, the
loop counter stops it by then). -/
def castFinal (A : Arith) (start dir : Vector2f) (map : Map) : Option CastState :=
  match start.toVector2i A with
  | none => none
  | some mapPos =>
    castLoop A map.grid (deltaDistOf A dir) (stepOf dir) MAX_CELL (initState A start dir mapPos)

/-- The value `distance` computed after the loop of `cast_ray`. -/
def distanceOf (A : Arith) (deltaDist : Vector2f) (s : CastState) : F :=
  if s.isVertical then s.sideDist.y - deltaDist.y else s.sideDist.x - deltaDist.x

/-- The function `cast_ray`. -/
def cast_ray (A : Arith) (start dir : Vector2f) (map : Map) : Option ray :=
  match castFinal A start dir map with
  | none => none
  | some s =>
    let distance := distanceOf A (deltaDistOf A dir) s
    some ⟨Vector2f.add A start (Vector2f.smul A distance dir), distance, s.hit, s.isVertical⟩

/-! ## The camera of `render::draw` and `render::draw_3d` -/

/-- `float aspect = SCREEN_W / static_cast<float>(SCREEN_H)`. -/
def aspect (A : Arith) : F := F.ofInt A SCREEN_W / F.ofInt A SCREEN_H

/-- The camera plane `plane` of `render::draw` and `render::draw_3d` for the heading
`direction`. -/
def planeOf (A : Arith) (direction : Vector2f) : Vector2f :=
  ⟨-direction.y * aspect A * F.fin (1 / 2), direction.x * aspect A * F.fin (1 / 2)⟩

/-- `float cameraX = i * 2.f / static_cast<float>(SCREEN_W) - 1.f`. -/
def cameraX (A : Arith) (i : Nat) : F :=
  F.ofInt A i * F.fin 2 / F.ofInt A SCREEN_W - F.fin 1

/-- The direction `rayDir` of the ray of column `i`. -/
def rayDirOf (A : Arith) (direction : Vector2f) (i : Nat) : Vector2f :=
  ⟨direction.x + (planeOf A direction).x * cameraX A i,
   direction.y + (planeOf A direction).y * cameraX A i⟩

/-- The direction `rayDir` of the ray of column `i` in `render::draw`, which computes
`aspect`, `plane` and `cameraX` by the same statements as `render::draw_3d`. -/
def rayDirOfDraw (A : Arith) (direction : Vector2f) (i : Nat) : Vector2f :=
  ⟨direction.x + (planeOf A direction).x * cameraX A i,
   direction.y + (planeOf A direction).y * cameraX A i⟩

/-! ## Construction and the built-in world -/

/-- The constructor `Map(const float & x, const std::vector<std::vector<int>> & y) :
cellsize(x), grid(y) {}`: it copies its two arguments and has no failing path.  The result
`none` stands for a construction that fails. -/
def Map.construct (x : F) (y : Grid) : Option Map := some ⟨x, y⟩

/-- The grid `grid` of `main`. -/
def mainGrid : Grid :=
  [[1, 1, 1, 1, 1, 1, 1, 1, 1, 1, 1, 1, 1, 1, 1, 1, 1, 1, 1, 1, 1, 1, 1, 1],
   [1, 0, 0, 0, 0, 0, 0, 0, 0, 0, 0, 0, 0, 0, 0, 0, 0, 0, 0, 0, 0, 0, 0, 1],
   [1, 0, 0, 0, 0, 0, 0, 0, 0, 0, 0, 0, 0, 0, 0, 0, 0, 0, 0, 0, 0, 0, 0, 1],
   [1, 0, 0, 0, 0, 0, 0, 0, 0, 0, 0, 0, 0, 0, 0, 0, 0, 0, 0, 0, 0, 0, 0, 1],
   [1, 0, 0, 0, 0, 0, 1, 1, 1, 1, 1, 0, 0, 0, 0, 1, 0, 1, 0, 1, 0, 0, 0, 1],
   [1, 0, 0, 0, 0, 0, 1, 0, 0, 0, 1, 0, 0, 0, 0, 0, 0, 0, 0, 0, 0, 0, 0, 1],
   [1, 0, 0, 0, 0, 0, 1, 0, 0, 0, 1, 0, 0, 0, 0, 1, 0, 0, 0, 1, 0, 0, 0, 1],
   [1, 0, 0, 0, 0, 0, 1, 0, 0, 0, 1, 0, 0, 0, 0, 0, 0, 0, 0, 0, 0, 0, 0, 1],
   [1, 0, 0, 0, 0, 0, 1, 1, 0, 1, 1, 0, 0, 0, 0, 1, 0, 1, 0, 1, 0, 0, 0, 1],
   [1, 0, 0, 0, 0, 0, 0, 0, 0, 0, 0, 0, 0, 0, 0, 0, 0, 0, 0, 0, 0, 0, 0, 1],
   [1, 0, 0, 0, 0, 0, 0, 0, 0, 0, 0, 0, 0, 0, 0, 0, 0, 0, 0, 0, 0, 0, 0, 1],
   [1, 0, 0, 0, 0, 0, 0, 0, 0, 0, 0, 0, 0, 0, 0, 0, 0, 0, 0, 0, 0, 0, 0, 1],
   [1, 0, 0, 0, 0, 0, 0, 0, 0, 0, 0, 0, 0, 0, 0, 0, 0, 0, 0, 0, 0, 0, 0, 1],
   [1, 0, 0, 0, 0, 0, 0, 0, 0, 0, 0, 0, 0, 0, 0, 0, 0, 0, 0, 0, 0, 0, 0, 1],
   [1, 0, 0, 0, 0, 0, 0, 0, 0, 0, 0, 0, 0, 0, 0, 0, 0, 0, 0, 0, 0, 0, 0, 1],
   [1, 0, 0, 0, 0, 0, 0, 0, 0, 0, 0, 0, 0, 0, 0, 0, 0, 0, 0, 0, 0, 0, 0, 1],
   [1, 1, 1, 1, 1, 1, 1, 1, 1, 0, 0, 0, 0, 0, 0, 0, 0, 0, 0, 0, 0, 0, 0, 1],
   [1, 1, 0, 1, 0, 0, 0, 0, 0, 0, 0, 0, 0, 0, 0, 0, 0, 0, 0, 0, 0, 0, 0, 1],
   [1, 1, 0, 0, 0, 0, 1, 0, 0, 0, 0, 0, 0, 0, 0, 0, 0, 0, 0, 0, 0, 0, 0, 1],
   [1, 1, 0, 1, 0, 0, 0, 0, 0, 0, 0, 0, 0, 0, 0, 0, 0, 0, 0, 0, 0, 0, 0, 1],
   [1, 1, 0, 1, 1, 1, 1, 1, 0, 0, 0, 0, 0, 0, 0, 0, 0, 0, 0, 0, 0, 0, 0, 1],
   [1, 1, 0, 0, 0, 0, 0, 0, 0, 0, 0, 0, 0, 0, 0, 0, 0, 0, 0, 0, 0, 0, 0, 1],
   [1, 1, 1, 0, 0, 0, 0, 0, 0, 0, 0, 0, 0, 0, 0, 0, 0, 0, 0, 0, 0, 0, 0, 1],
   [1, 1, 1, 1, 1, 1, 1, 1, 1, 1, 1, 1, 1, 1, 1, 1, 1, 1, 1, 1, 1, 1, 1, 1]]

/-! ## Notions used to state the properties -/

/-- A grid of `rows` rows that all have `cols` cells. -/
def Rect (g : Grid) (rows cols : Nat) : Prop :=
  g.length = rows ∧ ∀ row ∈ g, row.length = cols

/-- The cell `p` lies inside a grid of `rows` by `cols` cells. -/
def InRange (rows cols : Nat) (p : Vector2i) : Prop :=
  0 ≤ p.x ∧ p.x < cols ∧ 0 ≤ p.y ∧ p.y < rows

instance (rows cols : Nat) (p : Vector2i) : Decidable (InRange rows cols p) := by
  unfold InRange; infer_instance

/-- The cell `p` is strictly inside the border ring of a grid of `rows` by `cols` cells. -/
def Interior (rows cols : Nat) (p : Vector2i) : Prop :=
  0 < p.x ∧ p.x < (cols : Int) - 1 ∧ 0 < p.y ∧ p.y < (rows : Int) - 1

instance (rows cols : Nat) (p : Vector2i) : Decidable (Interior rows cols p) := by
  unfold Interior; infer_instance

/-- The cell `p` is inside the grid and holds a non-zero value: the collision test of
`cast_ray` sets `hit` there. -/
def isWall (g : Grid) (p : Vector2i) : Bool :=
  match cellAt g p with
  | some v => decide (v ≠ 0)
  | none => false

/-- The state after `n` steps of the traversal when no collision test stops it. -/
def walk (A : Arith) (deltaDist : Vector2f) (step : Vector2i) (n : Nat) (s : CastState) :
    CastState :=
  (advance A deltaDist step)^[n] s

/-- Every cell index within `MAX_CELL` of an index of the cell `c` is a value of `int`: the
sums `mapPos += step` of a cast that starts in `c` stay in the range of `int`. -/
def IntRoom (A : Arith) (c : Vector2i) : Prop :=
  ∀ n : Int, |n - c.x| ≤ 128 ∨ |n - c.y| ≤ 128 → A.isInt n = true

/-- The rational value of the initial `sideDist` on an axis with a non-zero direction
component `d`, for the origin coordinate `o` in the cell of index `m`. -/
def side0 (o d : ℚ) (m : Int) : ℚ :=
  if d < 0 then (-(m : ℚ) + o) * |1 / d| else ((m : ℚ) - o + 1) * |1 / d|

/-- The value of `sideDist` on an axis after `a` steps along that axis: `+inf` for a zero
direction component, the initial value plus `a` times `deltaDist` otherwise. -/
def sideAfter (o d : ℚ) (m : Int) (a : Nat) : F :=
  if d = 0 then F.pinf else F.fin (side0 o d m + a * |1 / d|)

/-- After `k` steps of the unobstructed traversal in exact arithmetic from the origin
`(ox, oy)` in the direction `(dx, dy)`, `a` steps were along X and `b` along Y. -/
def AtCounts (ox oy dx dy : ℚ) (k a b : Nat) : Prop :=
  a + b = k ∧
  (walk ideal (deltaDistOf ideal (vec dx dy)) (stepOf (vec dx dy)) k
    (initState ideal (vec ox oy) (vec dx dy) ⟨F.truncQ ox, F.truncQ oy⟩)).mapPos
    = ⟨F.truncQ ox + a * (stepOf (vec dx dy)).x, F.truncQ oy + b * (stepOf (vec dx dy)).y⟩ ∧
  (walk ideal (deltaDistOf ideal (vec dx dy)) (stepOf (vec dx dy)) k
    (initState ideal (vec ox oy) (vec dx dy) ⟨F.truncQ ox, F.truncQ oy⟩)).sideDist
    = ⟨sideAfter ox dx (F.truncQ ox) a, sideAfter oy dy (F.truncQ oy) b⟩

/-- The point `(x, y)` lies strictly inside the cell `c`, the unit square
`(c.x, c.x + 1) x (c.y, c.y + 1)`. -/
def InsideCell (c : Vector2i) (x y : ℚ) : Prop :=
  (c.x : ℚ) < x ∧ x < c.x + 1 ∧ (c.y : ℚ) < y ∧ y < c.y + 1

/-- The straight ray from `(ox, oy)` in the direction `(dx, dy)` enters the wall cell `c`,
which is not the cell of the origin, before it enters any other wall cell: its point of
parameter `t ≥ 0` is inside `c`, and up to `t` no point of the ray is inside a wall cell
other than `c` and the cell of the origin. -/
def EntersFirst (g : Grid) (ox oy dx dy : ℚ) (c : Vector2i) (t : ℚ) : Prop :=
  isWall g c = true ∧ c ≠ ⟨⌊ox⌋, ⌊oy⌋⟩ ∧ 0 ≤ t ∧ InsideCell c (ox + t * dx) (oy + t * dy) ∧
  ∀ (s : ℚ) (w : Vector2i), 0 ≤ s → s ≤ t → InsideCell w (ox + s * dx) (oy + s * dy) →
    isWall g w = true → w = c ∨ w = ⟨⌊ox⌋, ⌊oy⌋⟩

/-- Up to the parameter `t` the ray from `(ox, oy)` in the direction `(dx, dy)` passes
through no corner of the grid, a point with two integer coordinates. -/
def NoCorner (ox oy dx dy t : ℚ) : Prop :=
  ∀ s : ℚ, 0 ≤ s → s ≤ t → ¬ ((∃ i : Int, ox + s * dx = i) ∧ (∃ j : Int, oy + s * dy = j))

/-- The step of the traversal on an axis with the direction component `d`. -/
def stepSign (d : ℚ) : Int := if d < 0 then -1 else 1

/-- The 3x3 grid whose only walls are the cells of row 1 in the columns 0 and 1. -/
def grid3 : Grid := [[0, 0, 0], [1, 1, 0], [0, 0, 0]]

/-- The state `s` with both components of `sideDist` multiplied by `c`, without rounding. -/
def scaleState (A : Arith) (c : ℚ) (s : CastState) : CastState :=
  { s with sideDist := ⟨F.fin c * s.sideDist.x, F.fin c * s.sideDist.y⟩ }

/-- The 5x5 grid `grid5` with a wall in its centre cell, row 2, column 2. -/
def grid5w : Grid :=
  [[1, 1, 1, 1, 1], [1, 0, 0, 0, 1], [1, 0, 1, 0, 1], [1, 0, 0, 0, 1], [1, 1, 1, 1, 1]]

/-- The cell `(gridX, gridY)` that `Map::toggleCell` computes for the pixel position
`mousePos`: the quotients `mousePos.x / cellsize` and `mousePos.y / cellsize` converted to
`int`; `none` when a conversion is undefined. -/
def toggleIndex (A : Arith) (cellsize : F) (mousePos : Vector2i) : Option Vector2i :=
  match (F.ofInt A mousePos.x / cellsize).toInt A,
      (F.ofInt A mousePos.y / cellsize).toInt A with
  | some gridX, some gridY => some ⟨gridX, gridY⟩
  | _, _ => none

/-- The cell `next_pos` that `Player::update` tests before a forward move. -/
def nextCell (A : Arith) (position heading : Vector2f) (deltaTime : F) : Option Vector2i :=
  Vector2f.toVector2i A
    ⟨position.x + heading.x * deltaTime * MOV_SPEED,
     position.y + heading.y * deltaTime * MOV_SPEED⟩

/-- The cell `back_pos` that `Player::update` tests before a backward move. -/
def backCell (A : Arith) (position heading : Vector2f) (deltaTime : F) : Option Vector2i :=
  Vector2f.toVector2i A
    ⟨position.x - heading.x * deltaTime * MOV_SPEED,
     position.y - heading.y * deltaTime * MOV_SPEED⟩

/-- The position after the statements `position.x += direction.x * MOV_SPEED * deltaTime;
position.y += direction.y * MOV_SPEED * deltaTime` of `Player::update`. -/
def movedForward (A : Arith) (position heading : Vector2f) (deltaTime : F) : Vector2f :=
  ⟨position.x + heading.x * MOV_SPEED * deltaTime,
   position.y + heading.y * MOV_SPEED * deltaTime⟩

/-- The position after the statements `position.x -= direction.x * MOV_SPEED * deltaTime;
position.y -= direction.y * MOV_SPEED * deltaTime` of `Player::update`. -/
def movedBack (A : Arith) (position heading : Vector2f) (deltaTime : F) : Vector2f :=
  ⟨position.x - heading.x * MOV_SPEED * deltaTime,
   position.y - heading.y * MOV_SPEED * deltaTime⟩

/-- The arithmetic `A` computes the rational `q` without rounding it. -/
def Agree (A : Arith) (q : ℚ) : Prop := A.rnd q = F.fin q

instance (A : Arith) (q : ℚ) : Decidable (Agree A q) := by
  unfold Agree; infer_instance

/-- The arithmetic `A` rounds none of the values that `cast_ray` computes on one axis, for
the origin coordinate `o` in the cell of index `m` and the direction component `d`: the
quotient `1 / d`, the converted cell index, the sums and the product of the initial
`sideDist`, and the `sideDist` accumulated over up to `MAX_CELL` steps (the final subtraction
of `deltaDist` gives back the value before the last step). -/
def AxisExact (A : Arith) (o d : ℚ) (m : Int) : Prop :=
  (d ≠ 0 → Agree A (1 / d)) ∧
  (if d < 0 then Agree A (-(m : ℚ)) ∧ Agree A (-(m : ℚ) + o)
    else Agree A (m : ℚ) ∧ Agree A ((m : ℚ) - o) ∧ Agree A ((m : ℚ) - o + 1)) ∧
  (d ≠ 0 → ∀ a : Nat, a ≤ MAX_CELL → Agree A (side0 o d m + a * |1 / d|))

instance (A : Arith) (o d : ℚ) (m : Int) : Decidable (AxisExact A o d m) := by
  unfold AxisExact; infer_instance

/-- The arithmetic `A` rounds none of the values of `start + distance * dir` for the origin
`(ox, oy)`, the direction `(dx, dy)` and the distance `q`. -/
def PointExact (A : Arith) (ox oy dx dy q : ℚ) : Prop :=
  Agree A (dx * q) ∧ Agree A (ox + dx * q) ∧ Agree A (dy * q) ∧ Agree A (oy + dy * q)

instance (A : Arith) (ox oy dx dy q : ℚ) : Decidable (PointExact A ox oy dx dy q) := by
  unfold PointExact; infer_instance

/-- The arithmetic `A` rounds none of the values that `Player::update` computes on one
coordinate for the forward candidate `p + d * t * MOV_SPEED` and the forward move
`p + d * MOV_SPEED * t`. -/
def MoveExact (A : Arith) (p d t : ℚ) : Prop :=
  Agree A (d * t) ∧ Agree A (d * t * 8) ∧ Agree A (p + d * t * 8) ∧
  Agree A (d * 8) ∧ Agree A (d * 8 * t) ∧ Agree A (p + d * 8 * t)

instance (A : Arith) (p d t : ℚ) : Decidable (MoveExact A p d t) := by
  unfold MoveExact; infer_instance

/-- The value of the `float` literal written as the rational `q`: the binary32 number
nearest to `q`. -/
def lit32 (q : ℚ) : ℚ :=
  match round32 q with
  | F.fin r => r
  | _ => 0

/-- Dot product of two vectors. -/
def dotF (A : Arith) (a b : Vector2f) : F := a.x * b.x + a.y * b.y

/-- Cross product of two vectors in the plane. -/
def crossF (A : Arith) (a b : Vector2f) : F := a.x * b.y - a.y * b.x

/-- A sequence of `Map::toggleCell` calls, one per pixel position of the list. -/
def toggleSeq (A : Arith) (m : Map) : List Vector2i → Option Map
  | [] => some m
  | p :: ps =>
    match m.toggleCell A p with
    | none => none
    | some m1 => toggleSeq A m1 ps

/-- Every cell of the border ring (row `0`, row `rows - 1`, column `0`, column `cols - 1`)
holds a wall, the value `1`. -/
def BorderWall (g : Grid) (rows cols : Nat) : Prop :=
  ∀ p, InRange rows cols p → ¬ Interior rows cols p → cellAt g p = some 1

/-- The 2x2 grid whose only wall is the cell of row 0, column 1. -/
def gridOneWall : Grid := [[0, 1], [0, 0]]

/-- The grid of one row whose only wall is the cell of column 3. -/
def gridRow4 : Grid := [[0, 0, 0, 1]]

/-- The grid of one column whose only wall is the cell of row 2. -/
def gridCol3 : Grid := [[0], [0], [1]]

/-- The 6x6 grid with an all-wall border and an open interior. -/
def grid6 : Grid :=
  [[1, 1, 1, 1, 1, 1], [1, 0, 0, 0, 0, 1], [1, 0, 0, 0, 0, 1], [1, 0, 0, 0, 0, 1],
   [1, 0, 0, 0, 0, 1], [1, 1, 1, 1, 1, 1]]

/-- The 5x5 grid with an all-wall border and an open interior. -/
def grid5 : Grid :=
  [[1, 1, 1, 1, 1], [1, 0, 0, 0, 1], [1, 0, 0, 0, 1], [1, 0, 0, 0, 1], [1, 1, 1, 1, 1]]

/-! # Properties -/

/-! ## Rectangular grids and cells -/

theorem Rect.row_length {g : Grid} {rows cols : Nat} (h : Rect g rows cols) {i : Nat}
    {row : List Int} (hrow : g[i]? = some row) : row.length = cols :=
  h.2 row (List.getElem?_mem hrow)

theorem cellAt_isSome_of_inRange {g : Grid} {rows cols : Nat} (h : Rect g rows cols)
    {p : Vector2i} (hp : InRange rows cols p) : ∃ v, cellAt g p = some v := by
  obtain ⟨hx0, hx1, hy0, hy1⟩ := hp
  have hy : p.y.toNat < g.length := by rw [h.1]; omega
  have hrow : g[p.y.toNat]? = some g[p.y.toNat] := List.getElem?_eq_getElem hy
  have hlen : (g[p.y.toNat]).length = cols := h.row_length hrow
  have hx : p.x.toNat < (g[p.y.toNat]).length := by rw [hlen]; omega
  refine ⟨(g[p.y.toNat])[p.x.toNat], ?_⟩
  unfold cellAt
  rw [if_neg (by omega), hrow]
  exact List.getElem?_eq_getElem hx

theorem cellAt_eq_none_of_not_inRange {g : Grid} {rows cols : Nat} (h : Rect g rows cols)
    {p : Vector2i} (hp : ¬ InRange rows cols p) : cellAt g p = none := by
  unfold cellAt
  by_cases hneg : p.x < 0 ∨ p.y < 0
  · rw [if_pos hneg]
  · rw [if_neg hneg]
    cases hrow : g[p.y.toNat]? with
    | none => rfl
    | some row =>
      have hlen : row.length = cols := h.row_length hrow
      have hy : p.y.toNat < rows := by
        rw [← h.1]; exact (List.getElem?_eq_some_iff.mp hrow).1
      simp only
      apply List.getElem?_eq_none
      rw [hlen]
      unfold InRange at hp
      omega

theorem inGrid_rect {g : Grid} {rows cols : Nat} (h : Rect g rows cols) (hrows : 0 < rows)
    (p : Vector2i) : inGrid g p = some (decide (InRange rows cols p)) := by
  unfold inGrid
  cases g with
  | nil => simp [Rect] at h; omega
  | cons row0 rest =>
    have hlen : row0.length = cols := h.2 row0 (List.mem_cons_self _ _)
    have hl : (row0 :: rest).length = rows := h.1
    by_cases hx : p.x ≥ 0
    · rw [if_pos hx]
      simp only [hlen, hl]
      congr 1
      unfold InRange
      by_cases h1 : p.x < cols <;> by_cases h2 : 0 ≤ p.y <;> by_cases h3 : p.y < rows <;>
        simp [h1, h2, h3, hx]
    · rw [if_neg hx]
      congr 1
      unfold InRange
      simp; intro h0; omega

@[simp] theorem F.lt_fin_fin (a b : ℚ) : F.lt (F.fin a) (F.fin b) = decide (a < b) := rfl

theorem truncQ_of_nonneg {q : ℚ} (h : 0 ≤ q) : F.truncQ q = ⌊q⌋ := by
  unfold F.truncQ; rw [if_pos h]

theorem truncQ_pos_iff (q : ℚ) : 0 < F.truncQ q ↔ 0 < ⌊q⌋ := by
  unfold F.truncQ
  by_cases h : 0 ≤ q
  · rw [if_pos h]
  · rw [if_neg h]
    have hq : q < 0 := not_le.mp h
    have h1 : ⌈q⌉ ≤ 0 := Int.ceil_le.mpr (by exact_mod_cast hq.le)
    have h2 : ⌊q⌋ < 0 := Int.floor_lt.mpr (by exact_mod_cast hq)
    omega

theorem truncQ_eq_floor_of_pos {q : ℚ} (h : 0 < F.truncQ q ∨ 0 < ⌊q⌋) : F.truncQ q = ⌊q⌋ := by
  have hpos : 0 < ⌊q⌋ := by
    rcases h with h | h
    · exact (truncQ_pos_iff q).mp h
    · exact h
  apply truncQ_of_nonneg
  have h1 : ((⌊q⌋ : Int) : ℚ) ≤ q := Int.floor_le q
  have h2 : (0 : ℚ) < ((⌊q⌋ : Int) : ℚ) := by exact_mod_cast hpos
  linarith

theorem interior_trunc_iff (rows cols : Nat) (a b : ℚ) :
    Interior rows cols ⟨F.truncQ a, F.truncQ b⟩ ↔ Interior rows cols ⟨⌊a⌋, ⌊b⌋⟩ := by
  unfold Interior
  simp only
  constructor
  · rintro ⟨h1, h2, h3, h4⟩
    have e1 := truncQ_eq_floor_of_pos (Or.inl h1)
    have e3 := truncQ_eq_floor_of_pos (Or.inl h3)
    rw [e1] at h1 h2
    rw [e3] at h3 h4
    exact ⟨h1, h2, h3, h4⟩
  · rintro ⟨h1, h2, h3, h4⟩
    rw [truncQ_eq_floor_of_pos (Or.inr h1), truncQ_eq_floor_of_pos (Or.inr h3)]
    exact ⟨h1, h2, h3, h4⟩

theorem toggleGuard_rect {g : Grid} {rows cols : Nat} (h : Rect g rows cols) (hrows : 0 < rows)
    (hcols : 0 < cols) (p : Vector2i) :
    toggleGuard g p = some (decide (Interior rows cols p)) := by
  unfold toggleGuard
  cases g with
  | nil => simp [Rect] at h; omega
  | cons row0 rest =>
    have hlen : row0.length = cols := h.2 row0 (List.mem_cons_self _ _)
    have hl : (row0 :: rest).length = rows := h.1
    have e1 : sizePred cols = cols - 1 := by unfold sizePred; rw [if_neg (by omega)]
    have e2 : sizePred rows = rows - 1 := by unfold sizePred; rw [if_neg (by omega)]
    by_cases hx : p.x > 0
    · rw [if_pos hx]
      simp only [hlen, hl, e1, e2]
      congr 1
      unfold Interior
      by_cases h1 : p.x < (cols : Int) - 1 <;> by_cases h2 : 0 < p.y <;>
        by_cases h3 : p.y < (rows : Int) - 1 <;> simp [h1, h2, h3, hx] <;> omega
    · rw [if_neg hx]
      congr 1
      unfold Interior
      simp; intro h0; omega

theorem Interior.inRange {rows cols : Nat} {p : Vector2i} (h : Interior rows cols p) :
    InRange rows cols p := by
  unfold Interior at h; unfold InRange; omega

theorem setCell_eq_some {g : Grid} {p : Vector2i} {v : Int} (w : Int)
    (h : cellAt g p = some v) :
    ∃ row, g[p.y.toNat]? = some row ∧ p.x.toNat < row.length ∧ 0 ≤ p.x ∧ 0 ≤ p.y ∧
      row[p.x.toNat]? = some v ∧
      setCell g p w = some (g.set p.y.toNat (row.set p.x.toNat w)) := by
  unfold cellAt at h
  by_cases hneg : p.x < 0 ∨ p.y < 0
  · rw [if_pos hneg] at h; exact absurd h (by simp)
  · rw [if_neg hneg] at h
    cases hrow : g[p.y.toNat]? with
    | none => rw [hrow] at h; exact absurd h (by simp)
    | some row =>
      rw [hrow] at h
      simp only at h
      have hx : p.x.toNat < row.length := (List.getElem?_eq_some_iff.mp h).1
      refine ⟨row, rfl, hx, by omega, by omega, h, ?_⟩
      unfold setCell
      rw [if_neg hneg, hrow]
      simp only
      rw [if_pos hx]

theorem cellAt_setCell_self {g g1 : Grid} {p : Vector2i} {v w : Int}
    (h : cellAt g p = some v) (hs : setCell g p w = some g1) : cellAt g1 p = some w := by
  obtain ⟨row, hrow, hx, hx0, hy0, _, hset⟩ := setCell_eq_some w h
  rw [hset] at hs
  have hg1 : g1 = g.set p.y.toNat (row.set p.x.toNat w) := (Option.some.inj hs).symm
  have hy : p.y.toNat < g.length := (List.getElem?_eq_some_iff.mp hrow).1
  unfold cellAt
  rw [if_neg (by omega), hg1, List.getElem?_set_self hy]
  simp only
  exact List.getElem?_set_self hx

theorem cellAt_setCell_ne {g g1 : Grid} {p q : Vector2i} {v w : Int}
    (h : cellAt g p = some v) (hs : setCell g p w = some g1) (hq : q ≠ p) :
    cellAt g1 q = cellAt g q := by
  obtain ⟨row, hrow, hx, hx0, hy0, _, hset⟩ := setCell_eq_some w h
  rw [hset] at hs
  have hg1 : g1 = g.set p.y.toNat (row.set p.x.toNat w) := (Option.some.inj hs).symm
  have hy : p.y.toNat < g.length := (List.getElem?_eq_some_iff.mp hrow).1
  unfold cellAt
  by_cases hneg : q.x < 0 ∨ q.y < 0
  · rw [if_pos hneg, if_pos hneg]
  · rw [if_neg hneg, if_neg hneg, hg1]
    by_cases hyy : p.y.toNat = q.y.toNat
    · rw [← hyy, List.getElem?_set_self hy, hrow]
      simp only
      have hxx : p.x.toNat ≠ q.x.toNat := by
        intro hxe
        apply hq
        cases p; cases q
        simp only [Vector2i.mk.injEq]
        simp only at hxe hyy hx0 hy0 hneg
        omega
      exact List.getElem?_set_ne hxx
    · rw [List.getElem?_set_ne hyy]

theorem setCell_restore {g g1 : Grid} {p : Vector2i} {v w : Int}
    (h : cellAt g p = some v) (hs : setCell g p w = some g1) : setCell g1 p v = some g := by
  obtain ⟨row, hrow, hx, hx0, hy0, hv, hset⟩ := setCell_eq_some w h
  rw [hset] at hs
  have hg1 : g1 = g.set p.y.toNat (row.set p.x.toNat w) := (Option.some.inj hs).symm
  have hy : p.y.toNat < g.length := (List.getElem?_eq_some_iff.mp hrow).1
  have h1 : cellAt g1 p = some w := cellAt_setCell_self h (by rw [hset, hg1])
  obtain ⟨row1, hrow1, _, _, _, _, hset1⟩ := setCell_eq_some v h1
  rw [hset1]
  have hr1 : row1 = row.set p.x.toNat w := by
    rw [hg1, List.getElem?_set_self hy] at hrow1
    exact (Option.some.inj hrow1).symm
  rw [hr1, hg1, List.set_set, List.set_set]
  congr 1
  have e1 : row.set p.x.toNat v = row := by
    apply List.ext_getElem?
    intro n
    by_cases hn : p.x.toNat = n
    · rw [← hn, List.getElem?_set_self hx, hv]
    · rw [List.getElem?_set_ne hn]
  rw [e1]
  apply List.ext_getElem?
  intro n
  by_cases hn : p.y.toNat = n
  · rw [← hn, List.getElem?_set_self hy, hrow]
  · rw [List.getElem?_set_ne hn]

theorem setCell_rect {g g1 : Grid} {rows cols : Nat} {p : Vector2i} {v w : Int}
    (hr : Rect g rows cols) (h : cellAt g p = some v) (hs : setCell g p w = some g1) :
    Rect g1 rows cols := by
  obtain ⟨row, hrow, hx, hx0, hy0, hv, hset⟩ := setCell_eq_some w h
  rw [hset] at hs
  have hg1 : g1 = g.set p.y.toNat (row.set p.x.toNat w) := (Option.some.inj hs).symm
  refine ⟨by rw [hg1, List.length_set]; exact hr.1, ?_⟩
  intro r hmem
  rw [hg1] at hmem
  rcases List.mem_or_eq_of_mem_set hmem with hm | hm
  · exact hr.2 r hm
  · rw [hm, List.length_set]; exact hr.row_length hrow

theorem openCell_rect {g : Grid} {rows cols : Nat} (hr : Rect g rows cols) (hrows : 0 < rows)
    (p : Vector2i) : openCell g p = some (decide (cellAt g p = some 0)) := by
  unfold openCell
  rw [inGrid_rect hr hrows]
  by_cases hp : InRange rows cols p
  · obtain ⟨v, hv⟩ := cellAt_isSome_of_inRange hr hp
    rw [decide_eq_true hp, hv]
    simp only [Option.some.injEq]
  · rw [decide_eq_false hp, cellAt_eq_none_of_not_inRange hr hp]
    simp

theorem grid5_rect : Rect grid5 5 5 := by
  unfold Rect grid5
  simp

theorem rows_pos_of_cellAt {g : Grid} {rows cols : Nat} (hr : Rect g rows cols) {p : Vector2i}
    {v : Int} (h : cellAt g p = some v) : 0 < rows := by
  by_contra h0
  have hp : ¬ InRange rows cols p := by
    unfold InRange; omega
  rw [cellAt_eq_none_of_not_inRange hr hp] at h
  exact absurd h (by simp)

theorem isWall_of_cellAt {g : Grid} {p : Vector2i} {v : Int} (h : cellAt g p = some v) :
    isWall g p = decide (v ≠ 0) := by
  unfold isWall; rw [h]

theorem stepOf_x_ne_zero (dir : Vector2f) : (stepOf dir).x ≠ 0 := by
  unfold stepOf; simp only; split <;> decide

theorem stepOf_y_ne_zero (dir : Vector2f) : (stepOf dir).y ≠ 0 := by
  unfold stepOf; simp only; split <;> decide

theorem lt_pinf_left (b : F) : F.lt F.pinf b = false := by
  cases b <;> rfl

theorem lt_fin_pinf (a : ℚ) : F.lt (F.fin a) F.pinf = true := rfl

theorem isWall_open_cell (p : Vector2i) : isWall [[0]] p = false := by
  unfold isWall
  cases h : cellAt [[0]] p with
  | none => rfl
  | some v =>
    have hv : v = 0 := by
      unfold cellAt at h
      by_cases hneg : p.x < 0 ∨ p.y < 0
      · rw [if_pos hneg] at h; exact absurd h (by simp)
      · rw [if_neg hneg] at h
        cases hy : p.y.toNat with
        | zero =>
          rw [hy] at h
          simp only [List.getElem?_cons_zero] at h
          cases hx : p.x.toNat with
          | zero => rw [hx] at h; simpa using h.symm
          | succ m => rw [hx] at h; simp at h
        | succ m => rw [hy] at h; simp at h
    simp [hv]

theorem isWall_cellAt {g : Grid} {p : Vector2i} (h : isWall g p = true) :
    ∃ v, cellAt g p = some v := by
  unfold isWall at h
  cases hc : cellAt g p with
  | none => rw [hc] at h; exact absurd h (by simp)
  | some v => exact ⟨v, rfl⟩

theorem F.lt_irrefl_all (a : F) : F.lt a a = false := by
  cases a <;> simp [F.lt]

theorem grid3_rect : Rect grid3 3 3 := by
  unfold Rect grid3; simp

theorem grid5_border : BorderWall grid5 5 5 := by
  intro p hin hnot
  obtain ⟨x, y⟩ := p
  unfold InRange at hin
  unfold Interior at hnot
  simp only at hin hnot
  obtain ⟨h1, h2, h3, h4⟩ := hin
  have hx : x < 5 := by exact_mod_cast h2
  have hy : y < 5 := by exact_mod_cast h4
  interval_cases x <;> interval_cases y <;> first | rfl | (exfalso; apply hnot; decide)

theorem inRange_of_cellAt {g : Grid} {rows cols : Nat} (hr : Rect g rows cols) {p : Vector2i}
    {v : Int} (h : cellAt g p = some v) : InRange rows cols p := by
  by_contra hp
  rw [cellAt_eq_none_of_not_inRange hr hp] at h
  exact absurd h (by simp)

theorem cellAt_isSome_iff {g : Grid} {rows cols : Nat} (hr : Rect g rows cols) (p : Vector2i) :
    (∃ v, cellAt g p = some v) ↔ InRange rows cols p :=
  ⟨fun ⟨_, h⟩ => inRange_of_cellAt hr h, fun h => cellAt_isSome_of_inRange hr h⟩

theorem setCell_isSome_iff {g : Grid} {rows cols : Nat} (hr : Rect g rows cols) (p : Vector2i)
    (w : Int) : (∃ g1, setCell g p w = some g1) ↔ InRange rows cols p := by
  constructor
  · rintro ⟨g1, h⟩
    unfold setCell at h
    by_cases hneg : p.x < 0 ∨ p.y < 0
    · rw [if_pos hneg] at h; exact absurd h (by simp)
    · rw [if_neg hneg] at h
      cases hrow : g[p.y.toNat]? with
      | none => rw [hrow] at h; exact absurd h (by simp)
      | some row =>
        rw [hrow] at h
        simp only at h
        by_cases hx : p.x.toNat < row.length
        · have hc : cellAt g p = some row[p.x.toNat] := by
            unfold cellAt
            rw [if_neg hneg, hrow]
            exact List.getElem?_eq_getElem hx
          exact inRange_of_cellAt hr hc
        · rw [if_neg hx] at h; exact absurd h (by simp)
  · intro hp
    obtain ⟨v, hv⟩ := cellAt_isSome_of_inRange hr hp
    obtain ⟨row, _, _, _, _, _, hset⟩ := setCell_eq_some w hv
    exact ⟨_, hset⟩

theorem cellAt_neg {g : Grid} {p : Vector2i} (h : p.x < 0 ∨ p.y < 0) : cellAt g p = none := by
  unfold cellAt; rw [if_pos h]

theorem isWall_congr {g1 g2 : Grid} {p : Vector2i} (h : cellAt g1 p = cellAt g2 p) :
    isWall g1 p = isWall g2 p := by
  unfold isWall; rw [h]

theorem grid5w_rect : Rect grid5w 5 5 := by
  unfold Rect grid5w; simp

theorem grid5w_diff (p : Vector2i) (hp : p ≠ ⟨2, 2⟩) : cellAt grid5 p = cellAt grid5w p := by
  by_cases hin : InRange 5 5 p
  · obtain ⟨x, y⟩ := p
    unfold InRange at hin
    simp only at hin
    obtain ⟨h1, h2, h3, h4⟩ := hin
    have hx : x < 5 := by exact_mod_cast h2
    have hy : y < 5 := by exact_mod_cast h4
    interval_cases x <;> interval_cases y <;> first | rfl | exact absurd rfl hp
  · rw [cellAt_eq_none_of_not_inRange grid5_rect hin,
      cellAt_eq_none_of_not_inRange grid5w_rect hin]

theorem isWall_of_border {g : Grid} {rows cols : Nat} (hb : BorderWall g rows cols)
    {p : Vector2i} (hin : InRange rows cols p) (hnot : ¬ Interior rows cols p) :
    isWall g p = true := by
  unfold isWall; rw [hb p hin hnot]; rfl

theorem stepOf_x_cases (dir : Vector2f) : (stepOf dir).x = 1 ∨ (stepOf dir).x = -1 := by
  unfold stepOf; simp only; split
  · right; rfl
  · left; rfl

theorem stepOf_y_cases (dir : Vector2f) : (stepOf dir).y = 1 ∨ (stepOf dir).y = -1 := by
  unfold stepOf; simp only; split
  · right; rfl
  · left; rfl

theorem mainGrid_rect : Rect mainGrid 24 24 := by
  unfold Rect mainGrid; simp

theorem mainGrid_border : BorderWall mainGrid 24 24 := by
  intro p hin hnot
  obtain ⟨x, y⟩ := p
  unfold InRange at hin
  unfold Interior at hnot
  simp only at hin hnot
  obtain ⟨h1, h2, h3, h4⟩ := hin
  have hx : x < 24 := by exact_mod_cast h2
  have hy : y < 24 := by exact_mod_cast h4
  have hcases : x = 0 ∨ x = 23 ∨ y = 0 ∨ y = 23 := by
    by_contra hcon
    apply hnot
    push_cast
    omega
  rcases hcases with h | h | h | h
  · subst h; interval_cases y <;> rfl
  · subst h; interval_cases y <;> rfl
  · subst h; interval_cases x <;> rfl
  · subst h; interval_cases x <;> rfl

theorem F.lt_asymm_all {a b : F} (h : F.lt a b = true) : F.lt b a = false := by
  cases a <;> cases b <;> simp [F.lt] at h ⊢
  exact le_of_lt h

/-! ## The traversal, for every arithmetic -/

theorem walk_zero {A : Arith} (dd : Vector2f) (st : Vector2i) (s : CastState) : walk A dd st 0 s = s := rfl

theorem walk_succ {A : Arith} (dd : Vector2f) (st : Vector2i) (n : Nat) (s : CastState) :
    walk A dd st (n + 1) s = advance A dd st (walk A dd st n s) :=
  Function.iterate_succ_apply' _ _ _

theorem walk_succ_left {A : Arith} (dd : Vector2f) (st : Vector2i) (n : Nat) (s : CastState) :
    walk A dd st (n + 1) s = walk A dd st n (advance A dd st s) :=
  Function.iterate_succ_apply _ _ _

theorem advance_hit {A : Arith} (dd : Vector2f) (st : Vector2i) (s : CastState) :
    (advance A dd st s).hit = s.hit := by
  unfold advance; split <;> rfl

theorem advance_i {A : Arith} (dd : Vector2f) (st : Vector2i) (s : CastState) :
    (advance A dd st s).i = s.i := by
  unfold advance; split <;> rfl

theorem advance_with {A : Arith} (dd : Vector2f) (st : Vector2i) (s : CastState) (h : Bool) (j : Nat) :
    advance A dd st { s with hit := h, i := j } = { advance A dd st s with hit := h, i := j } := by
  unfold advance; split <;> rfl

theorem walk_with {A : Arith} (dd : Vector2f) (st : Vector2i) (n : Nat) (s : CastState) (h : Bool)
    (j : Nat) :
    walk A dd st n { s with hit := h, i := j } = { walk A dd st n s with hit := h, i := j } := by
  induction n with
  | zero => rfl
  | succ n ih => rw [walk_succ, ih, advance_with, ← walk_succ]

theorem cast_ray_of_castFinal {A : Arith} {start dir : Vector2f} {map : Map} {s : CastState}
    (h : castFinal A start dir map = some s) :
    cast_ray A start dir map = some
      ⟨Vector2f.add A start (Vector2f.smul A (distanceOf A (deltaDistOf A dir) s) dir),
        distanceOf A (deltaDistOf A dir) s, s.hit, s.isVertical⟩ := by
  unfold cast_ray; rw [h]

/-- One step of the traversal either moves along X and clears `isVertical`, or moves along Y
and sets it. -/
theorem advance_cases {A : Arith} (dd : Vector2f) (st : Vector2i) (s : CastState) :
    (F.lt s.sideDist.x s.sideDist.y = true ∧
      (advance A dd st s).sideDist = ⟨s.sideDist.x + dd.x, s.sideDist.y⟩ ∧
      (advance A dd st s).mapPos = ⟨s.mapPos.x + st.x, s.mapPos.y⟩ ∧
      (advance A dd st s).isVertical = false) ∨
    (F.lt s.sideDist.x s.sideDist.y = false ∧
      (advance A dd st s).sideDist = ⟨s.sideDist.x, s.sideDist.y + dd.y⟩ ∧
      (advance A dd st s).mapPos = ⟨s.mapPos.x, s.mapPos.y + st.y⟩ ∧
      (advance A dd st s).isVertical = true) := by
  unfold advance
  cases h : F.lt s.sideDist.x s.sideDist.y
  · right; simp
  · left; simp

theorem distanceOf_with {A : Arith} (dd : Vector2f) (s : CastState) (h : Bool) (j : Nat) :
    distanceOf A dd { s with hit := h, i := j } = distanceOf A dd s := rfl

/-- After `k` steps the traversal is `a` steps along X and `b` steps along Y away from its
first cell, with `a + b = k`. -/
theorem walk_mapPos {A : Arith} (dd : Vector2f) (st : Vector2i) (s : CastState) (k : Nat) :
    ∃ a b : Nat, a + b = k ∧
      (walk A dd st k s).mapPos = ⟨s.mapPos.x + a * st.x, s.mapPos.y + b * st.y⟩ := by
  induction k with
  | zero => exact ⟨0, 0, rfl, by simp [walk_zero]⟩
  | succ k ih =>
    obtain ⟨a, b, hab, hpos⟩ := ih
    rw [walk_succ]
    rcases advance_cases dd st (walk A dd st k s) with ⟨_, _, h2, _⟩ | ⟨_, _, h2, _⟩
    · refine ⟨a + 1, b, by omega, ?_⟩
      rw [h2, hpos]
      simp only [Vector2i.mk.injEq, and_true]
      push_cast; ring
    · refine ⟨a, b + 1, by omega, ?_⟩
      rw [h2, hpos]
      simp only [Vector2i.mk.injEq, true_and]
      push_cast; ring

theorem walk_ne_start {A : Arith} (dd : Vector2f) (dir : Vector2f) (s : CastState) (k : Nat)
    (hk : 1 ≤ k) : (walk A dd (stepOf dir) k s).mapPos ≠ s.mapPos := by
  obtain ⟨a, b, hab, hpos⟩ := walk_mapPos dd (stepOf dir) s k
  have hx := stepOf_x_ne_zero dir
  have hy := stepOf_y_ne_zero dir
  rw [hpos]
  intro h
  cases hs : s.mapPos with
  | mk mx my =>
    rw [hs] at h
    simp only [Vector2i.mk.injEq] at h
    have h1 : (a : Int) * (stepOf dir).x = 0 := by omega
    have h2 : (b : Int) * (stepOf dir).y = 0 := by omega
    rcases mul_eq_zero.mp h1 with ha | ha
    · rcases mul_eq_zero.mp h2 with hb | hb
      · have : a = 0 := by exact_mod_cast ha
        have : b = 0 := by exact_mod_cast hb
        omega
      · exact hy hb
    · exact hx ha

/-- From a strictly interior cell the traversal lands on a wall within
`(rows - 2) + (cols - 2) - 1` steps when the border ring is all wall. -/
theorem border_reached {A : Arith} {g : Grid} {rows cols : Nat} (hb : BorderWall g rows cols)
    (dd : Vector2f) (dir : Vector2f) (s : CastState) (hint : Interior rows cols s.mapPos)
    (Ax By : Nat)
    (hAx : ((stepOf dir).x = 1 ∧ s.mapPos.x + Ax = (cols : Int) - 1) ∨
      ((stepOf dir).x = -1 ∧ s.mapPos.x - Ax = 0))
    (hBy : ((stepOf dir).y = 1 ∧ s.mapPos.y + By = (rows : Int) - 1) ∨
      ((stepOf dir).y = -1 ∧ s.mapPos.y - By = 0)) (k : Nat) :
    (∃ j, 1 ≤ j ∧ j ≤ k ∧ isWall g (walk A dd (stepOf dir) j s).mapPos = true) ∨
    (∃ a b : Nat, a + b = k ∧ a < Ax ∧ b < By ∧
      (walk A dd (stepOf dir) k s).mapPos
        = ⟨s.mapPos.x + a * (stepOf dir).x, s.mapPos.y + b * (stepOf dir).y⟩) := by
  unfold Interior at hint
  induction k with
  | zero =>
    right
    refine ⟨0, 0, rfl, ?_, ?_, by simp [walk_zero]⟩
    · rcases hAx with ⟨_, h⟩ | ⟨_, h⟩ <;> omega
    · rcases hBy with ⟨_, h⟩ | ⟨_, h⟩ <;> omega
  | succ k ih =>
    rcases ih with ⟨j, hj1, hjk, hw⟩ | ⟨a, b, hab, ha, hb', hpos⟩
    · left; exact ⟨j, hj1, by omega, hw⟩
    · rw [walk_succ]
      rcases advance_cases dd (stepOf dir) (walk A dd (stepOf dir) k s)
        with ⟨_, _, h2, _⟩ | ⟨_, _, h2, _⟩
      · -- a step along X
        have hnew : (advance A dd (stepOf dir) (walk A dd (stepOf dir) k s)).mapPos
            = ⟨s.mapPos.x + ((a + 1 : Nat) : Int) * (stepOf dir).x,
               s.mapPos.y + (b : Int) * (stepOf dir).y⟩ := by
          rw [h2, hpos]
          simp only [Vector2i.mk.injEq, and_true]
          push_cast; ring
        by_cases hlast : a + 1 = Ax
        · left
          refine ⟨k + 1, by omega, le_refl _, ?_⟩
          rw [walk_succ, hnew]
          apply isWall_of_border hb
          · unfold InRange
            simp only
            rcases hAx with ⟨hs, h⟩ | ⟨hs, h⟩ <;> rcases hBy with ⟨ht, h'⟩ | ⟨ht, h'⟩ <;>
              rw [hs, ht] <;> push_cast <;> omega
          · unfold Interior
            simp only
            rcases hAx with ⟨hs, h⟩ | ⟨hs, h⟩ <;> rw [hs] <;> push_cast <;> omega
        · right
          exact ⟨a + 1, b, by omega, by omega, hb', hnew⟩
      · -- a step along Y
        have hnew : (advance A dd (stepOf dir) (walk A dd (stepOf dir) k s)).mapPos
            = ⟨s.mapPos.x + (a : Int) * (stepOf dir).x,
               s.mapPos.y + ((b + 1 : Nat) : Int) * (stepOf dir).y⟩ := by
          rw [h2, hpos]
          simp only [Vector2i.mk.injEq, true_and]
          push_cast; ring
        by_cases hlast : b + 1 = By
        · left
          refine ⟨k + 1, by omega, le_refl _, ?_⟩
          rw [walk_succ, hnew]
          apply isWall_of_border hb
          · unfold InRange
            simp only
            rcases hAx with ⟨hs, h⟩ | ⟨hs, h⟩ <;> rcases hBy with ⟨ht, h'⟩ | ⟨ht, h'⟩ <;>
              rw [hs, ht] <;> push_cast <;> omega
          · unfold Interior
            simp only
            rcases hBy with ⟨ht, h'⟩ | ⟨ht, h'⟩ <;> rw [ht] <;> push_cast <;> omega
        · right
          exact ⟨a, b + 1, by omega, ha, by omega, hnew⟩

/-! ## The loop of `cast_ray`, for every arithmetic -/

/-- One pass of the loop on a rectangular grid, when the new cell indices are values of
`int`: the step, and `hit` set where the new cell is a wall inside the grid. -/
theorem castBody_any {A : Arith} {g : Grid} {rows cols : Nat} (hr : Rect g rows cols)
    (hrows : 0 < rows) (dd : Vector2f) (st : Vector2i) (s : CastState) (hs : s.hit = false)
    (hx : A.isInt (advance A dd st s).mapPos.x = true)
    (hy : A.isInt (advance A dd st s).mapPos.y = true) :
    castBody A g dd st s = some { advance A dd st s with
      hit := isWall g (advance A dd st s).mapPos, i := s.i + 1 } := by
  unfold castBody
  simp only [inGrid_rect hr hrows, hx, hy, Bool.and_self, if_true]
  by_cases hp : InRange rows cols (advance A dd st s).mapPos
  · obtain ⟨v, hv⟩ := cellAt_isSome_of_inRange hr hp
    simp only [decide_eq_true hp, hv, isWall]
  · have hnone := cellAt_eq_none_of_not_inRange hr hp
    simp only [decide_eq_false hp, isWall, hnone]
    congr 1
    have : (advance A dd st s).hit = s.hit := advance_hit dd st s
    cases hadv : advance A dd st s
    rw [hadv] at this
    simp only at this
    simp only [CastState.mk.injEq, true_and, and_true]
    rw [this, hs]

/-- The loop of `cast_ray` on a rectangular grid, when the cell indices of the traversal are
values of `int`: it makes `n` steps of the traversal, where `n` is the first step that lands
on a wall, or the whole fuel when there is none. -/
theorem castLoop_any {A : Arith} {g : Grid} {rows cols : Nat} (hr : Rect g rows cols)
    (hrows : 0 < rows) (dd : Vector2f) (st : Vector2i) (fuel : Nat) (s : CastState)
    (hs : s.hit = false) (hi : s.i + fuel ≤ MAX_CELL)
    (hroom : ∀ k, 1 ≤ k → k ≤ fuel → A.isInt (walk A dd st k s).mapPos.x = true ∧
      A.isInt (walk A dd st k s).mapPos.y = true) :
    ∃ n, n ≤ fuel ∧ (0 < fuel → 0 < n) ∧
      castLoop A g dd st fuel s = some { walk A dd st n s with
        hit := decide (0 < n) && isWall g (walk A dd st n s).mapPos, i := s.i + n } ∧
      (∀ k, 1 ≤ k → k < n → isWall g (walk A dd st k s).mapPos = false) ∧
      (n < fuel → isWall g (walk A dd st n s).mapPos = true) := by
  induction fuel generalizing s with
  | zero =>
    refine ⟨0, le_refl _, fun h => absurd h (lt_irrefl _), ?_, fun k h1 h2 => by omega,
      fun h => absurd h (lt_irrefl _)⟩
    cases s
    simp only at hs
    simp [castLoop, walk_zero, hs]
  | succ fuel ih =>
    have hlt : s.i < MAX_CELL := by omega
    have h1 : walk A dd st 1 s = advance A dd st s := by rw [walk_succ, walk_zero]
    have hr1 := hroom 1 (le_refl _) (by omega)
    rw [h1] at hr1
    have hbody := castBody_any hr hrows dd st s hs hr1.1 hr1.2
    unfold castLoop
    simp only [hs, Bool.not_false, Bool.true_and, decide_eq_true hlt, if_true, hbody]
    by_cases hw : isWall g (advance A dd st s).mapPos = true
    · refine ⟨1, by omega, fun _ => by omega, ?_, fun k h1 h2 => by omega, fun _ => ?_⟩
      · rw [h1, hw]
        cases fuel with
        | zero => simp [castLoop]
        | succ f => simp [castLoop]
      · rw [h1]; exact hw
    · have hw0 : isWall g (advance A dd st s).mapPos = false := by
        cases h : isWall g (advance A dd st s).mapPos
        · rfl
        · exact absurd h hw
      rw [hw0]
      obtain ⟨n, hn, hpos, hloop, hbefore, hstop⟩ :=
        ih { advance A dd st s with hit := false, i := s.i + 1 } rfl (by simp only; omega)
          (by
            intro k hk1 hk2
            rw [walk_with, ← walk_succ_left]
            exact hroom (k + 1) (by omega) (by omega))
      rw [walk_with] at hloop hstop
      refine ⟨n + 1, by omega, fun _ => by omega, ?_, ?_, ?_⟩
      · rw [hloop, walk_succ_left]
        simp only [Option.some.injEq, CastState.mk.injEq, true_and]
        refine ⟨?_, by omega⟩
        cases n with
        | zero =>
          have hf : fuel = 0 := by
            by_contra hne
            exact absurd (hpos (Nat.pos_of_ne_zero hne)) (lt_irrefl _)
          simp [walk_zero, hw0]
        | succ m => simp
      · intro k hk1 hk2
        cases k with
        | zero => omega
        | succ j =>
          cases j with
          | zero => rw [h1]; exact hw0
          | succ j2 =>
            have := hbefore (j2 + 1) (by omega) (by omega)
            rw [walk_with] at this
            rw [walk_succ_left]
            exact this
      · intro hlt2
        rw [walk_succ_left]
        exact hstop (by omega)

/-- The cell indices of a traversal stay within its number of steps of the start cell. -/
theorem walk_near {A : Arith} (dd : Vector2f) (dir : Vector2f) (s : CastState) (k : Nat) :
    |(walk A dd (stepOf dir) k s).mapPos.x - s.mapPos.x| ≤ k ∧
    |(walk A dd (stepOf dir) k s).mapPos.y - s.mapPos.y| ≤ k := by
  obtain ⟨a, b, hab, hpos⟩ :
      ∃ a b : Nat, a + b = k ∧ (walk A dd (stepOf dir) k s).mapPos
        = ⟨s.mapPos.x + a * (stepOf dir).x, s.mapPos.y + b * (stepOf dir).y⟩ :=
    walk_mapPos dd (stepOf dir) s k
  rw [hpos]
  simp only [add_sub_cancel_left, abs_mul, Nat.abs_cast]
  have hx : |(stepOf dir).x| = 1 := by
    rcases stepOf_x_cases dir with h | h <;> rw [h] <;> simp
  have hy : |(stepOf dir).y| = 1 := by
    rcases stepOf_y_cases dir with h | h <;> rw [h] <;> simp
  rw [hx, hy]
  constructor <;> omega

/-- A traversal of at most `MAX_CELL` steps from a cell with room for it keeps its cell
indices among the values of `int`. -/
theorem walk_isInt {A : Arith} (dd : Vector2f) (dir : Vector2f) (s : CastState)
    (hroom : IntRoom A s.mapPos) (k : Nat) (hk : k ≤ MAX_CELL) :
    A.isInt (walk A dd (stepOf dir) k s).mapPos.x = true ∧
    A.isInt (walk A dd (stepOf dir) k s).mapPos.y = true := by
  unfold MAX_CELL at hk
  have h12 : |(walk A dd (stepOf dir) k s).mapPos.x - s.mapPos.x| ≤ k ∧
      |(walk A dd (stepOf dir) k s).mapPos.y - s.mapPos.y| ≤ k := walk_near dd dir s k
  exact ⟨hroom _ (Or.inl (by omega)), hroom _ (Or.inr (by omega))⟩

/-- The final state of `cast_ray` on a rectangular grid, when the conversion of the origin
is defined and its cell has room for the traversal: the loop makes `n` steps with
`1 ≤ n ≤ MAX_CELL`, `n` is the first step that lands on a wall, or `MAX_CELL` when there is
none. -/
theorem castFinal_any {A : Arith} {g : Grid} {rows cols : Nat} (hr : Rect g rows cols)
    (hrows : 0 < rows) (cs : F) (start dir : Vector2f) (c0 : Vector2i)
    (hstart : start.toVector2i A = some c0) (hroom : IntRoom A c0) :
    ∃ n, 1 ≤ n ∧ n ≤ MAX_CELL ∧
      castFinal A start dir ⟨cs, g⟩ = some { walk A (deltaDistOf A dir) (stepOf dir) n
          (initState A start dir c0) with
        hit := isWall g (walk A (deltaDistOf A dir) (stepOf dir) n
          (initState A start dir c0)).mapPos, i := n } ∧
      (∀ k, 1 ≤ k → k < n → isWall g (walk A (deltaDistOf A dir) (stepOf dir) k
          (initState A start dir c0)).mapPos = false) ∧
      (n < MAX_CELL → isWall g (walk A (deltaDistOf A dir) (stepOf dir) n
          (initState A start dir c0)).mapPos = true) := by
  have hroom0 : IntRoom A (initState A start dir c0).mapPos := hroom
  obtain ⟨n, hn, hpos, hloop, hbefore, hstop⟩ :=
    castLoop_any hr hrows (deltaDistOf A dir) (stepOf dir) MAX_CELL
      (initState A start dir c0) rfl (by simp [initState])
      (fun k _ hk => walk_isInt (deltaDistOf A dir) dir (initState A start dir c0) hroom0 k hk)
  have hn1 : 0 < n := hpos (by unfold MAX_CELL; omega)
  refine ⟨n, hn1, hn, ?_, hbefore, hstop⟩
  unfold castFinal
  simp only [hstart, hloop]
  have : decide (0 < n) = true := decide_eq_true hn1
  simp [this, initState]

/-! ## `Map::toggleCell`, for every arithmetic -/

/-- What `Map::toggleCell` does on a rectangular grid when its two conversions to `int` are
defined and give the cell `c`: the cell `c` is flipped when it is strictly interior, nothing
happens otherwise. -/
theorem toggleCell_any {A : Arith} {g : Grid} {rows cols : Nat} (hr : Rect g rows cols)
    (hrows : 0 < rows) (hcols : 0 < cols) (cs : F) (p c : Vector2i)
    (hidx : toggleIndex A cs p = some c) :
    (Interior rows cols c →
      ∃ v g1, cellAt g c = some v ∧ setCell g c (1 - v) = some g1 ∧
        Map.toggleCell A ⟨cs, g⟩ p = some ⟨cs, g1⟩) ∧
    (¬ Interior rows cols c → Map.toggleCell A ⟨cs, g⟩ p = some ⟨cs, g⟩) := by
  unfold toggleIndex at hidx
  have hguard := toggleGuard_rect hr hrows hcols c
  cases hx : (F.ofInt A p.x / cs).toInt A with
  | none => simp [hx] at hidx
  | some gx =>
    cases hy : (F.ofInt A p.y / cs).toInt A with
    | none => simp [hx, hy] at hidx
    | some gy =>
      simp only [hx, hy, Option.some.injEq] at hidx
      subst hidx
      constructor
      · intro hint
        obtain ⟨v, hv⟩ := cellAt_isSome_of_inRange hr hint.inRange
        obtain ⟨row, _, _, _, _, _, hset⟩ := setCell_eq_some (1 - v) hv
        refine ⟨v, _, hv, hset, ?_⟩
        unfold Map.toggleCell
        simp only [hx, hy]
        rw [hguard, decide_eq_true hint]
        simp only [hv, hset]
      · intro hint
        unfold Map.toggleCell
        simp only [hx, hy]
        rw [hguard, decide_eq_false hint]

/-- One call of `Map::toggleCell` with defined conversions on a rectangular grid: the new
grid is rectangular and differs from the old one at most at the computed cell, and only when
that cell is strictly interior. -/
theorem toggleCell_changes_any {A : Arith} {g : Grid} {rows cols : Nat}
    (hr : Rect g rows cols) (hrows : 0 < rows) (hcols : 0 < cols) (cs : F) (p c : Vector2i)
    (hidx : toggleIndex A cs p = some c) :
    ∃ g1, Map.toggleCell A ⟨cs, g⟩ p = some ⟨cs, g1⟩ ∧ Rect g1 rows cols ∧
      ∀ q, cellAt g1 q ≠ cellAt g q → q = c ∧ Interior rows cols q := by
  by_cases hint : Interior rows cols c
  · obtain ⟨v, g1, hv, hset, htog⟩ := (toggleCell_any hr hrows hcols cs p c hidx).1 hint
    refine ⟨g1, htog, setCell_rect hr hv hset, ?_⟩
    intro q hq
    have hqc : q = c := by
      by_contra hne
      exact hq (cellAt_setCell_ne hv hset hne)
    exact ⟨hqc, by rw [hqc]; exact hint⟩
  · refine ⟨g, (toggleCell_any hr hrows hcols cs p c hidx).2 hint, hr, ?_⟩
    intro q hq
    exact absurd rfl hq

/-! ## `Player::update`, for every arithmetic -/

/-- What `Player::update` does to the position on a rectangular grid when its conversions to
`int` are defined: the forward displacement is applied when the Up key is down and the cell
`next_pos` is inside the grid and open, then the backward displacement is applied when the
Down key is down and the cell `back_pos` is inside the grid and open. -/
theorem update_any {A : Arith} {g : Grid} {rows cols : Nat} (hr : Rect g rows cols)
    (hrows : 0 < rows) (cs angle : F) (dir0 pos heading : Vector2f) (dt : F) (keys : Keys)
    (n b : Vector2i) (hn : nextCell A pos heading dt = some n)
    (hb : backCell A pos heading dt = some b) :
    ∃ p1, Player.update A ⟨pos, angle, dir0⟩ dt ⟨cs, g⟩ keys heading = some p1 ∧
      p1.direction = heading ∧
      p1.position =
        (if (decide (cellAt g b = some 0) && keys.Down) = true then
          movedBack A (if (decide (cellAt g n = some 0) && keys.Up) = true then
            movedForward A pos heading dt else pos) heading dt
        else (if (decide (cellAt g n = some 0) && keys.Up) = true then
          movedForward A pos heading dt else pos)) := by
  unfold nextCell at hn
  unfold backCell at hb
  simp only [Player.update, hn, hb, openCell_rect hr hrows]
  refine ⟨_, rfl, rfl, ?_⟩
  simp only [movedBack, movedForward]

section Exact

/-! ## Exact arithmetic

The statements of this part are about the arithmetic `ideal`: where a sum, difference,
product or quotient of `F` is written with `+`, `-`, `*`, `/`, it is the exact one. -/

attribute [local instance] ideal

@[simp] theorem ideal_rnd (q : ℚ) : @Arith.rnd ideal q = F.fin q := rfl

@[simp] theorem ideal_isInt (n : Int) : @Arith.isInt ideal n = true := rfl

/-! ## The loop of `cast_ray` in exact arithmetic -/

theorem intRoom_ideal (c : Vector2i) : IntRoom ideal c := fun _ _ => rfl

theorem toVector2i_vec (x y : ℚ) :
    (vec x y).toVector2i ideal = some ⟨F.truncQ x, F.truncQ y⟩ := rfl

theorem castBody_rect {g : Grid} {rows cols : Nat} (hr : Rect g rows cols) (hrows : 0 < rows)
    (dd : Vector2f) (st : Vector2i) (s : CastState) (hs : s.hit = false) :
    castBody ideal g dd st s = some { advance ideal dd st s with
      hit := isWall g (advance ideal dd st s).mapPos, i := s.i + 1 } :=
  castBody_any hr hrows dd st s hs rfl rfl

theorem castFinal_rect {g : Grid} {rows cols : Nat} (hr : Rect g rows cols) (hrows : 0 < rows)
    (cs : F) (ox oy : ℚ) (dir : Vector2f) :
    ∃ n, 1 ≤ n ∧ n ≤ MAX_CELL ∧
      castFinal ideal (vec ox oy) dir ⟨cs, g⟩ = some
        { walk ideal (deltaDistOf ideal dir) (stepOf dir) n
            (initState ideal (vec ox oy) dir ⟨F.truncQ ox, F.truncQ oy⟩) with
          hit := isWall g (walk ideal (deltaDistOf ideal dir) (stepOf dir) n
            (initState ideal (vec ox oy) dir ⟨F.truncQ ox, F.truncQ oy⟩)).mapPos
          i := n } ∧
      (∀ k, 1 ≤ k → k < n → isWall g (walk ideal (deltaDistOf ideal dir) (stepOf dir) k
        (initState ideal (vec ox oy) dir ⟨F.truncQ ox, F.truncQ oy⟩)).mapPos = false) ∧
      (n < MAX_CELL → isWall g (walk ideal (deltaDistOf ideal dir) (stepOf dir) n
        (initState ideal (vec ox oy) dir ⟨F.truncQ ox, F.truncQ oy⟩)).mapPos = true) :=
  castFinal_any hr hrows cs (vec ox oy) dir ⟨F.truncQ ox, F.truncQ oy⟩ (toVector2i_vec ox oy)
    (intRoom_ideal _)

/-! ## Rectangular grids -/

/-! ## Arithmetic on finite values -/

@[simp] theorem F.fin_add_fin (a b : ℚ) : F.fin a + F.fin b = F.fin (a + b) := rfl

@[simp] theorem F.fin_sub_fin (a b : ℚ) : F.fin a - F.fin b = F.fin (a - b) := by
  show F.add ideal (F.fin a) (F.neg (F.fin b)) = _
  simp only [F.neg, F.add, sub_eq_add_neg, ideal_rnd]

@[simp] theorem F.fin_mul_fin (a b : ℚ) : F.fin a * F.fin b = F.fin (a * b) := rfl

theorem F.fin_div_fin {b : ℚ} (hb : b ≠ 0) (a : ℚ) : F.fin a / F.fin b = F.fin (a / b) := by
  show F.div ideal (F.fin a) (F.fin b) = _
  simp only [F.div, if_neg hb, ideal_rnd]

/-! ## Truncation and floor -/

/-! ## Reading and writing cells -/

theorem toInt_div_fin (n : Int) {cs : ℚ} (hcs : cs ≠ 0) :
    (F.ofInt ideal n / F.fin cs).toInt ideal = some (F.truncQ ((n : ℚ) / cs)) := by
  rw [F.ofInt, ideal_rnd, F.fin_div_fin hcs]
  rfl

/-- What `Map::toggleCell` does for a positive cell size on a rectangular grid: the cell
under the pixel is flipped when it is strictly interior, nothing happens otherwise. -/
theorem toggleCell_rect {g : Grid} {rows cols : Nat} (hr : Rect g rows cols) (hrows : 0 < rows)
    (hcols : 0 < cols) {cs : ℚ} (hcs : 0 < cs) (px py : Int) :
    (Interior rows cols ⟨⌊(px : ℚ) / cs⌋, ⌊(py : ℚ) / cs⌋⟩ →
      ∃ v g1, cellAt g ⟨⌊(px : ℚ) / cs⌋, ⌊(py : ℚ) / cs⌋⟩ = some v ∧
        setCell g ⟨⌊(px : ℚ) / cs⌋, ⌊(py : ℚ) / cs⌋⟩ (1 - v) = some g1 ∧
        Map.toggleCell ideal ⟨F.fin cs, g⟩ ⟨px, py⟩ = some ⟨F.fin cs, g1⟩) ∧
    (¬ Interior rows cols ⟨⌊(px : ℚ) / cs⌋, ⌊(py : ℚ) / cs⌋⟩ →
      Map.toggleCell ideal ⟨F.fin cs, g⟩ ⟨px, py⟩ = some ⟨F.fin cs, g⟩) := by
  have hguard := toggleGuard_rect hr hrows hcols
    ⟨F.truncQ ((px : ℚ) / cs), F.truncQ ((py : ℚ) / cs)⟩
  constructor
  · intro hint
    have hint1 := (interior_trunc_iff rows cols _ _).mpr hint
    have ex : F.truncQ ((px : ℚ) / cs) = ⌊(px : ℚ) / cs⌋ :=
      truncQ_eq_floor_of_pos (Or.inr hint.1)
    have ey : F.truncQ ((py : ℚ) / cs) = ⌊(py : ℚ) / cs⌋ :=
      truncQ_eq_floor_of_pos (Or.inr hint.2.2.1)
    obtain ⟨v, hv⟩ := cellAt_isSome_of_inRange hr hint.inRange
    obtain ⟨row, _, _, _, _, _, hset⟩ := setCell_eq_some (1 - v) hv
    refine ⟨v, _, hv, hset, ?_⟩
    unfold Map.toggleCell
    simp only [toInt_div_fin _ hcs.ne']
    rw [hguard, decide_eq_true hint1]
    simp only [ex, ey, hv, hset]
  · intro hint
    have hint1 : ¬ Interior rows cols ⟨F.truncQ ((px : ℚ) / cs), F.truncQ ((py : ℚ) / cs)⟩ :=
      fun h => hint ((interior_trunc_iff rows cols _ _).mp h)
    unfold Map.toggleCell
    simp only [toInt_div_fin _ hcs.ne']
    rw [hguard, decide_eq_false hint1]

/-- In exact arithmetic: on a rectangular grid with at least 3 rows and 3 columns and a positive cell size,
a pixel position whose floor-divided cell is strictly interior makes `Map::toggleCell` flip
that cell (`0` becomes `1`, `1` becomes `0`, every other cell keeps its value), and a second
call with the same pixel position gives back the original grid. -/
theorem toggle_involution_ideal (g : Grid) (rows cols : Nat) (cs : ℚ) (px py : Int)
    (hrect : Rect g rows cols) (hrows : 3 ≤ rows) (hcols : 3 ≤ cols) (hcs : 0 < cs)
    (hint : Interior rows cols ⟨⌊(px : ℚ) / cs⌋, ⌊(py : ℚ) / cs⌋⟩) :
    ∃ v g1,
      cellAt g ⟨⌊(px : ℚ) / cs⌋, ⌊(py : ℚ) / cs⌋⟩ = some v ∧
      Map.toggleCell ideal ⟨F.fin cs, g⟩ ⟨px, py⟩ = some ⟨F.fin cs, g1⟩ ∧
      cellAt g1 ⟨⌊(px : ℚ) / cs⌋, ⌊(py : ℚ) / cs⌋⟩ = some (1 - v) ∧
      (v = 0 → cellAt g1 ⟨⌊(px : ℚ) / cs⌋, ⌊(py : ℚ) / cs⌋⟩ = some 1) ∧
      (v = 1 → cellAt g1 ⟨⌊(px : ℚ) / cs⌋, ⌊(py : ℚ) / cs⌋⟩ = some 0) ∧
      (∀ q, q ≠ (⟨⌊(px : ℚ) / cs⌋, ⌊(py : ℚ) / cs⌋⟩ : Vector2i) → cellAt g1 q = cellAt g q) ∧
      Map.toggleCell ideal ⟨F.fin cs, g1⟩ ⟨px, py⟩ = some ⟨F.fin cs, g⟩ := by
  obtain ⟨v, g1, hv, hset, htog⟩ :=
    (toggleCell_rect hrect (by omega) (by omega) hcs px py).1 hint
  have hself := cellAt_setCell_self hv hset
  have hrect1 : Rect g1 rows cols := setCell_rect hrect hv hset
  obtain ⟨v1, g2, hv1, hset1, htog1⟩ :=
    (toggleCell_rect hrect1 (by omega) (by omega) hcs px py).1 hint
  have hv1e : v1 = 1 - v := by
    rw [hself] at hv1; exact (Option.some.inj hv1).symm
  have hback : setCell g1 ⟨⌊(px : ℚ) / cs⌋, ⌊(py : ℚ) / cs⌋⟩ v = some g :=
    setCell_restore hv hset
  have hg2 : g2 = g := by
    rw [hv1e, sub_sub_cancel, hback] at hset1
    exact (Option.some.inj hset1).symm
  refine ⟨v, g1, hv, htog, hself, ?_, ?_, ?_, ?_⟩
  · intro h0; rw [hself, h0]; rfl
  · intro h1; rw [hself, h1]; rfl
  · intro q hq; exact cellAt_setCell_ne hv hset hq
  · rw [htog1, hg2]

/-- In exact arithmetic: on a rectangular grid with at least 3 rows and 3 columns and a positive cell size,
a pixel position (of any sign) whose floor-divided cell is not strictly interior (on the
border ring or outside the grid) makes `Map::toggleCell` return normally with the map
unchanged. -/
theorem toggle_noop_ideal (g : Grid) (rows cols : Nat) (cs : ℚ) (px py : Int)
    (hrect : Rect g rows cols) (hrows : 3 ≤ rows) (hcols : 3 ≤ cols) (hcs : 0 < cs)
    (hout : ¬ Interior rows cols ⟨⌊(px : ℚ) / cs⌋, ⌊(py : ℚ) / cs⌋⟩) :
    Map.toggleCell ideal ⟨F.fin cs, g⟩ ⟨px, py⟩ = some ⟨F.fin cs, g⟩ :=
  (toggleCell_rect hrect (by omega) (by omega) hcs px py).2 hout

/-- In exact arithmetic: on a rectangular grid, with only the move-forward key down, `Player::update` moves
the position by exactly `direction * MOV_SPEED * deltaTime` when the integer cell of the
moved position is inside the grid and open, and leaves the position unchanged in both
coordinates when that cell is outside the grid or not open. -/
theorem update_forward_ideal (g : Grid) (rows cols : Nat) (cellsize angle : F) (dir0 : Vector2f)
    (px py dx dy dt : ℚ) (hrect : Rect g rows cols) (hrows : 0 < rows) :
    ∃ p1, Player.update ideal ⟨vec px py, angle, dir0⟩ (F.fin dt) ⟨cellsize, g⟩
        ⟨true, false, false, false⟩ (vec dx dy) = some p1 ∧
      (InRange rows cols ⟨F.truncQ (px + dx * 8 * dt), F.truncQ (py + dy * 8 * dt)⟩ →
        cellAt g ⟨F.truncQ (px + dx * 8 * dt), F.truncQ (py + dy * 8 * dt)⟩ = some 0 →
        p1.position = vec (px + dx * 8 * dt) (py + dy * 8 * dt)) ∧
      ((¬ InRange rows cols ⟨F.truncQ (px + dx * 8 * dt), F.truncQ (py + dy * 8 * dt)⟩ ∨
         ∃ v, v ≠ 0 ∧
          cellAt g ⟨F.truncQ (px + dx * 8 * dt), F.truncQ (py + dy * 8 * dt)⟩ = some v) →
        p1.position = vec px py) := by
  have e1 : dx * dt * 8 = dx * 8 * dt := by ring
  have e2 : dy * dt * 8 = dy * 8 * dt := by ring
  simp only [Player.update, vec, MOV_SPEED, F.fin_mul_fin, F.fin_add_fin, F.fin_sub_fin,
    Vector2f.toVector2i, F.toInt, ideal_isInt, if_true, openCell_rect hrect hrows, e1, e2, Bool.and_true,
    Bool.and_false, Bool.false_eq_true, if_false]
  refine ⟨_, rfl, ?_, ?_⟩
  · intro _ h0
    simp only [h0, decide_True, if_true]
  · rintro (hout | ⟨v, hv, hc⟩)
    · rw [cellAt_eq_none_of_not_inRange hrect hout]
      simp
    · rw [hc]
      simp [hv]

/-! ## The initial state of a cast -/

theorem truncQ_le_add_one (q : ℚ) : 0 < (F.truncQ q : ℚ) - q + 1 := by
  unfold F.truncQ
  by_cases h : 0 ≤ q
  · rw [if_pos h]
    have := Int.lt_floor_add_one q
    linarith
  · rw [if_neg h]
    have := Int.le_ceil q
    linarith

theorem signedInf_pos {q : ℚ} (h : 0 < q) : F.signedInf q = F.pinf := by
  unfold F.signedInf; rw [if_pos h]

theorem fin_mul_pinf {q : ℚ} (h : 0 < q) : F.fin q * F.pinf = F.pinf := by
  show F.mul ideal (F.fin q) F.pinf = _
  simp only [F.mul, signedInf_pos h]

theorem delta_zero : F.abs (F.fin 1 / F.fin 0) = F.pinf := by
  show F.abs (F.div ideal (F.fin 1) (F.fin 0)) = _
  simp [F.div, F.signedInf, F.abs]

theorem delta_ne_zero {d : ℚ} (h : d ≠ 0) : F.abs (F.fin 1 / F.fin d) = F.fin |1 / d| := by
  rw [F.fin_div_fin h]; rfl

/-- The X component of the initial `sideDist` for a direction with `dir.x = 0`. -/
theorem sideDist_x_zero (ox oy dy : ℚ) :
    (sideDistOf ideal (vec ox oy) (vec 0 dy) ⟨F.truncQ ox, F.truncQ oy⟩).x = F.pinf := by
  simp only [sideDistOf, vec, deltaDistOf, delta_zero, F.lt_fin_fin, lt_irrefl, decide_False,
    Bool.false_eq_true, if_false, F.ofInt, ideal_rnd, F.fin_sub_fin, F.fin_add_fin]
  exact fin_mul_pinf (truncQ_le_add_one ox)

/-- The Y component of the initial `sideDist` for a direction with `dir.y = 0`. -/
theorem sideDist_y_zero (ox oy dx : ℚ) :
    (sideDistOf ideal (vec ox oy) (vec dx 0) ⟨F.truncQ ox, F.truncQ oy⟩).y = F.pinf := by
  simp only [sideDistOf, vec, deltaDistOf, delta_zero, F.lt_fin_fin, lt_irrefl, decide_False,
    Bool.false_eq_true, if_false, F.ofInt, ideal_rnd, F.fin_sub_fin, F.fin_add_fin]
  exact fin_mul_pinf (truncQ_le_add_one oy)

theorem sideDist_x_ne_zero (ox oy dx dy : ℚ) (m : Vector2i) (h : dx ≠ 0) :
    (sideDistOf ideal (vec ox oy) (vec dx dy) m).x = F.fin (side0 ox dx m.x) := by
  simp only [sideDistOf, vec, deltaDistOf, delta_ne_zero h, F.lt_fin_fin, F.ofInt, ideal_rnd,
    F.fin_sub_fin, F.fin_add_fin, F.fin_mul_fin, side0]
  by_cases hd : dx < 0
  · simp [hd]
  · simp [hd]

theorem sideDist_y_ne_zero (ox oy dx dy : ℚ) (m : Vector2i) (h : dy ≠ 0) :
    (sideDistOf ideal (vec ox oy) (vec dx dy) m).y = F.fin (side0 oy dy m.y) := by
  simp only [sideDistOf, vec, deltaDistOf, delta_ne_zero h, F.lt_fin_fin, F.ofInt, ideal_rnd,
    F.fin_sub_fin, F.fin_add_fin, F.fin_mul_fin, side0]
  by_cases hd : dy < 0
  · simp [hd]
  · simp [hd]

/-! ## Traversals that keep to one axis -/

/-- When `sideDist.x` is `+inf` every step is along Y. -/
theorem walk_y_only (dd : Vector2f) (st : Vector2i) (s : CastState)
    (hx : s.sideDist.x = F.pinf) (k : Nat) :
    (walk ideal dd st k s).sideDist.x = F.pinf ∧
    (walk ideal dd st k s).mapPos = ⟨s.mapPos.x, s.mapPos.y + k * st.y⟩ ∧
    (0 < k → (walk ideal dd st k s).isVertical = true) := by
  induction k with
  | zero =>
    refine ⟨hx, ?_, fun h => absurd h (lt_irrefl _)⟩
    simp [walk_zero]
  | succ k ih =>
    obtain ⟨h1, h2, _⟩ := ih
    rw [walk_succ]
    have hlt : F.lt (walk ideal dd st k s).sideDist.x (walk ideal dd st k s).sideDist.y = false := by
      rw [h1]; unfold F.lt; cases (walk ideal dd st k s).sideDist.y <;> rfl
    unfold advance
    rw [hlt]
    simp only [Bool.false_eq_true, if_false, h2, h1, true_and]
    refine ⟨?_, fun _ => trivial⟩
    simp only [Vector2i.mk.injEq, true_and]
    push_cast; ring

/-- When `sideDist.x` and `deltaDist.x` are finite and `sideDist.y` is `+inf` every step is
along X. -/
theorem walk_x_only (dd : Vector2f) (st : Vector2i) (s : CastState) (a e : ℚ)
    (hx : s.sideDist.x = F.fin a) (hy : s.sideDist.y = F.pinf) (hd : dd.x = F.fin e)
    (k : Nat) :
    (walk ideal dd st k s).sideDist = ⟨F.fin (a + k * e), F.pinf⟩ ∧
    (walk ideal dd st k s).mapPos = ⟨s.mapPos.x + k * st.x, s.mapPos.y⟩ ∧
    (0 < k → (walk ideal dd st k s).isVertical = false) := by
  induction k with
  | zero =>
    refine ⟨?_, ?_, fun h => absurd h (lt_irrefl _)⟩
    · rw [walk_zero]
      cases hsd : s.sideDist
      rw [hsd] at hx hy
      simp only at hx hy
      simp [hx, hy]
    · simp [walk_zero]
  | succ k ih =>
    obtain ⟨h1, h2, _⟩ := ih
    rw [walk_succ]
    have hlt : F.lt (walk ideal dd st k s).sideDist.x (walk ideal dd st k s).sideDist.y = true := by
      rw [h1]; rfl
    unfold advance
    rw [hlt]
    simp only [if_true, h2, h1, hd, F.fin_add_fin]
    refine ⟨?_, ?_, fun _ => trivial⟩
    · simp only [Vector2f.mk.injEq, F.fin.injEq, and_true]
      push_cast; ring
    · simp only [Vector2i.mk.injEq, and_true]
      push_cast; ring

/-! ## The final state of a cast on a rectangular grid -/

theorem stepOf_x_nonneg {dx : ℚ} (dy : ℚ) (h : 0 ≤ dx) : (stepOf (vec dx dy)).x = 1 := by
  simp [stepOf, vec, not_lt.mpr h]

theorem stepOf_y_nonneg (dx : ℚ) {dy : ℚ} (h : 0 ≤ dy) : (stepOf (vec dx dy)).y = 1 := by
  simp [stepOf, vec, not_lt.mpr h]

theorem stepOf_x_neg {dx : ℚ} (dy : ℚ) (h : dx < 0) : (stepOf (vec dx dy)).x = -1 := by
  simp [stepOf, vec, h]

theorem stepOf_y_neg (dx : ℚ) {dy : ℚ} (h : dy < 0) : (stepOf (vec dx dy)).y = -1 := by
  simp [stepOf, vec, h]

/-- In exact arithmetic: on a rectangular grid, from an origin `(x0, y0)` with non-negative coordinates and
with direction `(d, 0)`, `d > 0`: when in row `floor y0` the cells of the columns
`floor x0 + 1 .. c - 1` are open, the cell of column `c` is a wall, and
`floor x0 < c ≤ floor x0 + 128`, then `cast_ray` returns `hit = true`, stops at the cell of
row `floor y0` and column `c`, and returns `distance = (c - x0) / d` exactly. -/
theorem corridor_ideal (g : Grid) (rows cols : Nat) (cs : F) (x0 y0 d : ℚ) (c : Int)
    (hrect : Rect g rows cols) (hx0 : 0 ≤ x0) (hy0 : 0 ≤ y0) (hd : 0 < d)
    (hc : ⌊x0⌋ < c) (hc128 : c - ⌊x0⌋ ≤ 128)
    (hopen : ∀ j : Int, ⌊x0⌋ < j → j < c → cellAt g ⟨j, ⌊y0⌋⟩ = some 0)
    (hwall : cellAt g ⟨c, ⌊y0⌋⟩ = some 1) :
    ∃ s r, castFinal ideal (vec x0 y0) (vec d 0) ⟨cs, g⟩ = some s ∧
      cast_ray ideal (vec x0 y0) (vec d 0) ⟨cs, g⟩ = some r ∧
      r.hit = true ∧ s.mapPos = ⟨c, ⌊y0⌋⟩ ∧ r.distance = F.fin ((c - x0) / d) := by
  have hrows : 0 < rows := rows_pos_of_cellAt hrect hwall
  obtain ⟨n, hn1, hn128, hfinal, hbefore, hstop⟩ :=
    castFinal_rect hrect hrows cs x0 y0 (vec d 0)
  have ex : F.truncQ x0 = ⌊x0⌋ := truncQ_of_nonneg hx0
  have ey : F.truncQ y0 = ⌊y0⌋ := truncQ_of_nonneg hy0
  have hwalk := walk_x_only (deltaDistOf ideal (vec d 0)) (stepOf (vec d 0))
    (initState ideal (vec x0 y0) (vec d 0) ⟨F.truncQ x0, F.truncQ y0⟩)
    (side0 x0 d (F.truncQ x0)) |1 / d|
    (sideDist_x_ne_zero x0 y0 d 0 _ hd.ne') (sideDist_y_zero x0 y0 d)
    (delta_ne_zero hd.ne')
  have hpos : ∀ k : Nat, (walk ideal (deltaDistOf ideal (vec d 0)) (stepOf (vec d 0)) k
      (initState ideal (vec x0 y0) (vec d 0) ⟨F.truncQ x0, F.truncQ y0⟩)).mapPos
      = ⟨⌊x0⌋ + k, ⌊y0⌋⟩ := by
    intro k
    rw [(hwalk k).2.1, stepOf_x_nonneg 0 hd.le]
    simp [initState, ex, ey]
  have hnc : (n : Int) = c - ⌊x0⌋ := by
    rcases lt_trichotomy (n : Int) (c - ⌊x0⌋) with hlt | heq | hgt
    · exfalso
      have h1 := hstop (by unfold MAX_CELL; omega)
      rw [hpos n, isWall_of_cellAt (hopen (⌊x0⌋ + n) (by omega) (by omega))] at h1
      simp at h1
    · exact heq
    · exfalso
      have h1 := hbefore (c - ⌊x0⌋).toNat (by omega) (by omega)
      rw [hpos, show ⌊x0⌋ + (((c - ⌊x0⌋).toNat : Nat) : Int) = c by omega,
        isWall_of_cellAt hwall] at h1
      simp at h1
  have hcell : (walk ideal (deltaDistOf ideal (vec d 0)) (stepOf (vec d 0)) n
      (initState ideal (vec x0 y0) (vec d 0) ⟨F.truncQ x0, F.truncQ y0⟩)).mapPos = ⟨c, ⌊y0⌋⟩ := by
    rw [hpos n, hnc]; congr 1; omega
  refine ⟨_, _, hfinal, cast_ray_of_castFinal hfinal, ?_, hcell, ?_⟩
  · simp only [hcell, isWall_of_cellAt hwall]; rfl
  · have hv := (hwalk n).2.2 hn1
    have hsd := (hwalk n).1
    simp only [distanceOf, hv, hsd, Bool.false_eq_true, if_false]
    rw [show (deltaDistOf ideal (vec d 0)).x = F.fin |1 / d| from delta_ne_zero hd.ne',
      F.fin_sub_fin]
    congr 1
    have hnq : (n : ℚ) = (c : ℚ) - (⌊x0⌋ : ℚ) := by exact_mod_cast hnc
    rw [side0, if_neg (not_lt.mpr hd.le), ex, abs_of_pos (by positivity : 0 < 1 / d), hnq]
    field_simp
    ring

theorem floor_two : ⌊(2 : ℚ)⌋ = 2 := by norm_num

/-! ## Step budget, axis-aligned rays and the side flag -/

/-- In exact arithmetic: for a direction with exactly one zero component, the `deltaDist` of the zero axis is
`+inf` (no division fault), no step of the traversal changes the cell index on that axis, and
the cell where `cast_ray` stops has the index of the origin's cell on that axis. -/
theorem axis_aligned_ideal (g : Grid) (rows cols : Nat) (cs : F) (ox oy d : ℚ)
    (hrect : Rect g rows cols) (hrows : 0 < rows) (hd : d ≠ 0) :
    ((deltaDistOf ideal (vec 0 d)).x = F.pinf ∧
      (∀ k, (walk ideal (deltaDistOf ideal (vec 0 d)) (stepOf (vec 0 d)) k
        (initState ideal (vec ox oy) (vec 0 d) ⟨F.truncQ ox, F.truncQ oy⟩)).mapPos.x = F.truncQ ox) ∧
      ∃ s, castFinal ideal (vec ox oy) (vec 0 d) ⟨cs, g⟩ = some s ∧ s.mapPos.x = F.truncQ ox) ∧
    ((deltaDistOf ideal (vec d 0)).y = F.pinf ∧
      (∀ k, (walk ideal (deltaDistOf ideal (vec d 0)) (stepOf (vec d 0)) k
        (initState ideal (vec ox oy) (vec d 0) ⟨F.truncQ ox, F.truncQ oy⟩)).mapPos.y = F.truncQ oy) ∧
      ∃ s, castFinal ideal (vec ox oy) (vec d 0) ⟨cs, g⟩ = some s ∧ s.mapPos.y = F.truncQ oy) := by
  have hY : ∀ k, (walk ideal (deltaDistOf ideal (vec 0 d)) (stepOf (vec 0 d)) k
      (initState ideal (vec ox oy) (vec 0 d) ⟨F.truncQ ox, F.truncQ oy⟩)).mapPos.x = F.truncQ ox := by
    intro k
    rw [(walk_y_only _ _ _ (sideDist_x_zero ox oy d) k).2.1]
    rfl
  have hX : ∀ k, (walk ideal (deltaDistOf ideal (vec d 0)) (stepOf (vec d 0)) k
      (initState ideal (vec ox oy) (vec d 0) ⟨F.truncQ ox, F.truncQ oy⟩)).mapPos.y = F.truncQ oy := by
    intro k
    rw [(walk_x_only _ _ _ (side0 ox d (F.truncQ ox)) |1 / d|
      (sideDist_x_ne_zero ox oy d 0 _ hd) (sideDist_y_zero ox oy d) (delta_ne_zero hd) k).2.1]
    rfl
  refine ⟨⟨delta_zero, hY, ?_⟩, ⟨delta_zero, hX, ?_⟩⟩
  · obtain ⟨n, _, _, hfinal, _, _⟩ := castFinal_rect hrect hrows cs ox oy (vec 0 d)
    exact ⟨_, hfinal, hY n⟩
  · obtain ⟨n, _, _, hfinal, _, _⟩ := castFinal_rect hrect hrows cs ox oy (vec d 0)
    exact ⟨_, hfinal, hX n⟩

/-! ## Scaling the direction -/

theorem signedInf_neg_of_neg {q : ℚ} (h : q < 0) : F.signedInf q = F.ninf := by
  unfold F.signedInf; rw [if_neg (not_lt.mpr h.le), if_pos h]

theorem signedInf_zero : F.signedInf 0 = F.nan := by
  unfold F.signedInf; simp

theorem signedInf_mul_pos {c : ℚ} (hc : 0 < c) (q : ℚ) :
    F.signedInf (c * q) = F.signedInf q := by
  rcases lt_trichotomy q 0 with h | h | h
  · rw [signedInf_neg_of_neg h, signedInf_neg_of_neg (mul_neg_of_pos_of_neg hc h)]
  · rw [h, mul_zero]
  · rw [signedInf_pos h, signedInf_pos (mul_pos hc h)]

theorem scale_lt {c : ℚ} (hc : 0 < c) (a b : F) :
    F.lt (F.fin c * a) (F.fin c * b) = F.lt a b := by
  have h1 : F.signedInf c = F.pinf := signedInf_pos hc
  have h2 : F.signedInf (-c) = F.ninf := signedInf_neg_of_neg (by linarith)
  cases a <;> cases b <;>
    simp only [HMul.hMul, Mul.mul, F.mul, F.lt, h1, h2]
  simp only [decide_eq_decide]
  exact mul_lt_mul_left hc

theorem scale_add {c : ℚ} (hc : 0 < c) (a b : F) :
    F.fin c * (a + b) = F.fin c * a + F.fin c * b := by
  have h1 : F.signedInf c = F.pinf := signedInf_pos hc
  have h2 : F.signedInf (-c) = F.ninf := signedInf_neg_of_neg (by linarith)
  cases a <;> cases b <;>
    simp only [HMul.hMul, Mul.mul, HAdd.hAdd, Add.add, F.mul, F.add, h1, h2]
  congr 1
  exact mul_add _ _ _

theorem scale_sub {c : ℚ} (hc : 0 < c) (a b : F) :
    F.fin c * (a - b) = F.fin c * a - F.fin c * b := by
  have h1 : F.signedInf c = F.pinf := signedInf_pos hc
  have h2 : F.signedInf (-c) = F.ninf := signedInf_neg_of_neg (by linarith)
  cases a <;> cases b <;>
    simp only [HMul.hMul, Mul.mul, HSub.hSub, Sub.sub, F.sub, F.neg, F.mul, F.add, h1, h2]
  congr 1
  show c * (_ + -_) = c * _ + -(c * _)
  ring

theorem scale_delta {k : ℚ} (hk : 0 < k) (d : ℚ) :
    F.abs (F.fin 1 / F.fin (k * d)) = F.fin (1 / k) * F.abs (F.fin 1 / F.fin d) := by
  by_cases hd : d = 0
  · rw [hd, mul_zero, delta_zero]
    exact (fin_mul_pinf (by positivity)).symm
  · rw [delta_ne_zero hd, delta_ne_zero (mul_ne_zero hk.ne' hd), F.fin_mul_fin]
    congr 1
    rw [one_div_mul_eq_div, abs_div, abs_div, abs_mul, abs_of_pos hk, abs_one]
    field_simp
    ring

theorem fin_mul_scale {c : ℚ} (hc : 0 < c) (a : ℚ) (b : F) :
    F.fin a * (F.fin c * b) = F.fin c * (F.fin a * b) := by
  have h1 : F.signedInf c = F.pinf := signedInf_pos hc
  have h2 : F.signedInf (-c) = F.ninf := signedInf_neg_of_neg (by linarith)
  cases b with
  | fin b =>
    simp only [F.fin_mul_fin]
    congr 1; ring
  | nan => rfl
  | pinf =>
    show F.mul ideal (F.fin a) (F.mul ideal (F.fin c) F.pinf) = F.mul ideal (F.fin c) (F.mul ideal (F.fin a) F.pinf)
    simp only [F.mul, h1]
    rcases lt_trichotomy a 0 with h | h | h
    · rw [signedInf_neg_of_neg h]; simp only [F.mul, h2]
    · rw [h, signedInf_zero]
    · rw [signedInf_pos h]; simp only [F.mul, h1]
  | ninf =>
    show F.mul ideal (F.fin a) (F.mul ideal (F.fin c) F.ninf) = F.mul ideal (F.fin c) (F.mul ideal (F.fin a) F.ninf)
    simp only [F.mul, h2]
    rcases lt_trichotomy a 0 with h | h | h
    · rw [signedInf_pos (by linarith : 0 < -a)]; simp only [F.mul, h1]
    · rw [h, neg_zero, signedInf_zero]
    · rw [signedInf_neg_of_neg (by linarith : -a < 0)]; simp only [F.mul, h2]

theorem scale_mul_dir {k : ℚ} (hk : 0 < k) (D : F) (x : ℚ) :
    (F.fin (1 / k) * D) * F.fin (k * x) = D * F.fin x := by
  have hc : 0 < 1 / k := by positivity
  have h1 : F.signedInf (1 / k) = F.pinf := signedInf_pos hc
  have h2 : F.signedInf (-(1 / k)) = F.ninf := signedInf_neg_of_neg (by linarith)
  cases D with
  | fin q =>
    simp only [F.fin_mul_fin]
    congr 1; field_simp; ring
  | nan => rfl
  | pinf =>
    show F.mul ideal (F.mul ideal (F.fin (1 / k)) F.pinf) (F.fin (k * x)) = F.mul ideal F.pinf (F.fin x)
    simp only [F.mul, h1, signedInf_mul_pos hk]
  | ninf =>
    show F.mul ideal (F.mul ideal (F.fin (1 / k)) F.ninf) (F.fin (k * x)) = F.mul ideal F.ninf (F.fin x)
    simp only [F.mul, h2]
    rw [show -(k * x) = k * (-x) by ring, signedInf_mul_pos hk]

theorem F.mul_comm_all (a b : F) : a * b = b * a := by
  cases a <;> cases b <;> simp only [HMul.hMul, Mul.mul, F.mul]
  congr 1
  exact mul_comm _ _

theorem dir_mul_scale {k : ℚ} (hk : 0 < k) (D : F) (x : ℚ) :
    F.fin (k * x) * (F.fin (1 / k) * D) = F.fin x * D := by
  rw [F.mul_comm_all, scale_mul_dir hk, F.mul_comm_all]

theorem scale_div {k : ℚ} (hk : 0 < k) (D : F) : F.fin (1 / k) * D = D / F.fin k := by
  have hc : 0 < 1 / k := by positivity
  have h1 : F.signedInf (1 / k) = F.pinf := signedInf_pos hc
  have h2 : F.signedInf (-(1 / k)) = F.ninf := signedInf_neg_of_neg (by linarith)
  cases D with
  | fin q =>
    rw [F.fin_mul_fin, F.fin_div_fin hk.ne']
    congr 1; field_simp
  | nan => rfl
  | pinf =>
    show F.mul ideal (F.fin (1 / k)) F.pinf = F.div ideal F.pinf (F.fin k)
    simp only [F.mul, F.div, h1, if_pos hk.le]
  | ninf =>
    show F.mul ideal (F.fin (1 / k)) F.ninf = F.div ideal F.ninf (F.fin k)
    simp only [F.mul, F.div, h2, if_pos hk.le]

theorem advance_scale {c : ℚ} (hc : 0 < c) (dd : Vector2f) (st : Vector2i) (s : CastState) :
    advance ideal ⟨F.fin c * dd.x, F.fin c * dd.y⟩ st (scaleState ideal c s)
      = scaleState ideal c (advance ideal dd st s) := by
  unfold advance scaleState
  simp only [scale_lt hc]
  split
  · simp only [scale_add hc]
  · simp only [scale_add hc]

theorem castBody_scale {c : ℚ} (hc : 0 < c) (g : Grid) (dd : Vector2f) (st : Vector2i)
    (s : CastState) :
    castBody ideal g ⟨F.fin c * dd.x, F.fin c * dd.y⟩ st (scaleState ideal c s)
      = (castBody ideal g dd st s).map (scaleState ideal c) := by
  unfold castBody
  simp only [advance_scale hc]
  have hm : (scaleState ideal c (advance ideal dd st s)).mapPos = (advance ideal dd st s).mapPos := rfl
  rw [hm]
  cases inGrid g (advance ideal dd st s).mapPos with
  | none => rfl
  | some b =>
    cases b with
    | false => rfl
    | true =>
      simp only
      cases cellAt g (advance ideal dd st s).mapPos with
      | none => rfl
      | some v => rfl

theorem castLoop_scale {c : ℚ} (hc : 0 < c) (g : Grid) (dd : Vector2f) (st : Vector2i)
    (fuel : Nat) (s : CastState) :
    castLoop ideal g ⟨F.fin c * dd.x, F.fin c * dd.y⟩ st fuel (scaleState ideal c s)
      = (castLoop ideal g dd st fuel s).map (scaleState ideal c) := by
  induction fuel generalizing s with
  | zero => rfl
  | succ fuel ih =>
    unfold castLoop
    have h1 : (scaleState ideal c s).hit = s.hit := rfl
    have h2 : (scaleState ideal c s).i = s.i := rfl
    rw [h1, h2, castBody_scale hc]
    split
    · cases castBody ideal g dd st s with
      | none => rfl
      | some s1 => simp only [Option.map_some']; exact ih s1
    · rfl

theorem deltaDistOf_scale {k : ℚ} (hk : 0 < k) (dx dy : ℚ) :
    deltaDistOf ideal (vec (k * dx) (k * dy))
      = ⟨F.fin (1 / k) * (deltaDistOf ideal (vec dx dy)).x,
         F.fin (1 / k) * (deltaDistOf ideal (vec dx dy)).y⟩ := by
  simp only [deltaDistOf, vec, scale_delta hk]

theorem stepOf_scale {k : ℚ} (hk : 0 < k) (dx dy : ℚ) :
    stepOf (vec (k * dx) (k * dy)) = stepOf (vec dx dy) := by
  simp only [stepOf, vec, F.lt_fin_fin, mul_neg_iff, hk, not_lt.mpr hk.le, true_and, false_and,
    or_false]

theorem initState_scale {k : ℚ} (hk : 0 < k) (ox oy dx dy : ℚ) (m : Vector2i) :
    initState ideal (vec ox oy) (vec (k * dx) (k * dy)) m
      = scaleState ideal (1 / k) (initState ideal (vec ox oy) (vec dx dy) m) := by
  have hc : 0 < 1 / k := by positivity
  unfold initState scaleState sideDistOf
  simp only [deltaDistOf_scale hk]
  simp only [vec, F.lt_fin_fin, mul_neg_iff, hk, not_lt.mpr hk.le, true_and, false_and,
    or_false, F.ofInt, ideal_rnd, F.fin_add_fin, F.fin_sub_fin, fin_mul_scale hc]
  congr 2
  · split <;> rfl
  · split <;> rfl

theorem castFinal_scale {k : ℚ} (hk : 0 < k) (g : Grid) (cs : F) (ox oy dx dy : ℚ) :
    castFinal ideal (vec ox oy) (vec (k * dx) (k * dy)) ⟨cs, g⟩
      = (castFinal ideal (vec ox oy) (vec dx dy) ⟨cs, g⟩).map (scaleState ideal (1 / k)) := by
  have hc : 0 < 1 / k := by positivity
  unfold castFinal
  rw [toVector2i_vec]
  simp only [initState_scale hk, stepOf_scale hk, deltaDistOf_scale hk, castLoop_scale hc]

theorem distanceOf_scale {c : ℚ} (hc : 0 < c) (dd : Vector2f) (s : CastState) :
    distanceOf ideal ⟨F.fin c * dd.x, F.fin c * dd.y⟩ (scaleState ideal c s)
      = F.fin c * distanceOf ideal dd s := by
  unfold distanceOf scaleState
  simp only
  split
  · rw [scale_sub hc]
  · rw [scale_sub hc]

/-! ## Counting the steps along each axis -/

theorem pinf_add_pinf : F.pinf + F.pinf = F.pinf := rfl

theorem sideAfter_add (o d : ℚ) (m : Int) (a : Nat) :
    sideAfter o d m a + F.abs (F.fin 1 / F.fin d) = sideAfter o d m (a + 1) := by
  unfold sideAfter
  by_cases hd : d = 0
  · rw [if_pos hd, if_pos hd, hd, delta_zero]; rfl
  · rw [if_neg hd, if_neg hd, delta_ne_zero hd, F.fin_add_fin]
    congr 1
    push_cast; ring

theorem sideAfter_sub {o d : ℚ} (hd : d ≠ 0) (m : Int) (a : Nat) :
    sideAfter o d m (a + 1) - F.abs (F.fin 1 / F.fin d) = F.fin (side0 o d m + a * |1 / d|) := by
  unfold sideAfter
  rw [if_neg hd, delta_ne_zero hd, F.fin_sub_fin]
  congr 1
  push_cast; ring

theorem sideDistOf_eq_sideAfter (ox oy dx dy : ℚ) :
    sideDistOf ideal (vec ox oy) (vec dx dy) ⟨F.truncQ ox, F.truncQ oy⟩
      = ⟨sideAfter ox dx (F.truncQ ox) 0, sideAfter oy dy (F.truncQ oy) 0⟩ := by
  have hx : (sideDistOf ideal (vec ox oy) (vec dx dy) ⟨F.truncQ ox, F.truncQ oy⟩).x
      = sideAfter ox dx (F.truncQ ox) 0 := by
    unfold sideAfter
    by_cases hd : dx = 0
    · rw [if_pos hd, hd]; exact sideDist_x_zero ox oy dy
    · rw [if_neg hd, sideDist_x_ne_zero ox oy dx dy _ hd]; simp
  have hy : (sideDistOf ideal (vec ox oy) (vec dx dy) ⟨F.truncQ ox, F.truncQ oy⟩).y
      = sideAfter oy dy (F.truncQ oy) 0 := by
    unfold sideAfter
    by_cases hd : dy = 0
    · rw [if_pos hd, hd]; exact sideDist_y_zero ox oy dx
    · rw [if_neg hd, sideDist_y_ne_zero ox oy dx dy _ hd]; simp
  cases h : sideDistOf ideal (vec ox oy) (vec dx dy) ⟨F.truncQ ox, F.truncQ oy⟩
  rw [h] at hx hy
  simp only at hx hy
  rw [hx, hy]

theorem atCounts_zero (ox oy dx dy : ℚ) : AtCounts ox oy dx dy 0 0 0 := by
  refine ⟨rfl, ?_, ?_⟩
  · simp [walk_zero, initState]
  · rw [walk_zero]
    exact sideDistOf_eq_sideAfter ox oy dx dy

/-- One more step of the unobstructed traversal: either `sideDist.x < sideDist.y`, the step is
along X, the direction has `dx ≠ 0` and the distance computed from the new state is the old
`sideDist.x`; or the step is along Y and, when `dy ≠ 0`, the distance computed from the new
state is the old `sideDist.y`. -/
theorem atCounts_succ {ox oy dx dy : ℚ} {k a b : Nat} (h : AtCounts ox oy dx dy k a b) :
    (F.lt (sideAfter ox dx (F.truncQ ox) a) (sideAfter oy dy (F.truncQ oy) b) = true ∧
      dx ≠ 0 ∧ AtCounts ox oy dx dy (k + 1) (a + 1) b ∧
      (walk ideal (deltaDistOf ideal (vec dx dy)) (stepOf (vec dx dy)) (k + 1)
        (initState ideal (vec ox oy) (vec dx dy) ⟨F.truncQ ox, F.truncQ oy⟩)).isVertical = false ∧
      distanceOf ideal (deltaDistOf ideal (vec dx dy))
        (walk ideal (deltaDistOf ideal (vec dx dy)) (stepOf (vec dx dy)) (k + 1)
          (initState ideal (vec ox oy) (vec dx dy) ⟨F.truncQ ox, F.truncQ oy⟩))
        = F.fin (side0 ox dx (F.truncQ ox) + a * |1 / dx|)) ∨
    (F.lt (sideAfter ox dx (F.truncQ ox) a) (sideAfter oy dy (F.truncQ oy) b) = false ∧
      (dy = 0 → dx = 0) ∧ AtCounts ox oy dx dy (k + 1) a (b + 1) ∧
      (walk ideal (deltaDistOf ideal (vec dx dy)) (stepOf (vec dx dy)) (k + 1)
        (initState ideal (vec ox oy) (vec dx dy) ⟨F.truncQ ox, F.truncQ oy⟩)).isVertical = true ∧
      (dy ≠ 0 → distanceOf ideal (deltaDistOf ideal (vec dx dy))
        (walk ideal (deltaDistOf ideal (vec dx dy)) (stepOf (vec dx dy)) (k + 1)
          (initState ideal (vec ox oy) (vec dx dy) ⟨F.truncQ ox, F.truncQ oy⟩))
        = F.fin (side0 oy dy (F.truncQ oy) + b * |1 / dy|))) := by
  obtain ⟨hk, hpos, hsd⟩ := h
  have hddx : (deltaDistOf ideal (vec dx dy)).x = F.abs (F.fin 1 / F.fin dx) := rfl
  have hddy : (deltaDistOf ideal (vec dx dy)).y = F.abs (F.fin 1 / F.fin dy) := rfl
  rcases advance_cases (deltaDistOf ideal (vec dx dy)) (stepOf (vec dx dy))
    (walk ideal (deltaDistOf ideal (vec dx dy)) (stepOf (vec dx dy)) k
      (initState ideal (vec ox oy) (vec dx dy) ⟨F.truncQ ox, F.truncQ oy⟩))
    with ⟨hlt, h1, h2, h3⟩ | ⟨hlt, h1, h2, h3⟩
  · left
    rw [hsd] at hlt h1
    simp only at hlt h1
    have hdx : dx ≠ 0 := by
      intro h0
      rw [sideAfter, if_pos h0, lt_pinf_left] at hlt
      exact absurd hlt (by simp)
    rw [hddx, sideAfter_add] at h1
    refine ⟨hlt, hdx, ⟨by omega, ?_, ?_⟩, ?_, ?_⟩
    · rw [walk_succ, h2, hpos]
      simp only [Vector2i.mk.injEq, and_true]
      push_cast; ring
    · rw [walk_succ, h1]
    · rw [walk_succ, h3]
    · unfold distanceOf
      rw [walk_succ, h3, h1]
      simp only [Bool.false_eq_true, if_false]
      rw [hddx, sideAfter_sub hdx]
  · right
    rw [hsd] at hlt h1
    simp only at hlt h1
    have hdy : dy = 0 → dx = 0 := by
      intro h0
      by_contra hx
      rw [sideAfter, if_neg hx, sideAfter, if_pos h0, lt_fin_pinf] at hlt
      exact absurd hlt (by simp)
    rw [hddy, sideAfter_add] at h1
    refine ⟨hlt, hdy, ⟨by omega, ?_, ?_⟩, ?_, ?_⟩
    · rw [walk_succ, h2, hpos]
      simp only [Vector2i.mk.injEq, true_and]
      push_cast; ring
    · rw [walk_succ, h1]
    · rw [walk_succ, h3]
    · intro hne
      unfold distanceOf
      rw [walk_succ, h3, h1]
      simp only [if_true]
      rw [hddy, sideAfter_sub hne]

theorem atCounts_exists (ox oy dx dy : ℚ) (k : Nat) : ∃ a b, AtCounts ox oy dx dy k a b := by
  induction k with
  | zero => exact ⟨0, 0, atCounts_zero ox oy dx dy⟩
  | succ k ih =>
    obtain ⟨a, b, h⟩ := ih
    rcases atCounts_succ h with ⟨_, _, h1, _⟩ | ⟨_, _, h1, _⟩
    · exact ⟨_, _, h1⟩
    · exact ⟨_, _, h1⟩

/-- For a non-zero direction the distance computed after at least one step is finite. -/
theorem distance_finite (ox oy dx dy : ℚ) (hdir : dx ≠ 0 ∨ dy ≠ 0) (n : Nat) (hn : 1 ≤ n) :
    ∃ q, distanceOf ideal (deltaDistOf ideal (vec dx dy))
      (walk ideal (deltaDistOf ideal (vec dx dy)) (stepOf (vec dx dy)) n
        (initState ideal (vec ox oy) (vec dx dy) ⟨F.truncQ ox, F.truncQ oy⟩)) = F.fin q := by
  obtain ⟨k, rfl⟩ : ∃ k, n = k + 1 := ⟨n - 1, by omega⟩
  obtain ⟨a, b, h⟩ := atCounts_exists ox oy dx dy k
  rcases atCounts_succ h with ⟨_, _, _, _, hd⟩ | ⟨_, h0, _, _, hd⟩
  · exact ⟨_, hd⟩
  · have hdy : dy ≠ 0 := by
      intro hy
      rcases hdir with hx | hy2
      · exact hx (h0 hy)
      · exact hy2 hy
    exact ⟨_, hd hdy⟩

/-! ## Scale invariance and perpendicular depth -/

/-- In exact arithmetic: on a rectangular grid, for a non-zero direction `dir` and a scalar `k > 0`,
`cast_ray(origin, k * dir)` returns the same `hit`, the same `isVertical`, the same stopping
cell and the same `hitPosition` as `cast_ray(origin, dir)`, and its (finite) distance is the
distance for `dir` divided by `k`. -/
theorem scale_invariant_ideal (g : Grid) (rows cols : Nat) (cs : F) (ox oy dx dy k : ℚ)
    (hrect : Rect g rows cols) (hrows : 0 < rows) (hdir : dx ≠ 0 ∨ dy ≠ 0) (hk : 0 < k) :
    ∃ s r s1 r1 q,
      castFinal ideal (vec ox oy) (vec dx dy) ⟨cs, g⟩ = some s ∧
      cast_ray ideal (vec ox oy) (vec dx dy) ⟨cs, g⟩ = some r ∧
      castFinal ideal (vec ox oy) (vec (k * dx) (k * dy)) ⟨cs, g⟩ = some s1 ∧
      cast_ray ideal (vec ox oy) (vec (k * dx) (k * dy)) ⟨cs, g⟩ = some r1 ∧
      r1.hit = r.hit ∧ r1.isVertical = r.isVertical ∧ s1.mapPos = s.mapPos ∧
      r1.hitPosition = r.hitPosition ∧ r.distance = F.fin q ∧ r1.distance = F.fin (q / k) := by
  have hc : 0 < 1 / k := by positivity
  obtain ⟨n, hn1, _, hfinal, _, _⟩ := castFinal_rect hrect hrows cs ox oy (vec dx dy)
  obtain ⟨q, hq⟩ := distance_finite ox oy dx dy hdir n hn1
  have hfinal1 := castFinal_scale hk g cs ox oy dx dy
  rw [hfinal, Option.map_some'] at hfinal1
  have hd1 : distanceOf ideal (deltaDistOf ideal (vec (k * dx) (k * dy)))
      (scaleState ideal (1 / k)
        { walk ideal (deltaDistOf ideal (vec dx dy)) (stepOf (vec dx dy)) n
            (initState ideal (vec ox oy) (vec dx dy) ⟨F.truncQ ox, F.truncQ oy⟩) with
          hit := isWall g (walk ideal (deltaDistOf ideal (vec dx dy)) (stepOf (vec dx dy)) n
            (initState ideal (vec ox oy) (vec dx dy) ⟨F.truncQ ox, F.truncQ oy⟩)).mapPos
          i := n }) = F.fin (1 / k) * F.fin q := by
    rw [deltaDistOf_scale hk, distanceOf_scale hc, distanceOf_with, hq]
  refine ⟨_, _, _, _, q, hfinal, cast_ray_of_castFinal hfinal, hfinal1,
    cast_ray_of_castFinal hfinal1, rfl, rfl, rfl, ?_, ?_, ?_⟩
  · simp only [hd1, distanceOf_with, hq]
    simp only [Vector2f.smul, vec]
    rw [dir_mul_scale hk, dir_mul_scale hk]
  · simp only [distanceOf_with, hq]
  · simp only [hd1, F.fin_mul_fin]
    congr 1
    field_simp

theorem F.neg_fin (a : ℚ) : -F.fin a = F.fin (-a) := rfl

theorem aspect_eq : aspect ideal = F.fin (3 / 2) := by
  unfold aspect SCREEN_W SCREEN_H F.ofInt
  simp only [ideal_rnd]
  rw [F.fin_div_fin (by norm_num)]
  congr 1
  norm_num

theorem cameraX_eq (i : Nat) : cameraX ideal i = F.fin ((i : ℚ) * 2 / 1500 - 1) := by
  unfold cameraX SCREEN_W F.ofInt
  simp only [ideal_rnd]
  rw [F.fin_mul_fin, F.fin_div_fin (by norm_num), F.fin_sub_fin]
  congr 1

theorem rayDirOf_vec (dx dy : ℚ) (i : Nat) :
    rayDirOf ideal (vec dx dy) i
      = vec (dx + -dy * (3 / 2) * (1 / 2) * ((i : ℚ) * 2 / 1500 - 1))
          (dy + dx * (3 / 2) * (1 / 2) * ((i : ℚ) * 2 / 1500 - 1)) := by
  simp only [rayDirOf, planeOf, vec, aspect_eq, cameraX_eq, F.neg_fin, F.fin_mul_fin,
    F.fin_add_fin]

/-- In exact arithmetic: for a unit heading `(dx, dy)` and every column `i`, on a rectangular grid, the ray of
column `i` (direction `rayDirOf`) returns a finite distance `q` and a finite hit point
`(hx, hy)` with `q = dot (hitPosition - origin) heading`, the depth along the heading; the
squared Euclidean length of `hitPosition - origin` is `q ^ 2 * (1 + (9 / 16) * cameraX ^ 2)`. -/
theorem perpendicular_depth_ideal (g : Grid) (rows cols : Nat) (cs : F)
    (ox oy dx dy : ℚ) (i : Nat) (hrect : Rect g rows cols) (hrows : 0 < rows)
    (hunit : dx ^ 2 + dy ^ 2 = 1) :
    ∃ r q hx hy, cast_ray ideal (vec ox oy) (rayDirOf ideal (vec dx dy) i) ⟨cs, g⟩ = some r ∧
      r.distance = F.fin q ∧ r.hitPosition = vec hx hy ∧
      q = (hx - ox) * dx + (hy - oy) * dy ∧
      (hx - ox) ^ 2 + (hy - oy) ^ 2 = q ^ 2 * (1 + (9 / 16) * ((i : ℚ) * 2 / 1500 - 1) ^ 2) := by
  rw [rayDirOf_vec]
  generalize hcx : ((i : ℚ) * 2 / 1500 - 1) = cx
  have hdot : (dx + -dy * (3 / 2) * (1 / 2) * cx) * dx + (dy + dx * (3 / 2) * (1 / 2) * cx) * dy
      = 1 := by
    have : (dx + -dy * (3 / 2) * (1 / 2) * cx) * dx + (dy + dx * (3 / 2) * (1 / 2) * cx) * dy
        = dx ^ 2 + dy ^ 2 := by ring
    rw [this, hunit]
  have hdir : dx + -dy * (3 / 2) * (1 / 2) * cx ≠ 0 ∨ dy + dx * (3 / 2) * (1 / 2) * cx ≠ 0 := by
    by_contra hcon
    push_neg at hcon
    rw [hcon.1, hcon.2] at hdot
    norm_num at hdot
  obtain ⟨n, hn1, _, hfinal, _, _⟩ := castFinal_rect hrect hrows cs ox oy
    (vec (dx + -dy * (3 / 2) * (1 / 2) * cx) (dy + dx * (3 / 2) * (1 / 2) * cx))
  obtain ⟨q, hq⟩ := distance_finite ox oy _ _ hdir n hn1
  refine ⟨_, q, ox + (dx + -dy * (3 / 2) * (1 / 2) * cx) * q,
    oy + (dy + dx * (3 / 2) * (1 / 2) * cx) * q, cast_ray_of_castFinal hfinal, ?_, ?_, ?_, ?_⟩
  · simp only [distanceOf_with, hq]
  · simp only [distanceOf_with, hq]
    simp only [Vector2f.add, Vector2f.smul, vec, F.fin_mul_fin, F.fin_add_fin]
  · have : (ox + (dx + -dy * (3 / 2) * (1 / 2) * cx) * q - ox) * dx
        + (oy + (dy + dx * (3 / 2) * (1 / 2) * cx) * q - oy) * dy
        = q * ((dx + -dy * (3 / 2) * (1 / 2) * cx) * dx
          + (dy + dx * (3 / 2) * (1 / 2) * cx) * dy) := by ring
    rw [this, hdot, mul_one]
  · have : (ox + (dx + -dy * (3 / 2) * (1 / 2) * cx) * q - ox) ^ 2
        + (oy + (dy + dx * (3 / 2) * (1 / 2) * cx) * q - oy) ^ 2
        = q ^ 2 * ((dx ^ 2 + dy ^ 2) * (1 + (9 / 16) * cx ^ 2)) := by ring
    rw [this, hunit, one_mul]

/-! ## Concrete casts -/

theorem truncQ_two : F.truncQ 2 = 2 := by
  rw [truncQ_of_nonneg (by norm_num)]; norm_num

theorem truncQ_half : F.truncQ (1 / 2) = 0 := by
  rw [truncQ_of_nonneg (by norm_num), Int.floor_eq_iff]
  constructor <;> norm_num

/-- The cast of the end-to-end scenario: 5x5 grid, origin `(2, 2)`, direction `(1, 0)`. -/
theorem castFinal_grid5 :
    castFinal ideal (vec 2 2) (vec 1 0) ⟨F.fin 10, grid5⟩
      = some ⟨⟨F.fin 3, F.pinf⟩, ⟨4, 2⟩, true, false, 2⟩ := by
  have hsd : sideDistOf ideal (vec 2 2) (vec 1 0) ⟨2, 2⟩ = ⟨F.fin 1, F.pinf⟩ := by
    have h := sideDistOf_eq_sideAfter 2 2 1 0
    rw [truncQ_two] at h
    rw [h]
    simp [sideAfter, side0]
  have hdd : deltaDistOf ideal (vec 1 0) = ⟨F.fin 1, F.pinf⟩ := by
    simp [deltaDistOf, vec, delta_zero, delta_ne_zero]
  have hst : stepOf (vec 1 0) = ⟨1, 1⟩ := by
    simp [stepOf, vec]
  unfold castFinal
  rw [toVector2i_vec, truncQ_two]
  simp only [initState, hsd, hdd, hst, MAX_CELL]
  simp [castLoop, castBody, advance, inGrid, cellAt, grid5, F.lt, MAX_CELL]
  norm_num

/-! ## The geometry of one axis -/

theorem stepOf_eq_stepSign (dx dy : ℚ) :
    stepOf (vec dx dy) = ⟨stepSign dx, stepSign dy⟩ := by
  simp only [stepOf, vec, F.lt_fin_fin, decide_eq_true_eq, stepSign]

theorem abs_inv_mul_pos {d : ℚ} (hd : 0 < d) : |1 / d| * d = 1 := by
  rw [abs_of_pos (by positivity)]; field_simp

theorem abs_inv_mul_neg {d : ℚ} (hd : d < 0) : |1 / d| * d = -1 := by
  rw [abs_of_neg (by rw [one_div]; exact inv_lt_zero.mpr hd), neg_mul, one_div,
    inv_mul_cancel₀ hd.ne]

theorem abs_inv_pos {d : ℚ} (hd : d ≠ 0) : 0 < |1 / d| :=
  abs_pos.mpr (one_div_ne_zero hd)

/-- The parameter `side0 + a * |1 / d|` at which the ray crosses the grid line number `a + 1`
of an axis: the coordinate of the ray there is that grid line. -/
theorem crossing_coord {o d : ℚ} (hd : d ≠ 0) (m : Int) (a : Nat) :
    o + (side0 o d m + a * |1 / d|) * d
      = if d < 0 then (m : ℚ) - a else (m : ℚ) + a + 1 := by
  unfold side0
  by_cases h : d < 0
  · rw [if_pos h, if_pos h]
    have := abs_inv_mul_neg h
    linear_combination (-(m : ℚ) + o + a) * this
  · rw [if_neg h, if_neg h]
    have hpos : 0 < d := lt_of_le_of_ne (not_lt.mp h) (Ne.symm hd)
    have := abs_inv_mul_pos hpos
    linear_combination ((m : ℚ) - o + 1 + a) * this

theorem floor_le_self (o : ℚ) : ((⌊o⌋ : Int) : ℚ) ≤ o := Int.floor_le o

theorem self_lt_floor_add_one (o : ℚ) : o < ((⌊o⌋ : Int) : ℚ) + 1 := Int.lt_floor_add_one o

/-- Facts of one axis about a ray whose point of parameter `t` has its coordinate strictly
between the grid lines `cc` and `cc + 1`: the column `cc` is `A` steps away from the column of
the origin, the first `A` crossings happen at parameters in `[0, t)` where the coordinate is
an integer, and crossing number `A + 1` happens after `t`. -/
theorem axis_facts (o d t : ℚ) (cc : Int) (ht : 0 ≤ t)
    (h1 : (cc : ℚ) < o + t * d) (h2 : o + t * d < cc + 1) :
    ∃ A : Nat, cc = ⌊o⌋ + A * stepSign d ∧
      (∀ a, a < A → ∃ τ, sideAfter o d ⌊o⌋ a = F.fin τ ∧ 0 ≤ τ ∧ τ < t ∧
        ∃ i : Int, o + τ * d = i) ∧
      F.lt (F.fin t) (sideAfter o d ⌊o⌋ A) = true := by
  have hf1 := floor_le_self o
  have hf2 := self_lt_floor_add_one o
  rcases lt_trichotomy d 0 with hd | hd | hd
  · -- the ray moves towards smaller coordinates
    have hst : stepSign d = -1 := by unfold stepSign; rw [if_pos hd]
    have htd : t * d ≤ 0 := mul_nonpos_of_nonneg_of_nonpos ht hd.le
    have hcc : cc ≤ ⌊o⌋ := by
      have : (cc : ℚ) < (⌊o⌋ : ℚ) + 1 := by linarith
      have : cc < ⌊o⌋ + 1 := by exact_mod_cast this
      omega
    refine ⟨(⌊o⌋ - cc).toNat, ?_, ?_, ?_⟩
    · rw [hst]; omega
    · intro a ha
      have haq : (a : ℚ) + 1 ≤ (⌊o⌋ : ℚ) - cc := by
        have : (a : Int) + 1 ≤ ⌊o⌋ - cc := by omega
        exact_mod_cast this
      have hcoord := crossing_coord (o := o) hd.ne ⌊o⌋ a
      rw [if_pos hd] at hcoord
      refine ⟨side0 o d ⌊o⌋ + a * |1 / d|, ?_, ?_, ?_, ⟨⌊o⌋ - a, ?_⟩⟩
      · unfold sideAfter; rw [if_neg hd.ne]
      · unfold side0; rw [if_pos hd]
        have := abs_inv_pos hd.ne
        have h3 : 0 ≤ -(⌊o⌋ : ℚ) + o := by linarith
        positivity
      · have hlt : t * d < (side0 o d ⌊o⌋ + a * |1 / d|) * d := by linarith
        exact lt_of_mul_lt_mul_of_nonpos_right hlt hd.le
      · rw [hcoord]; push_cast; ring
    · unfold sideAfter; rw [if_neg hd.ne]
      simp only [F.lt_fin_fin, decide_eq_true_eq]
      have hcoord := crossing_coord (o := o) hd.ne ⌊o⌋ (⌊o⌋ - cc).toNat
      rw [if_pos hd] at hcoord
      have hA : (((⌊o⌋ - cc).toNat : Nat) : ℚ) = (⌊o⌋ : ℚ) - cc := by
        have : (((⌊o⌋ - cc).toNat : Nat) : Int) = ⌊o⌋ - cc := by omega
        exact_mod_cast this
      rw [hA] at hcoord ⊢
      have hlt : (side0 o d ⌊o⌋ + ((⌊o⌋ : ℚ) - cc) * |1 / d|) * d < t * d := by linarith
      exact lt_of_mul_lt_mul_of_nonpos_right hlt hd.le
  · -- the coordinate is constant
    subst hd
    have hst : stepSign (0 : ℚ) = 1 := by unfold stepSign; simp
    have hcc : cc = ⌊o⌋ := by
      rw [mul_zero, add_zero] at h1 h2
      symm
      rw [Int.floor_eq_iff]
      exact ⟨h1.le, h2⟩
    refine ⟨0, by rw [hcc]; simp, fun a ha => absurd ha (Nat.not_lt_zero a), ?_⟩
    unfold sideAfter; rw [if_pos rfl]; rfl
  · -- the ray moves towards larger coordinates
    have hst : stepSign d = 1 := by unfold stepSign; rw [if_neg (not_lt.mpr hd.le)]
    have htd : 0 ≤ t * d := mul_nonneg ht hd.le
    have hcc : ⌊o⌋ ≤ cc := by
      have : (⌊o⌋ : ℚ) < (cc : ℚ) + 1 := by linarith
      have : ⌊o⌋ < cc + 1 := by exact_mod_cast this
      omega
    refine ⟨(cc - ⌊o⌋).toNat, ?_, ?_, ?_⟩
    · rw [hst]; omega
    · intro a ha
      have haq : (⌊o⌋ : ℚ) + a + 1 ≤ cc := by
        have : ⌊o⌋ + (a : Int) + 1 ≤ cc := by omega
        exact_mod_cast this
      have hcoord := crossing_coord (o := o) hd.ne' ⌊o⌋ a
      rw [if_neg (not_lt.mpr hd.le)] at hcoord
      refine ⟨side0 o d ⌊o⌋ + a * |1 / d|, ?_, ?_, ?_, ⟨⌊o⌋ + a + 1, ?_⟩⟩
      · unfold sideAfter; rw [if_neg hd.ne']
      · unfold side0; rw [if_neg (not_lt.mpr hd.le)]
        have := abs_inv_pos hd.ne'
        have h3 : 0 ≤ (⌊o⌋ : ℚ) - o + 1 := by linarith
        positivity
      · have hlt : (side0 o d ⌊o⌋ + a * |1 / d|) * d < t * d := by linarith
        exact lt_of_mul_lt_mul_right hlt hd.le
      · rw [hcoord]; push_cast; ring
    · unfold sideAfter; rw [if_neg hd.ne']
      simp only [F.lt_fin_fin, decide_eq_true_eq]
      have hcoord := crossing_coord (o := o) hd.ne' ⌊o⌋ (cc - ⌊o⌋).toNat
      rw [if_neg (not_lt.mpr hd.le)] at hcoord
      have hA : (((cc - ⌊o⌋).toNat : Nat) : ℚ) = (cc : ℚ) - ⌊o⌋ := by
        have : (((cc - ⌊o⌋).toNat : Nat) : Int) = cc - ⌊o⌋ := by omega
        exact_mod_cast this
      rw [hA] at hcoord ⊢
      have hlt : t * d < (side0 o d ⌊o⌋ + ((cc : ℚ) - ⌊o⌋) * |1 / d|) * d := by linarith
      exact lt_of_mul_lt_mul_right hlt hd.le

theorem stepSign_cases (d : ℚ) : (d < 0 ∧ stepSign d = -1) ∨ (0 ≤ d ∧ stepSign d = 1) := by
  unfold stepSign
  by_cases h : d < 0
  · left; exact ⟨h, by rw [if_pos h]⟩
  · right; exact ⟨not_lt.mp h, by rw [if_neg h]⟩

/-- A point of the ray whose parameter `s` lies after the crossing number `a` and before the
crossing number `a + 1` of an axis has its coordinate strictly inside the column `a` steps
away from the column of the origin. -/
theorem axis_inside (o d : ℚ) (hnz : d = 0 → ((⌊o⌋ : Int) : ℚ) < o) (a : Nat) (s L : ℚ)
    (hL : 0 ≤ L) (hLs : L < s) (hs : F.lt (F.fin s) (sideAfter o d ⌊o⌋ a) = true)
    (hprev : 1 ≤ a → F.lt (F.fin L) (sideAfter o d ⌊o⌋ (a - 1)) = false) :
    ((⌊o⌋ + a * stepSign d : Int) : ℚ) < o + s * d ∧
      o + s * d < ((⌊o⌋ + a * stepSign d : Int) : ℚ) + 1 := by
  have hf1 := floor_le_self o
  have hf2 := self_lt_floor_add_one o
  have hs0 : 0 < s := lt_of_le_of_lt hL hLs
  rcases lt_trichotomy d 0 with hd | hd | hd
  · have hst : stepSign d = -1 := by unfold stepSign; rw [if_pos hd]
    rw [hst]
    unfold sideAfter at hs hprev
    rw [if_neg hd.ne] at hs
    simp only [F.lt_fin_fin, decide_eq_true_eq] at hs
    have hcoord := crossing_coord (o := o) hd.ne ⌊o⌋ a
    rw [if_pos hd] at hcoord
    have hlow : (side0 o d ⌊o⌋ + a * |1 / d|) * d < s * d := mul_lt_mul_of_neg_right hs hd
    constructor
    · push_cast; linarith
    · cases a with
      | zero =>
        have : s * d < 0 := mul_neg_of_pos_of_neg hs0 hd
        push_cast; linarith
      | succ a' =>
        have hp := hprev (by omega)
        rw [if_neg hd.ne, Nat.add_sub_cancel] at hp
        simp only [F.lt_fin_fin, decide_eq_false_iff_not, not_lt] at hp
        have hcoord' := crossing_coord (o := o) hd.ne ⌊o⌋ a'
        rw [if_pos hd] at hcoord'
        have hup : s * d < (side0 o d ⌊o⌋ + a' * |1 / d|) * d :=
          mul_lt_mul_of_neg_right (lt_of_le_of_lt hp hLs) hd
        push_cast; linarith
  · subst hd
    have ha0 : a = 0 := by
      by_contra hne
      have hp := hprev (by omega)
      unfold sideAfter at hp
      rw [if_pos rfl] at hp
      exact absurd hp (by simp [F.lt])
    subst ha0
    have := hnz rfl
    constructor
    · push_cast; linarith
    · push_cast; linarith
  · have hst : stepSign d = 1 := by unfold stepSign; rw [if_neg (not_lt.mpr hd.le)]
    rw [hst]
    unfold sideAfter at hs hprev
    rw [if_neg hd.ne'] at hs
    simp only [F.lt_fin_fin, decide_eq_true_eq] at hs
    have hcoord := crossing_coord (o := o) hd.ne' ⌊o⌋ a
    rw [if_neg (not_lt.mpr hd.le)] at hcoord
    have hup : s * d < (side0 o d ⌊o⌋ + a * |1 / d|) * d := mul_lt_mul_of_pos_right hs hd
    constructor
    · cases a with
      | zero =>
        have : 0 < s * d := mul_pos hs0 hd
        push_cast; linarith
      | succ a' =>
        have hp := hprev (by omega)
        rw [if_neg hd.ne', Nat.add_sub_cancel] at hp
        simp only [F.lt_fin_fin, decide_eq_false_iff_not, not_lt] at hp
        have hcoord' := crossing_coord (o := o) hd.ne' ⌊o⌋ a'
        rw [if_neg (not_lt.mpr hd.le)] at hcoord'
        have hlow : (side0 o d ⌊o⌋ + a' * |1 / d|) * d < s * d :=
          mul_lt_mul_of_pos_right (lt_of_le_of_lt hp hLs) hd
        push_cast; linarith
    · push_cast; linarith

/-! ## Comparisons with a finite value -/

theorem lt_fin_trans {t τ : ℚ} {T : F} (h1 : F.lt (F.fin t) T = true)
    (h2 : F.lt T (F.fin τ) = true) : t < τ := by
  cases T with
  | fin x =>
    simp only [F.lt_fin_fin, decide_eq_true_eq] at h1 h2
    exact lt_trans h1 h2
  | pinf => exact absurd h2 (by simp [F.lt])
  | ninf => exact absurd h1 (by simp [F.lt])
  | nan => exact absurd h1 (by simp [F.lt])

theorem lt_fin_of_le {τ t : ℚ} {T : F} (h : τ ≤ t) (h1 : F.lt (F.fin t) T = true) :
    F.lt (F.fin τ) T = true := by
  cases T with
  | fin x =>
    simp only [F.lt_fin_fin, decide_eq_true_eq] at h1 ⊢
    exact lt_of_le_of_lt h h1
  | pinf => rfl
  | ninf => exact absurd h1 (by simp [F.lt])
  | nan => exact absurd h1 (by simp [F.lt])

theorem not_lt_fin_of_le {L τ : ℚ} {T : F} (h : L ≤ τ) (h1 : F.lt (F.fin L) T = false) :
    F.lt (F.fin τ) T = false := by
  cases T with
  | fin x =>
    simp only [F.lt_fin_fin, decide_eq_false_iff_not, not_lt] at h1 ⊢
    exact le_trans h1 h
  | pinf => exact absurd h1 (by simp [F.lt])
  | ninf => rfl
  | nan => rfl

theorem exists_bound_of_lt {L : ℚ} {T : F} (h : F.lt (F.fin L) T = true) :
    ∃ u, L < u ∧ ∀ s, s < u → F.lt (F.fin s) T = true := by
  cases T with
  | fin x =>
    simp only [F.lt_fin_fin, decide_eq_true_eq] at h
    exact ⟨x, h, fun s hs => by simp only [F.lt_fin_fin, decide_eq_true_eq]; exact hs⟩
  | pinf => exact ⟨L + 1, by linarith, fun s _ => rfl⟩
  | ninf => exact absurd h (by simp [F.lt])
  | nan => exact absurd h (by simp [F.lt])

theorem sideAfter_lt_succ {o d : ℚ} {m : Int} {a : Nat} {τ : ℚ}
    (h : sideAfter o d m a = F.fin τ) : F.lt (F.fin τ) (sideAfter o d m (a + 1)) = true := by
  unfold sideAfter at h ⊢
  by_cases hd : d = 0
  · rw [if_pos hd] at h; exact absurd h (by simp)
  · rw [if_neg hd] at h ⊢
    have hτ : side0 o d m + a * |1 / d| = τ := F.fin.inj h
    simp only [F.lt_fin_fin, decide_eq_true_eq]
    have := abs_inv_pos hd
    rw [← hτ]; push_cast; linarith

/-! ## The traversal follows the straight ray -/

/-- The traversal up to the cell that is `A` steps along X and `B` steps along Y away from
the cell of the origin, for a ray that reaches the inside of that cell at the parameter `t`
without passing through a corner: it never makes more than `A` steps along X nor more than
`B` along Y, and after each step the ray stays for a while in the cell just entered. -/
theorem traversal_inv (ox oy dx dy t : ℚ) (A B : Nat)
    (P1x : ∀ a, a < A → ∃ τ, sideAfter ox dx (F.truncQ ox) a = F.fin τ ∧ 0 ≤ τ ∧ τ < t ∧
      ∃ i : Int, ox + τ * dx = i)
    (P2x : F.lt (F.fin t) (sideAfter ox dx (F.truncQ ox) A) = true)
    (P1y : ∀ b, b < B → ∃ τ, sideAfter oy dy (F.truncQ oy) b = F.fin τ ∧ 0 ≤ τ ∧ τ < t ∧
      ∃ j : Int, oy + τ * dy = j)
    (P2y : F.lt (F.fin t) (sideAfter oy dy (F.truncQ oy) B) = true)
    (hnc : NoCorner ox oy dx dy t) (k : Nat) (hk : k ≤ A + B) :
    ∃ a b, AtCounts ox oy dx dy k a b ∧ a ≤ A ∧ b ≤ B ∧
      (1 ≤ k → ∃ L, 0 ≤ L ∧ L < t ∧
        F.lt (F.fin L) (sideAfter ox dx (F.truncQ ox) a) = true ∧
        F.lt (F.fin L) (sideAfter oy dy (F.truncQ oy) b) = true ∧
        (1 ≤ a → F.lt (F.fin L) (sideAfter ox dx (F.truncQ ox) (a - 1)) = false) ∧
        (1 ≤ b → F.lt (F.fin L) (sideAfter oy dy (F.truncQ oy) (b - 1)) = false)) := by
  induction k with
  | zero =>
    exact ⟨0, 0, atCounts_zero ox oy dx dy, Nat.zero_le _, Nat.zero_le _,
      fun h => absurd h (by omega)⟩
  | succ k ih =>
    obtain ⟨a, b, hcnt, ha, hb, hL⟩ := ih (by omega)
    have hab : a + b = k := hcnt.1
    rcases atCounts_succ hcnt with ⟨hlt, _, hcnt1, _, _⟩ | ⟨hlt, _, hcnt1, _, _⟩
    · -- a step along X
      have haA : a < A := by
        by_contra hcon
        have haeq : a = A := by omega
        obtain ⟨τy, hτy, _, hτyt, _⟩ := P1y b (by omega)
        rw [haeq, hτy] at hlt
        exact absurd (lt_fin_trans P2x hlt) (by linarith)
      obtain ⟨τ, hτ, hτ0, hτt, _⟩ := P1x a haA
      refine ⟨a + 1, b, hcnt1, by omega, hb, fun _ => ⟨τ, hτ0, hτt, sideAfter_lt_succ hτ, ?_,
        fun _ => ?_, fun hb1 => ?_⟩⟩
      · rw [hτ] at hlt; exact hlt
      · rw [Nat.add_sub_cancel, hτ]; simp
      · obtain ⟨L, _, _, hLx, _, _, hLy⟩ := hL (by omega)
        rw [hτ] at hLx
        simp only [F.lt_fin_fin, decide_eq_true_eq] at hLx
        exact not_lt_fin_of_le hLx.le (hLy hb1)
    · -- a step along Y
      have hbB : b < B := by
        by_contra hcon
        have hbeq : b = B := by omega
        obtain ⟨τx, hτx, _, hτxt, _⟩ := P1x a (by omega)
        rw [hbeq, hτx, lt_fin_of_le hτxt.le P2y] at hlt
        exact absurd hlt (by simp)
      obtain ⟨τ, hτ, hτ0, hτt, hint⟩ := P1y b hbB
      have hstrict : F.lt (F.fin τ) (sideAfter ox dx (F.truncQ ox) a) = true := by
        by_cases haA : a < A
        · obtain ⟨τx, hτx, _, _, hintx⟩ := P1x a haA
          rw [hτx, hτ] at hlt
          simp only [F.lt_fin_fin, decide_eq_false_iff_not, not_lt] at hlt
          rw [hτx]
          simp only [F.lt_fin_fin, decide_eq_true_eq]
          rcases lt_or_eq_of_le hlt with h | h
          · exact h
          · exfalso
            rw [← h] at hintx
            exact hnc τ hτ0 hτt.le ⟨hintx, hint⟩
        · have haeq : a = A := by omega
          rw [haeq]
          exact lt_fin_of_le hτt.le P2x
      refine ⟨a, b + 1, hcnt1, ha, by omega, fun _ => ⟨τ, hτ0, hτt, hstrict,
        sideAfter_lt_succ hτ, fun ha1 => ?_, fun _ => ?_⟩⟩
      · obtain ⟨L, _, _, _, hLy, hLx, _⟩ := hL (by omega)
        rw [hτ] at hLy
        simp only [F.lt_fin_fin, decide_eq_true_eq] at hLy
        exact not_lt_fin_of_le hLy.le (hLx ha1)
      · rw [Nat.add_sub_cancel, hτ]; simp

/-- A cell reached by the traversal on the way to the cell where the ray is at the parameter
`t` holds a point of the ray of parameter in `[0, t]` strictly inside it. -/
theorem point_inside_cell (ox oy dx dy t : ℚ) (hox : 0 ≤ ox) (hoy : 0 ≤ oy)
    (hnzx : dx = 0 → ((⌊ox⌋ : Int) : ℚ) < ox) (hnzy : dy = 0 → ((⌊oy⌋ : Int) : ℚ) < oy)
    (a b : Nat) (L : ℚ) (hL0 : 0 ≤ L) (hLt : L < t)
    (hLx : F.lt (F.fin L) (sideAfter ox dx (F.truncQ ox) a) = true)
    (hLy : F.lt (F.fin L) (sideAfter oy dy (F.truncQ oy) b) = true)
    (hpx : 1 ≤ a → F.lt (F.fin L) (sideAfter ox dx (F.truncQ ox) (a - 1)) = false)
    (hpy : 1 ≤ b → F.lt (F.fin L) (sideAfter oy dy (F.truncQ oy) (b - 1)) = false) :
    ∃ s, 0 ≤ s ∧ s ≤ t ∧
      InsideCell ⟨F.truncQ ox + a * stepSign dx, F.truncQ oy + b * stepSign dy⟩
        (ox + s * dx) (oy + s * dy) := by
  have ex : F.truncQ ox = ⌊ox⌋ := truncQ_of_nonneg hox
  have ey : F.truncQ oy = ⌊oy⌋ := truncQ_of_nonneg hoy
  rw [ex] at hLx hpx
  rw [ey] at hLy hpy
  obtain ⟨ux, hux, hxs⟩ := exists_bound_of_lt hLx
  obtain ⟨uy, huy, hys⟩ := exists_bound_of_lt hLy
  have hm1 : L < min ux (min uy t) := lt_min hux (lt_min huy hLt)
  have hs1 : (L + min ux (min uy t)) / 2 < min ux (min uy t) := by linarith
  have hs2 : L < (L + min ux (min uy t)) / 2 := by linarith
  have hsx : (L + min ux (min uy t)) / 2 < ux := lt_of_lt_of_le hs1 (min_le_left _ _)
  have hsy : (L + min ux (min uy t)) / 2 < uy :=
    lt_of_lt_of_le hs1 (le_trans (min_le_right _ _) (min_le_left _ _))
  have hst : (L + min ux (min uy t)) / 2 < t :=
    lt_of_lt_of_le hs1 (le_trans (min_le_right _ _) (min_le_right _ _))
  have hX := axis_inside ox dx hnzx a _ L hL0 hs2 (hxs _ hsx) hpx
  have hY := axis_inside oy dy hnzy b _ L hL0 hs2 (hys _ hsy) hpy
  refine ⟨(L + min ux (min uy t)) / 2, by linarith, hst.le, ?_⟩
  rw [ex, ey]
  exact ⟨hX.1, hX.2, hY.1, hY.2⟩

theorem natCast_mul_stepSign_abs (A : Nat) (d : ℚ) : |(A : Int) * stepSign d| = A := by
  rcases stepSign_cases d with ⟨_, h⟩ | ⟨_, h⟩
  · rw [h]; simp
  · rw [h]; simp

theorem natCast_mul_stepSign_inj {a A : Nat} (d : ℚ)
    (h : (a : Int) * stepSign d = (A : Int) * stepSign d) : a = A := by
  rcases stepSign_cases d with ⟨_, hs⟩ | ⟨_, hs⟩
  · rw [hs] at h; omega
  · rw [hs] at h; omega

/-- In exact arithmetic: on a rectangular grid, from an origin with non-negative coordinates, when
the straight ray enters the wall cell `c` (not the cell of the origin) before any other wall
cell, passes through no corner of the grid on the way, and `c` is at most 128 grid-line
crossings away, then `cast_ray` returns `hit = true` and the traversal stops exactly at
`c`. -/
theorem first_wall_ideal (g : Grid) (rows cols : Nat) (cs : F) (ox oy dx dy t : ℚ)
    (c : Vector2i) (hrect : Rect g rows cols) (hox : 0 ≤ ox) (hoy : 0 ≤ oy)
    (hfirst : EntersFirst g ox oy dx dy c t) (hnc : NoCorner ox oy dx dy t)
    (hreach : |c.x - ⌊ox⌋| + |c.y - ⌊oy⌋| ≤ 128) :
    ∃ s r, castFinal ideal (vec ox oy) (vec dx dy) ⟨cs, g⟩ = some s ∧
      cast_ray ideal (vec ox oy) (vec dx dy) ⟨cs, g⟩ = some r ∧ r.hit = true ∧ s.mapPos = c := by
  obtain ⟨hwall, hne, ht, hin, hothers⟩ := hfirst
  obtain ⟨v, hv⟩ := isWall_cellAt hwall
  have hrows : 0 < rows := rows_pos_of_cellAt hrect hv
  have ex : F.truncQ ox = ⌊ox⌋ := truncQ_of_nonneg hox
  have ey : F.truncQ oy = ⌊oy⌋ := truncQ_of_nonneg hoy
  obtain ⟨A, hcx, P1x, P2x⟩ := axis_facts ox dx t c.x ht hin.1 hin.2.1
  obtain ⟨B, hcy, P1y, P2y⟩ := axis_facts oy dy t c.y ht hin.2.2.1 hin.2.2.2
  rw [← ex] at P1x P2x
  rw [← ey] at P1y P2y
  have hnzx : dx = 0 → ((⌊ox⌋ : Int) : ℚ) < ox := by
    intro h0
    have h1 := hin.1
    have h2 := hin.2.1
    rw [h0, mul_zero, add_zero] at h1 h2
    have hfl : ⌊ox⌋ = c.x := by rw [Int.floor_eq_iff]; exact ⟨h1.le, h2⟩
    rw [hfl]; exact h1
  have hnzy : dy = 0 → ((⌊oy⌋ : Int) : ℚ) < oy := by
    intro h0
    have h1 := hin.2.2.1
    have h2 := hin.2.2.2
    rw [h0, mul_zero, add_zero] at h1 h2
    have hfl : ⌊oy⌋ = c.y := by rw [Int.floor_eq_iff]; exact ⟨h1.le, h2⟩
    rw [hfl]; exact h1
  have hinv := traversal_inv ox oy dx dy t A B P1x P2x P1y P2y hnc
  have hstep := stepOf_eq_stepSign dx dy
  -- the number of steps to `c`
  have hAB1 : 1 ≤ A + B := by
    by_contra hcon
    have hA0 : A = 0 := by omega
    have hB0 : B = 0 := by omega
    apply hne
    cases c
    simp only [Vector2i.mk.injEq]
    simp only at hcx hcy
    rw [hcx, hcy, hA0, hB0]
    simp
  have hAB128 : A + B ≤ MAX_CELL := by
    have h1 : c.x - ⌊ox⌋ = (A : Int) * stepSign dx := by rw [hcx]; ring
    have h2 : c.y - ⌊oy⌋ = (B : Int) * stepSign dy := by rw [hcy]; ring
    rw [h1, h2, natCast_mul_stepSign_abs, natCast_mul_stepSign_abs] at hreach
    unfold MAX_CELL
    omega
  -- the cells of the traversal
  have hcellAB : (walk ideal (deltaDistOf ideal (vec dx dy)) (stepOf (vec dx dy)) (A + B)
      (initState ideal (vec ox oy) (vec dx dy) ⟨F.truncQ ox, F.truncQ oy⟩)).mapPos = c := by
    obtain ⟨a, b, hcnt, ha, hb, _⟩ := hinv (A + B) (le_refl _)
    have hab : a + b = A + B := hcnt.1
    have haA : a = A := by omega
    have hbB : b = B := by omega
    rw [hcnt.2.1, hstep, haA, hbB, ex, ey]
    cases c
    simp only [Vector2i.mk.injEq]
    simp only at hcx hcy
    exact ⟨hcx.symm, hcy.symm⟩
  have hopen : ∀ k, 1 ≤ k → k < A + B →
      isWall g (walk ideal (deltaDistOf ideal (vec dx dy)) (stepOf (vec dx dy)) k
        (initState ideal (vec ox oy) (vec dx dy) ⟨F.truncQ ox, F.truncQ oy⟩)).mapPos = false := by
    intro k hk1 hk2
    obtain ⟨a, b, hcnt, ha, hb, hL⟩ := hinv k hk2.le
    obtain ⟨L, hL0, hLt, hLx, hLy, hpx, hpy⟩ := hL hk1
    obtain ⟨s, hs0, hst, hins⟩ :=
      point_inside_cell ox oy dx dy t hox hoy hnzx hnzy a b L hL0 hLt hLx hLy hpx hpy
    have hab : a + b = k := hcnt.1
    rw [hcnt.2.1, hstep]
    cases hw : isWall g ⟨F.truncQ ox + a * stepSign dx, F.truncQ oy + b * stepSign dy⟩
    · rfl
    · exfalso
      rcases hothers s _ hs0 hst hins hw with h | h
      · rw [ex, ey] at h
        have h1 : ⌊ox⌋ + (a : Int) * stepSign dx = c.x := by rw [← h]
        have h2 : ⌊oy⌋ + (b : Int) * stepSign dy = c.y := by rw [← h]
        rw [hcx] at h1
        rw [hcy] at h2
        have haA : a = A := natCast_mul_stepSign_inj dx (by omega)
        have hbB : b = B := natCast_mul_stepSign_inj dy (by omega)
        omega
      · rw [ex, ey] at h
        simp only [Vector2i.mk.injEq] at h
        have h1 : (a : Int) * stepSign dx = (0 : Nat) * stepSign dx := by
          have := h.1; push_cast; omega
        have h2 : (b : Int) * stepSign dy = (0 : Nat) * stepSign dy := by
          have := h.2; push_cast; omega
        have ha0 : a = 0 := natCast_mul_stepSign_inj dx h1
        have hb0 : b = 0 := natCast_mul_stepSign_inj dy h2
        omega
  -- the loop stops at `c`
  obtain ⟨n, hn1, hn128, hfinal, hbefore, hstop⟩ :=
    castFinal_rect hrect hrows cs ox oy (vec dx dy)
  have hn : n = A + B := by
    rcases lt_trichotomy n (A + B) with hlt | heq | hgt
    · exfalso
      have h1 := hstop (by omega)
      rw [hopen n hn1 hlt] at h1
      exact absurd h1 (by simp)
    · exact heq
    · exfalso
      have h1 := hbefore (A + B) hAB1 hgt
      rw [hcellAB, hwall] at h1
      exact absurd h1 (by simp)
  subst hn
  refine ⟨_, _, hfinal, cast_ray_of_castFinal hfinal, ?_, hcellAB⟩
  simp only [hcellAB, hwall]

theorem floor_half : ⌊(1 / 2 : ℚ)⌋ = 0 := by
  rw [Int.floor_eq_iff]; constructor <;> norm_num

theorem floor_three_halves : ⌊(3 / 2 : ℚ)⌋ = 1 := by
  rw [Int.floor_eq_iff]; constructor <;> norm_num

/-- The cast on the 3x3 grid from `(1/2, 1/2)` in the direction `(1, 1)`: the first pass
finds the two side distances equal, steps along Y into the wall cell of column 0, row 1, and
the loop stops there. -/
theorem castFinal_grid3 :
    castFinal ideal (vec (1 / 2) (1 / 2)) (vec 1 1) ⟨F.fin 10, grid3⟩
      = some ⟨⟨F.fin (1 / 2), F.fin (3 / 2)⟩, ⟨0, 1⟩, true, true, 1⟩ := by
  have hsd : sideDistOf ideal (vec (1 / 2) (1 / 2)) (vec 1 1) ⟨0, 0⟩
      = ⟨F.fin (1 / 2), F.fin (1 / 2)⟩ := by
    have h := sideDistOf_eq_sideAfter (1 / 2) (1 / 2) 1 1
    rw [truncQ_half] at h
    rw [h]
    simp [sideAfter, side0]
    norm_num
  have hdd : deltaDistOf ideal (vec 1 1) = ⟨F.fin 1, F.fin 1⟩ := by
    simp [deltaDistOf, vec, delta_ne_zero]
  have hst : stepOf (vec 1 1) = ⟨1, 1⟩ := by
    simp [stepOf, vec]
  unfold castFinal
  rw [toVector2i_vec, truncQ_half]
  simp only [initState, hsd, hdd, hst, MAX_CELL]
  simp [castLoop, castBody, advance, inGrid, cellAt, grid3, F.lt, MAX_CELL]
  norm_num

/-! ## The camera -/

theorem rayDirOfDraw_eq (direction : Vector2f) (i : Nat) :
    rayDirOfDraw ideal direction i = rayDirOf ideal direction i := rfl

/-- In exact arithmetic: for every heading `(dx, dy)`, the centre column `i = SCREEN_W / 2 = 750` has
`cameraX = 0` and its ray direction is the heading itself, in `render::draw` and in
`render::draw_3d`. -/
theorem centre_column_ideal (dx dy : ℚ) :
    SCREEN_W / 2 = 750 ∧ cameraX ideal 750 = F.fin 0 ∧
      rayDirOfDraw ideal (vec dx dy) 750 = vec dx dy ∧ rayDirOf ideal (vec dx dy) 750 = vec dx dy := by
  have h : rayDirOf ideal (vec dx dy) 750 = vec dx dy := by
    rw [rayDirOf_vec]
    unfold vec
    congr 2 <;> norm_num
  refine ⟨by decide, ?_, ?_, h⟩
  · rw [cameraX_eq]; congr 1; norm_num
  · rw [rayDirOfDraw_eq]; exact h

theorem dotF_vec (a b c d : ℚ) : dotF ideal (vec a b) (vec c d) = F.fin (a * c + b * d) := by
  simp only [dotF, vec, F.fin_mul_fin, F.fin_add_fin]

theorem crossF_vec (a b c d : ℚ) : crossF ideal (vec a b) (vec c d) = F.fin (a * d - b * c) := by
  simp only [crossF, vec, F.fin_mul_fin, F.fin_sub_fin]

/-- In exact arithmetic: for every heading `h = (dx, dy)`, the ray directions of the edge columns
`0` and `1499` have the same dot product `|h|^2` with the heading, and cross products of
opposite sign but different size: `-(3/4) |h|^2` for column `0` (`cameraX = -1`) and
`(749/1000) |h|^2` for column `1499` (`cameraX = 749/750`); the same holds in
`render::draw`. -/
theorem edge_columns_ideal (dx dy : ℚ) :
    cameraX ideal 0 = F.fin (-1) ∧ cameraX ideal 1499 = F.fin (749 / 750) ∧
    dotF ideal (rayDirOf ideal (vec dx dy) 0) (vec dx dy) = F.fin (dx ^ 2 + dy ^ 2) ∧
    dotF ideal (rayDirOf ideal (vec dx dy) 1499) (vec dx dy) = F.fin (dx ^ 2 + dy ^ 2) ∧
    crossF ideal (vec dx dy) (rayDirOf ideal (vec dx dy) 0) = F.fin (-(3 / 4) * (dx ^ 2 + dy ^ 2)) ∧
    crossF ideal (vec dx dy) (rayDirOf ideal (vec dx dy) 1499)
      = F.fin ((749 / 1000) * (dx ^ 2 + dy ^ 2)) ∧
    rayDirOfDraw ideal (vec dx dy) 0 = rayDirOf ideal (vec dx dy) 0 ∧
    rayDirOfDraw ideal (vec dx dy) 1499 = rayDirOf ideal (vec dx dy) 1499 := by
  refine ⟨?_, ?_, ?_, ?_, ?_, ?_, rfl, rfl⟩
  · rw [cameraX_eq]; congr 1; norm_num
  · rw [cameraX_eq]; congr 1; norm_num
  · rw [rayDirOf_vec, dotF_vec]; congr 1; push_cast; ring
  · rw [rayDirOf_vec, dotF_vec]; congr 1; push_cast; ring
  · rw [rayDirOf_vec, crossF_vec]; congr 1; push_cast; ring
  · rw [rayDirOf_vec, crossF_vec]; congr 1; push_cast; ring

/-! ## Construction -/

/-! ## The tie-break of the traversal -/

theorem initState_half :
    initState ideal (vec (1 / 2) (1 / 2)) (vec 1 1) ⟨0, 0⟩
      = ⟨⟨F.fin (1 / 2), F.fin (1 / 2)⟩, ⟨0, 0⟩, false, false, 0⟩ := by
  have h := sideDistOf_eq_sideAfter (1 / 2) (1 / 2) 1 1
  rw [truncQ_half] at h
  unfold initState
  rw [h]
  simp [sideAfter, side0]
  norm_num

/-! ## The border ring under `toggleCell` -/

/-! ## The agent on a rectangular grid -/

/-- What `Player::update` does to the position on a rectangular grid: the forward
displacement is applied when the Up key is down and the forward candidate cell is inside the
grid and open, then the backward displacement is applied when the Down key is down and the
backward candidate cell is inside the grid and open. -/
theorem update_rect {g : Grid} {rows cols : Nat} (hr : Rect g rows cols) (hrows : 0 < rows)
    (cs angle : F) (dir0 : Vector2f) (px py hx hy dt : ℚ) (keys : Keys) :
    ∃ p1, Player.update ideal ⟨vec px py, angle, dir0⟩ (F.fin dt) ⟨cs, g⟩ keys (vec hx hy)
        = some p1 ∧
      p1.position =
        (if (decide (cellAt g ⟨F.truncQ (px - hx * 8 * dt), F.truncQ (py - hy * 8 * dt)⟩
              = some 0) && keys.Down) = true then
          (if (decide (cellAt g ⟨F.truncQ (px + hx * 8 * dt), F.truncQ (py + hy * 8 * dt)⟩
                = some 0) && keys.Up) = true then
            vec (px + hx * 8 * dt - hx * 8 * dt) (py + hy * 8 * dt - hy * 8 * dt)
          else vec (px - hx * 8 * dt) (py - hy * 8 * dt))
        else
          (if (decide (cellAt g ⟨F.truncQ (px + hx * 8 * dt), F.truncQ (py + hy * 8 * dt)⟩
                = some 0) && keys.Up) = true then
            vec (px + hx * 8 * dt) (py + hy * 8 * dt)
          else vec px py)) := by
  have e1 : hx * dt * 8 = hx * 8 * dt := by ring
  have e2 : hy * dt * 8 = hy * 8 * dt := by ring
  simp only [Player.update, vec, MOV_SPEED, F.fin_mul_fin, F.fin_add_fin, F.fin_sub_fin,
    Vector2f.toVector2i, F.toInt, ideal_isInt, if_true, openCell_rect hr hrows, e1, e2]
  refine ⟨_, rfl, ?_⟩
  simp only
  by_cases hb : (decide (cellAt g ⟨F.truncQ (px - hx * 8 * dt), F.truncQ (py - hy * 8 * dt)⟩
      = some 0) && keys.Down) = true <;>
    by_cases hf : (decide (cellAt g ⟨F.truncQ (px + hx * 8 * dt), F.truncQ (py + hy * 8 * dt)⟩
      = some 0) && keys.Up) = true <;>
    simp only [hb, hf, if_true, if_false, F.fin_sub_fin, Bool.false_eq_true]

/-! ## Grid accesses stay inside the grid -/

/-! ## The cell of the origin is never tested -/

theorem floor_neg_of_ne_truncQ {q : ℚ} (h : ⌊q⌋ ≠ F.truncQ q) : ⌊q⌋ < 0 := by
  unfold F.truncQ at h
  by_cases h0 : 0 ≤ q
  · rw [if_pos h0] at h; exact absurd rfl h
  · exact Int.floor_lt.mpr (by exact_mod_cast not_le.mp h0)

theorem floor_five_halves : ⌊(5 / 2 : ℚ)⌋ = 2 := by
  rw [Int.floor_eq_iff]; constructor <;> norm_num

/-! ## A closed border stops every ray -/

theorem floor_eight : ⌊(8 : ℚ)⌋ = 8 := by norm_num

theorem floor_ten : ⌊(10 : ℚ)⌋ = 10 := by norm_num

/-! ## The hit point -/

theorem side0_nonneg (o d : ℚ) : 0 ≤ side0 o d ⌊o⌋ := by
  have hf1 := floor_le_self o
  have hf2 := self_lt_floor_add_one o
  unfold side0
  split
  · exact mul_nonneg (by linarith) (abs_nonneg _)
  · exact mul_nonneg (by linarith) (abs_nonneg _)

theorem sideAfter_mono_false {o d : ℚ} {m : Int} {a : Nat} {T : F}
    (h : F.lt (sideAfter o d m a) T = false) : F.lt (sideAfter o d m (a + 1)) T = false := by
  unfold sideAfter at h ⊢
  by_cases hd : d = 0
  · rw [if_pos hd] at h ⊢; exact h
  · rw [if_neg hd] at h ⊢
    have he := abs_inv_pos hd
    exact not_lt_fin_of_le (by push_cast; linarith) h

/-- A point of the ray whose parameter `τ` lies between the crossings number `b` and `b + 1`
of an axis, ends included, has its coordinate in the closed extent of the cell `b` steps
away from the cell of the origin. -/
theorem axis_within (o d : ℚ) (b : Nat) (τ : ℚ) (hτ : 0 ≤ τ)
    (hup : F.lt (sideAfter o d ⌊o⌋ b) (F.fin τ) = false)
    (hlow : 1 ≤ b → F.lt (F.fin τ) (sideAfter o d ⌊o⌋ (b - 1)) = false) :
    ((⌊o⌋ + b * stepSign d : Int) : ℚ) ≤ o + τ * d ∧
      o + τ * d ≤ ((⌊o⌋ + b * stepSign d : Int) : ℚ) + 1 := by
  have hf1 := floor_le_self o
  have hf2 := self_lt_floor_add_one o
  rcases lt_trichotomy d 0 with hd | hd | hd
  · have hst : stepSign d = -1 := by unfold stepSign; rw [if_pos hd]
    rw [hst]
    unfold sideAfter at hup hlow
    rw [if_neg hd.ne] at hup
    simp only [F.lt_fin_fin, decide_eq_false_iff_not, not_lt] at hup
    have hcoord := crossing_coord (o := o) hd.ne ⌊o⌋ b
    rw [if_pos hd] at hcoord
    have h1 : (side0 o d ⌊o⌋ + b * |1 / d|) * d ≤ τ * d :=
      mul_le_mul_of_nonpos_right hup hd.le
    constructor
    · push_cast; linarith
    · cases b with
      | zero =>
        have : τ * d ≤ 0 := mul_nonpos_of_nonneg_of_nonpos hτ hd.le
        push_cast; linarith
      | succ b' =>
        have hp := hlow (by omega)
        rw [if_neg hd.ne, Nat.add_sub_cancel] at hp
        simp only [F.lt_fin_fin, decide_eq_false_iff_not, not_lt] at hp
        have hcoord' := crossing_coord (o := o) hd.ne ⌊o⌋ b'
        rw [if_pos hd] at hcoord'
        have h2 : τ * d ≤ (side0 o d ⌊o⌋ + b' * |1 / d|) * d :=
          mul_le_mul_of_nonpos_right hp hd.le
        push_cast; linarith
  · subst hd
    have hb0 : b = 0 := by
      by_contra hne
      have hp := hlow (by omega)
      unfold sideAfter at hp
      rw [if_pos rfl] at hp
      exact absurd hp (by simp [F.lt])
    subst hb0
    constructor
    · push_cast; linarith
    · push_cast; linarith
  · have hst : stepSign d = 1 := by unfold stepSign; rw [if_neg (not_lt.mpr hd.le)]
    rw [hst]
    unfold sideAfter at hup hlow
    rw [if_neg hd.ne'] at hup
    simp only [F.lt_fin_fin, decide_eq_false_iff_not, not_lt] at hup
    have hcoord := crossing_coord (o := o) hd.ne' ⌊o⌋ b
    rw [if_neg (not_lt.mpr hd.le)] at hcoord
    have h1 : τ * d ≤ (side0 o d ⌊o⌋ + b * |1 / d|) * d :=
      mul_le_mul_of_nonneg_right hup hd.le
    constructor
    · cases b with
      | zero =>
        have : 0 ≤ τ * d := mul_nonneg hτ hd.le
        push_cast; linarith
      | succ b' =>
        have hp := hlow (by omega)
        rw [if_neg hd.ne', Nat.add_sub_cancel] at hp
        simp only [F.lt_fin_fin, decide_eq_false_iff_not, not_lt] at hp
        have hcoord' := crossing_coord (o := o) hd.ne' ⌊o⌋ b'
        rw [if_neg (not_lt.mpr hd.le)] at hcoord'
        have h2 : (side0 o d ⌊o⌋ + b' * |1 / d|) * d ≤ τ * d :=
          mul_le_mul_of_nonneg_right hp hd.le
        push_cast; linarith
    · push_cast; linarith

/-- Along the traversal every crossing already made on one axis happened no later than the
next crossing of the other axis. -/
theorem crossings_ordered (ox oy dx dy : ℚ) (k : Nat) :
    ∃ a b, AtCounts ox oy dx dy k a b ∧
      (1 ≤ a → F.lt (sideAfter oy dy (F.truncQ oy) b)
        (sideAfter ox dx (F.truncQ ox) (a - 1)) = false) ∧
      (1 ≤ b → F.lt (sideAfter ox dx (F.truncQ ox) a)
        (sideAfter oy dy (F.truncQ oy) (b - 1)) = false) := by
  induction k with
  | zero =>
    exact ⟨0, 0, atCounts_zero ox oy dx dy, fun h => absurd h (by omega),
      fun h => absurd h (by omega)⟩
  | succ k ih =>
    obtain ⟨a, b, hcnt, hWx, hWy⟩ := ih
    rcases atCounts_succ hcnt with ⟨hlt, _, hcnt1, _, _⟩ | ⟨hlt, _, hcnt1, _, _⟩
    · refine ⟨a + 1, b, hcnt1, fun _ => ?_, fun hb => ?_⟩
      · rw [Nat.add_sub_cancel]; exact F.lt_asymm_all hlt
      · exact sideAfter_mono_false (hWy hb)
    · refine ⟨a, b + 1, hcnt1, fun ha => ?_, fun _ => ?_⟩
      · exact sideAfter_mono_false (hWx ha)
      · rw [Nat.add_sub_cancel]; exact hlt

theorem sideAfter_fin {o d : ℚ} (hd : d ≠ 0) (m : Int) (a : Nat) :
    sideAfter o d m a = F.fin (side0 o d m + a * |1 / d|) := by
  unfold sideAfter; rw [if_neg hd]

/-- In exact arithmetic: on a rectangular grid, from an origin with non-negative coordinates and for a
non-zero direction, the direction component of the last-stepped axis is non-zero, the
returned distance `q` is finite and non-negative, `hitPosition = origin + q * direction`,
its coordinate on the last-stepped axis is the grid line through which the stopping cell was
entered (the index of the cell for a step `+1`, the index plus one for a step `-1`), and its
coordinate on the other axis lies in the closed extent `[index, index + 1]` of the stopping
cell. -/
theorem entry_face_ideal (g : Grid) (rows cols : Nat) (cs : F) (ox oy dx dy : ℚ)
    (hrect : Rect g rows cols) (hrows : 0 < rows) (hox : 0 ≤ ox) (hoy : 0 ≤ oy)
    (hdir : dx ≠ 0 ∨ dy ≠ 0) :
    ∃ s r q, castFinal ideal (vec ox oy) (vec dx dy) ⟨cs, g⟩ = some s ∧
      cast_ray ideal (vec ox oy) (vec dx dy) ⟨cs, g⟩ = some r ∧
      r.distance = F.fin q ∧ r.hitPosition = vec (ox + dx * q) (oy + dy * q) ∧ 0 ≤ q ∧
      (r.isVertical = false → dx ≠ 0 ∧
        ox + dx * q = (if dx < 0 then (s.mapPos.x : ℚ) + 1 else (s.mapPos.x : ℚ)) ∧
        (s.mapPos.y : ℚ) ≤ oy + dy * q ∧ oy + dy * q ≤ (s.mapPos.y : ℚ) + 1) ∧
      (r.isVertical = true → dy ≠ 0 ∧
        oy + dy * q = (if dy < 0 then (s.mapPos.y : ℚ) + 1 else (s.mapPos.y : ℚ)) ∧
        (s.mapPos.x : ℚ) ≤ ox + dx * q ∧ ox + dx * q ≤ (s.mapPos.x : ℚ) + 1) := by
  have ex : F.truncQ ox = ⌊ox⌋ := truncQ_of_nonneg hox
  have ey : F.truncQ oy = ⌊oy⌋ := truncQ_of_nonneg hoy
  have hstep := stepOf_eq_stepSign dx dy
  obtain ⟨n, hn1, _, hfinal, _, _⟩ := castFinal_rect hrect hrows cs ox oy (vec dx dy)
  obtain ⟨k, rfl⟩ : ∃ k, n = k + 1 := ⟨n - 1, by omega⟩
  obtain ⟨a, b, hcnt, hWx, hWy⟩ := crossings_ordered ox oy dx dy k
  rcases atCounts_succ hcnt with ⟨hlt, hdx, hcnt1, hv, hdist⟩ | ⟨hlt, h0, hcnt1, hv, hdist⟩
  · -- the last step is along X
    have hτ0 : 0 ≤ side0 ox dx (F.truncQ ox) + a * |1 / dx| := by
      rw [ex]
      have := side0_nonneg ox dx
      have := abs_nonneg (1 / dx)
      positivity
    have hTx := sideAfter_fin (o := ox) hdx (F.truncQ ox) a
    have hpos := hcnt1.2.1
    refine ⟨_, _, side0 ox dx (F.truncQ ox) + a * |1 / dx|, hfinal,
      cast_ray_of_castFinal hfinal, ?_, ?_, hτ0, ?_, ?_⟩
    · simp only [distanceOf_with, hdist]
    · simp only [distanceOf_with, hdist]
      simp only [Vector2f.add, Vector2f.smul, vec, F.fin_mul_fin, F.fin_add_fin]
    · intro _
      simp only [hpos]
      simp only [hstep]
      have hcoord := crossing_coord (o := ox) hdx (F.truncQ ox) a
      rw [hTx] at hlt hWy
      have hup : F.lt (sideAfter oy dy ⌊oy⌋ b)
          (F.fin (side0 ox dx (F.truncQ ox) + a * |1 / dx|)) = false := by
        rw [← ey]; exact F.lt_asymm_all hlt
      have hlow : 1 ≤ b → F.lt (F.fin (side0 ox dx (F.truncQ ox) + a * |1 / dx|))
          (sideAfter oy dy ⌊oy⌋ (b - 1)) = false := by
        rw [← ey]; exact hWy
      have hY := axis_within oy dy b _ hτ0 hup hlow
      rw [← ey] at hY
      refine ⟨hdx, ?_, ?_, ?_⟩
      · rw [mul_comm dx, hcoord]
        rcases stepSign_cases dx with ⟨hneg, hs⟩ | ⟨hnn, hs⟩
        · rw [if_pos hneg, if_pos hneg, hs]; push_cast; ring
        · rw [if_neg (not_lt.mpr hnn), if_neg (not_lt.mpr hnn), hs]; push_cast; ring
      · rw [mul_comm dy]; exact hY.1
      · rw [mul_comm dy]; exact hY.2
    · intro hcon
      simp only at hcon
      rw [hv] at hcon
      exact absurd hcon (by simp)
  · -- the last step is along Y
    have hdy : dy ≠ 0 := by
      intro hy
      rcases hdir with hx | hy2
      · exact hx (h0 hy)
      · exact hy2 hy
    have hd := hdist hdy
    have hτ0 : 0 ≤ side0 oy dy (F.truncQ oy) + b * |1 / dy| := by
      rw [ey]
      have := side0_nonneg oy dy
      have := abs_nonneg (1 / dy)
      positivity
    have hTy := sideAfter_fin (o := oy) hdy (F.truncQ oy) b
    have hpos := hcnt1.2.1
    refine ⟨_, _, side0 oy dy (F.truncQ oy) + b * |1 / dy|, hfinal,
      cast_ray_of_castFinal hfinal, ?_, ?_, hτ0, ?_, ?_⟩
    · simp only [distanceOf_with, hd]
    · simp only [distanceOf_with, hd]
      simp only [Vector2f.add, Vector2f.smul, vec, F.fin_mul_fin, F.fin_add_fin]
    · intro hcon
      simp only at hcon
      rw [hv] at hcon
      exact absurd hcon (by simp)
    · intro _
      simp only [hpos]
      simp only [hstep]
      have hcoord := crossing_coord (o := oy) hdy (F.truncQ oy) b
      rw [hTy] at hlt hWx
      have hup : F.lt (sideAfter ox dx ⌊ox⌋ a)
          (F.fin (side0 oy dy (F.truncQ oy) + b * |1 / dy|)) = false := by
        rw [← ex]; exact hlt
      have hlow : 1 ≤ a → F.lt (F.fin (side0 oy dy (F.truncQ oy) + b * |1 / dy|))
          (sideAfter ox dx ⌊ox⌋ (a - 1)) = false := by
        rw [← ex]; exact hWx
      have hX := axis_within ox dx a _ hτ0 hup hlow
      rw [← ex] at hX
      refine ⟨hdy, ?_, ?_, ?_⟩
      · rw [mul_comm dy, hcoord]
        rcases stepSign_cases dy with ⟨hneg, hs⟩ | ⟨hnn, hs⟩
        · rw [if_pos hneg, if_pos hneg, hs]; push_cast; ring
        · rw [if_neg (not_lt.mpr hnn), if_neg (not_lt.mpr hnn), hs]; push_cast; ring
      · rw [mul_comm dx]; exact hX.1
      · rw [mul_comm dx]; exact hX.2

end Exact

/-! ## Arithmetic that does not round -/

theorem agree_ideal (q : ℚ) : Agree ideal q := rfl

theorem agree_add {A : Arith} {a b : ℚ} (h : Agree A (a + b)) :
    F.add A (F.fin a) (F.fin b) = F.fin (a + b) := h

theorem agree_sub {A : Arith} {a b : ℚ} (h : Agree A (a - b)) :
    F.sub A (F.fin a) (F.fin b) = F.fin (a - b) := by
  unfold Agree at h
  rw [sub_eq_add_neg] at h
  show F.add A (F.fin a) (F.fin (-b)) = _
  rw [sub_eq_add_neg]
  exact h

theorem agree_mul {A : Arith} {a b : ℚ} (h : Agree A (a * b)) :
    F.mul A (F.fin a) (F.fin b) = F.fin (a * b) := h

theorem agree_div {A : Arith} {a b : ℚ} (hb : b ≠ 0) (h : Agree A (a / b)) :
    F.div A (F.fin a) (F.fin b) = F.fin (a / b) := by
  show (if b = 0 then F.signedInf a else @Arith.rnd A (a / b)) = F.fin (a / b)
  rw [if_neg hb]
  exact h

theorem agree_ofInt {A : Arith} {n : Int} (h : Agree A (n : ℚ)) : F.ofInt A n = F.fin n := h

/-- A sum with an infinite or `NaN` operand is not rounded. -/
theorem add_any_of_agree {A : Arith} (x y : F)
    (h : ∀ p q, x = F.fin p → y = F.fin q → Agree A (p + q)) :
    F.add A x y = F.add ideal x y := by
  cases x <;> cases y <;> try rfl
  rename_i p q
  exact h p q rfl rfl

/-- A difference with an infinite or `NaN` operand is not rounded. -/
theorem sub_any_of_agree {A : Arith} (x y : F)
    (h : ∀ p q, x = F.fin p → y = F.fin q → Agree A (p - q)) :
    F.sub A x y = F.sub ideal x y := by
  cases x <;> cases y <;> try rfl
  rename_i p q
  rw [agree_sub (h p q rfl rfl)]
  exact (F.fin_sub_fin p q).symm

/-! ## A cast that does not round follows the exact cast -/

theorem deltaDist_x_agree {A : Arith} {dx : ℚ} (dy : ℚ) (h : dx ≠ 0 → Agree A (1 / dx)) :
    (deltaDistOf A (vec dx dy)).x = (deltaDistOf ideal (vec dx dy)).x := by
  show F.abs (F.div A (F.fin 1) (F.fin dx)) = F.abs (F.div ideal (F.fin 1) (F.fin dx))
  by_cases hd : dx = 0
  · subst hd; rfl
  · rw [agree_div hd (h hd), agree_div hd (agree_ideal _)]

theorem deltaDist_y_agree {A : Arith} (dx : ℚ) {dy : ℚ} (h : dy ≠ 0 → Agree A (1 / dy)) :
    (deltaDistOf A (vec dx dy)).y = (deltaDistOf ideal (vec dx dy)).y := by
  show F.abs (F.div A (F.fin 1) (F.fin dy)) = F.abs (F.div ideal (F.fin 1) (F.fin dy))
  by_cases hd : dy = 0
  · subst hd; rfl
  · rw [agree_div hd (h hd), agree_div hd (agree_ideal _)]

theorem deltaDistOf_agree {A : Arith} {dx dy : ℚ} (hx : dx ≠ 0 → Agree A (1 / dx))
    (hy : dy ≠ 0 → Agree A (1 / dy)) :
    deltaDistOf A (vec dx dy) = deltaDistOf ideal (vec dx dy) := by
  have h1 := deltaDist_x_agree dy hx
  have h2 := deltaDist_y_agree dx hy
  cases h : deltaDistOf A (vec dx dy)
  cases h' : deltaDistOf ideal (vec dx dy)
  rw [h, h'] at h1 h2
  simp only at h1 h2
  rw [h1, h2]

/-- The initial `sideDist` of one axis, as a function of the origin coordinate, the
direction component, the cell index and `deltaDist`. -/
theorem side_agree {A : Arith} {o d : ℚ} {m : Int} (h : AxisExact A o d m) :
    (if F.lt (F.fin d) (F.fin 0) then
        F.mul A (F.add A (F.ofInt A (-m)) (F.fin o)) (F.abs (F.div ideal (F.fin 1) (F.fin d)))
      else F.mul A (F.add A (F.sub A (F.ofInt A m) (F.fin o)) (F.fin 1))
        (F.abs (F.div ideal (F.fin 1) (F.fin d))))
    = (if F.lt (F.fin d) (F.fin 0) then
        F.mul ideal (F.add ideal (F.ofInt ideal (-m)) (F.fin o))
          (F.abs (F.div ideal (F.fin 1) (F.fin d)))
      else F.mul ideal (F.add ideal (F.sub ideal (F.ofInt ideal m) (F.fin o)) (F.fin 1))
        (F.abs (F.div ideal (F.fin 1) (F.fin d)))) := by
  obtain ⟨_, h2, h3⟩ := h
  simp only [F.lt_fin_fin]
  by_cases hneg : d < 0
  · have hd : d ≠ 0 := ne_of_lt hneg
    rw [if_pos hneg] at h2
    simp only [decide_eq_true hneg, if_true]
    have e1 : F.ofInt A (-m) = F.fin (-(m : ℚ)) := by
      have : Agree A (((-m : Int) : ℚ)) := by rw [Int.cast_neg]; exact h2.1
      rw [agree_ofInt this, Int.cast_neg]
    have e1' : F.ofInt ideal (-m) = F.fin (-(m : ℚ)) := by
      rw [agree_ofInt (agree_ideal _), Int.cast_neg]
    rw [e1, e1', agree_add h2.2, agree_add (agree_ideal _)]
    have hdel : F.abs (F.div ideal (F.fin 1) (F.fin d)) = F.fin |1 / d| := delta_ne_zero hd
    rw [hdel]
    have h0 := h3 hd 0 (Nat.zero_le _)
    simp only [side0, if_pos hneg, Nat.cast_zero, zero_mul, add_zero] at h0
    rw [agree_mul h0, agree_mul (agree_ideal _)]
  · rw [if_neg hneg] at h2
    simp only [decide_eq_false hneg, Bool.false_eq_true, if_false]
    rw [agree_ofInt h2.1, agree_ofInt (agree_ideal _), agree_sub h2.2.1,
      agree_sub (agree_ideal _), agree_add h2.2.2, agree_add (agree_ideal _)]
    by_cases hd : d = 0
    · subst hd
      have hdel : F.abs (F.div ideal (F.fin 1) (F.fin 0)) = F.pinf := delta_zero
      rw [hdel]
      rfl
    · have hdel : F.abs (F.div ideal (F.fin 1) (F.fin d)) = F.fin |1 / d| := delta_ne_zero hd
      rw [hdel]
      have h0 := h3 hd 0 (Nat.zero_le _)
      simp only [side0, if_neg hneg, Nat.cast_zero, zero_mul, add_zero] at h0
      rw [agree_mul h0, agree_mul (agree_ideal _)]

theorem initState_agree {A : Arith} {ox oy dx dy : ℚ} {m : Vector2i}
    (hx : AxisExact A ox dx m.x) (hy : AxisExact A oy dy m.y) :
    initState A (vec ox oy) (vec dx dy) m = initState ideal (vec ox oy) (vec dx dy) m := by
  have hdd := deltaDistOf_agree hx.1 hy.1
  unfold initState sideDistOf
  rw [hdd]
  have e1 := side_agree hx
  have e2 := side_agree hy
  simp only [vec] at e1 e2 ⊢
  congr 2
  
theorem add_def {A : Arith} (x y : F) : x + y = F.add A x y := rfl

theorem sub_def {A : Arith} (x y : F) : x - y = F.sub A x y := rfl

theorem mul_def {A : Arith} (x y : F) : x * y = F.mul A x y := rfl

/-- A step of the traversal is the exact step when its sum is not rounded. -/
theorem advance_agree {A : Arith} (dd : Vector2f) (st : Vector2i) (s : CastState)
    (hx : F.add A s.sideDist.x dd.x = F.add ideal s.sideDist.x dd.x)
    (hy : F.add A s.sideDist.y dd.y = F.add ideal s.sideDist.y dd.y) :
    advance A dd st s = advance ideal dd st s := by
  unfold advance
  split
  · rw [add_def, hx]; rfl
  · rw [add_def, hy]; rfl

theorem sideAfter_add_agree {A : Arith} {o d : ℚ} {m : Int} (h : AxisExact A o d m) (a : Nat)
    (ha : a + 1 ≤ MAX_CELL) :
    F.add A (sideAfter o d m a) (F.abs (F.div ideal (F.fin 1) (F.fin d)))
      = F.add ideal (sideAfter o d m a) (F.abs (F.div ideal (F.fin 1) (F.fin d))) := by
  apply add_any_of_agree
  intro p q hp hq
  by_cases hd : d = 0
  · rw [sideAfter, if_pos hd] at hp
    exact absurd hp (by simp)
  · rw [sideAfter, if_neg hd] at hp
    have hdel : F.abs (F.div ideal (F.fin 1) (F.fin d)) = F.fin |1 / d| := delta_ne_zero hd
    rw [hdel] at hq
    have hp' := F.fin.inj hp
    have hq' := F.fin.inj hq
    have := h.2.2 hd (a + 1) ha
    rw [← hp', ← hq']
    have e : side0 o d m + ((a + 1 : Nat) : ℚ) * |1 / d| = side0 o d m + a * |1 / d| + |1 / d| := by
      push_cast; ring
    rw [e] at this
    exact this

/-- The unobstructed traversal in an arithmetic that does not round is the exact one. -/
theorem walk_agree {A : Arith} {ox oy dx dy : ℚ} (hx : AxisExact A ox dx (F.truncQ ox))
    (hy : AxisExact A oy dy (F.truncQ oy)) (k : Nat) (hk : k ≤ MAX_CELL) :
    walk A (deltaDistOf ideal (vec dx dy)) (stepOf (vec dx dy)) k
        (initState ideal (vec ox oy) (vec dx dy) ⟨F.truncQ ox, F.truncQ oy⟩)
      = walk ideal (deltaDistOf ideal (vec dx dy)) (stepOf (vec dx dy)) k
        (initState ideal (vec ox oy) (vec dx dy) ⟨F.truncQ ox, F.truncQ oy⟩) := by
  induction k with
  | zero => rfl
  | succ k ih =>
    rw [walk_succ, walk_succ, ih (by omega)]
    obtain ⟨a, b, hab, _, hsd⟩ := atCounts_exists ox oy dx dy k
    apply advance_agree
    · rw [hsd]
      exact sideAfter_add_agree hx a (by omega)
    · rw [hsd]
      exact sideAfter_add_agree hy b (by omega)

theorem toVector2i_any {A : Arith} {x y : ℚ} (hx : A.isInt (F.truncQ x) = true)
    (hy : A.isInt (F.truncQ y) = true) :
    (vec x y).toVector2i A = some ⟨F.truncQ x, F.truncQ y⟩ := by
  simp only [Vector2f.toVector2i, vec, F.toInt, hx, hy, if_true]

theorem intRoom_self {A : Arith} {c : Vector2i} (h : IntRoom A c) :
    A.isInt c.x = true ∧ A.isInt c.y = true :=
  ⟨h _ (Or.inl (by simp)), h _ (Or.inr (by simp))⟩

/-- The final state of a cast in an arithmetic that does not round on it is the final state
of the exact cast. -/
theorem castFinal_agree {A : Arith} {g : Grid} {rows cols : Nat} (hr : Rect g rows cols)
    (hrows : 0 < rows) (cs : F) {ox oy dx dy : ℚ}
    (hroom : IntRoom A ⟨F.truncQ ox, F.truncQ oy⟩)
    (hx : AxisExact A ox dx (F.truncQ ox)) (hy : AxisExact A oy dy (F.truncQ oy)) :
    castFinal A (vec ox oy) (vec dx dy) ⟨cs, g⟩
      = castFinal ideal (vec ox oy) (vec dx dy) ⟨cs, g⟩ := by
  have hstart : (vec ox oy).toVector2i A = some ⟨F.truncQ ox, F.truncQ oy⟩ :=
    toVector2i_any (intRoom_self hroom).1 (intRoom_self hroom).2
  obtain ⟨n, hn1, hn, hfin, hbefore, hstop⟩ :=
    castFinal_any hr hrows cs (vec ox oy) (vec dx dy) ⟨F.truncQ ox, F.truncQ oy⟩ hstart hroom
  obtain ⟨n', hn1', hn', hfin', hbefore', hstop'⟩ :=
    castFinal_rect hr hrows cs ox oy (vec dx dy)
  have hdd : deltaDistOf A (vec dx dy) = deltaDistOf ideal (vec dx dy) :=
    deltaDistOf_agree hx.1 hy.1
  have hinit : initState A (vec ox oy) (vec dx dy) ⟨F.truncQ ox, F.truncQ oy⟩
      = initState ideal (vec ox oy) (vec dx dy) ⟨F.truncQ ox, F.truncQ oy⟩ :=
    initState_agree hx hy
  rw [hdd, hinit] at hfin hbefore hstop
  have hw : ∀ k, k ≤ MAX_CELL →
      walk A (deltaDistOf ideal (vec dx dy)) (stepOf (vec dx dy)) k
        (initState ideal (vec ox oy) (vec dx dy) ⟨F.truncQ ox, F.truncQ oy⟩)
      = walk ideal (deltaDistOf ideal (vec dx dy)) (stepOf (vec dx dy)) k
        (initState ideal (vec ox oy) (vec dx dy) ⟨F.truncQ ox, F.truncQ oy⟩) :=
    fun k hk => walk_agree hx hy k hk
  have hnn : n = n' := by
    rcases Nat.lt_trichotomy n n' with h | h | h
    · have h1 := hstop (by omega)
      rw [hw n hn] at h1
      have h2 := hbefore' n hn1 h
      rw [h1] at h2
      exact absurd h2 (by simp)
    · exact h
    · have h1 := hstop' (by omega)
      have h2 := hbefore n' hn1' h
      rw [hw n' hn'] at h2
      rw [h1] at h2
      exact absurd h2 (by simp)
  subst hnn
  rw [hfin, hfin', hw n hn]

/-- The distance computed from a state of the exact traversal is not rounded. -/
theorem distance_agree {A : Arith} {ox oy dx dy : ℚ} (hx : AxisExact A ox dx (F.truncQ ox))
    (hy : AxisExact A oy dy (F.truncQ oy)) (n : Nat) (hn1 : 1 ≤ n) (hn : n ≤ MAX_CELL) :
    distanceOf A (deltaDistOf ideal (vec dx dy))
        (walk ideal (deltaDistOf ideal (vec dx dy)) (stepOf (vec dx dy)) n
          (initState ideal (vec ox oy) (vec dx dy) ⟨F.truncQ ox, F.truncQ oy⟩))
      = distanceOf ideal (deltaDistOf ideal (vec dx dy))
        (walk ideal (deltaDistOf ideal (vec dx dy)) (stepOf (vec dx dy)) n
          (initState ideal (vec ox oy) (vec dx dy) ⟨F.truncQ ox, F.truncQ oy⟩)) := by
  obtain ⟨k, rfl⟩ : ∃ k, n = k + 1 := ⟨n - 1, by omega⟩
  obtain ⟨a, b, h⟩ := atCounts_exists ox oy dx dy k
  have hab : a + b = k := h.1
  have hddx : (deltaDistOf ideal (vec dx dy)).x = F.abs (F.div ideal (F.fin 1) (F.fin dx)) := rfl
  have hddy : (deltaDistOf ideal (vec dx dy)).y = F.abs (F.div ideal (F.fin 1) (F.fin dy)) := rfl
  rcases atCounts_succ h with ⟨_, hdx, hcnt, hv, _⟩ | ⟨_, _, hcnt, hv, _⟩
  · unfold distanceOf
    rw [hv]
    simp only [Bool.false_eq_true, if_false]
    rw [sub_def, sub_def, hcnt.2.2, hddx]
    apply sub_any_of_agree
    intro p q hp hq
    replace hp : sideAfter ox dx (F.truncQ ox) (a + 1) = F.fin p := hp
    rw [sideAfter, if_neg hdx] at hp
    have hdel : F.abs (F.div ideal (F.fin 1) (F.fin dx)) = F.fin |1 / dx| := delta_ne_zero hdx
    rw [hdel] at hq
    rw [← F.fin.inj hp, ← F.fin.inj hq]
    have := hx.2.2 hdx a (by omega)
    have e : side0 ox dx (F.truncQ ox) + ((a + 1 : Nat) : ℚ) * |1 / dx| - |1 / dx|
        = side0 ox dx (F.truncQ ox) + a * |1 / dx| := by push_cast; ring
    rw [e]
    exact this
  · unfold distanceOf
    rw [hv]
    simp only [if_true]
    rw [sub_def, sub_def, hcnt.2.2, hddy]
    apply sub_any_of_agree
    intro p q hp hq
    replace hp : sideAfter oy dy (F.truncQ oy) (b + 1) = F.fin p := hp
    by_cases hdy : dy = 0
    · rw [sideAfter, if_pos hdy] at hp
      exact absurd hp (by simp)
    · rw [sideAfter, if_neg hdy] at hp
      have hdel : F.abs (F.div ideal (F.fin 1) (F.fin dy)) = F.fin |1 / dy| := delta_ne_zero hdy
      rw [hdel] at hq
      rw [← F.fin.inj hp, ← F.fin.inj hq]
      have := hy.2.2 hdy b (by omega)
      have e : side0 oy dy (F.truncQ oy) + ((b + 1 : Nat) : ℚ) * |1 / dy| - |1 / dy|
          = side0 oy dy (F.truncQ oy) + b * |1 / dy| := by push_cast; ring
      rw [e]
      exact this

/-! ## The arithmetic of the program -/

/-- A cell whose indices are below `2 ^ 30` in size has room for a traversal in 32-bit
`int`. -/
theorem intRoom_binary32 (c : Vector2i) (hx : |c.x| ≤ 2 ^ 30) (hy : |c.y| ≤ 2 ^ 30) :
    IntRoom binary32 c := by
  intro n h
  have hx1 := abs_le.mp hx
  have hy1 := abs_le.mp hy
  have hn : -(2 : Int) ^ 31 ≤ n ∧ n < (2 : Int) ^ 31 := by
    rcases h with h | h
    · have h1 := abs_le.mp h
      constructor <;> omega
    · have h1 := abs_le.mp h
      constructor <;> omega
  show (decide (-(2 : Int) ^ 31 ≤ n) && decide (n < (2 : Int) ^ 31)) = true
  rw [decide_eq_true hn.1, decide_eq_true hn.2]
  rfl

/-! ## Small grids -/

theorem gridOneWall_rect : Rect gridOneWall 2 2 := by
  unfold Rect gridOneWall; simp

theorem gridRow4_rect : Rect gridRow4 1 4 := by
  unfold Rect gridRow4; simp

theorem gridCol3_rect : Rect gridCol3 3 1 := by
  unfold Rect gridCol3; simp

theorem grid6_rect : Rect grid6 6 6 := by
  unfold Rect grid6; simp

/-! ## Values of `float` literals -/

/-- The value of the `float` literal `0.3f`. -/
theorem lit32_three_tenths : lit32 (3 / 10) = 5033165 / 16777216 := by decide!

/-- The value of the `float` literal `0.1f`. -/
theorem lit32_one_tenth : lit32 (1 / 10) = 13421773 / 134217728 := by decide!

/-- The value of the `float` literal `0.7f`. -/
theorem lit32_seven_tenths : lit32 (7 / 10) = 11744051 / 16777216 := by decide!

/-- The value of the `float` literal `1.2e-38f`. -/
theorem lit32_small : lit32 (12 / 10 ^ 39) = 4281743 / 2 ^ 148 := by decide!

/-- The value of the `float` literal `0.6f`. -/
theorem lit32_three_fifths : lit32 (3 / 5) = 5033165 / 8388608 := by decide!

/-- The value of the `float` literal `2.6f`. -/
theorem lit32_thirteen_fifths : lit32 (13 / 5) = 5452595 / 2097152 := by decide!

/-- The value of the `float` literal `0.05f`. -/
theorem lit32_one_twentieth : lit32 (1 / 20) = 13421773 / 268435456 := by decide!

/-- The value of the `float` literal `0.8f`. -/
theorem lit32_four_fifths : lit32 (4 / 5) = 13421773 / 16777216 := by decide!

/-- The value of the `float` literal `1e-39f`, a subnormal number. -/
theorem lit32_tiny : lit32 (1 / 10 ^ 39) = 713624 / 2 ^ 149 := by decide!

/-! ## The end-to-end scenario in the arithmetic of the program -/

/-- The final state of the cast of the end-to-end scenario, in the arithmetic of the
program. -/
theorem castFinal32_grid5 :
    castFinal binary32 (vec 2 2) (vec 1 0) ⟨F.fin 10, grid5⟩
      = some ⟨⟨F.fin 3, F.pinf⟩, ⟨4, 2⟩, true, false, 2⟩ := by decide!

/-- The cast of the end-to-end scenario, in the arithmetic of the program. -/
theorem cast_ray32_grid5 :
    cast_ray binary32 (vec 2 2) (vec 1 0) ⟨F.fin 10, grid5⟩
      = some ⟨vec 4 2, F.fin 2, true, false⟩ := by decide!

/-! ## A cast that is not rounded -/

/-- The point `start + distance * dir` in an arithmetic that does not round it. -/
theorem hitPosition_agree {A : Arith} {ox oy dx dy q : ℚ} (h : PointExact A ox oy dx dy q) :
    Vector2f.add A (vec ox oy) (Vector2f.smul A (F.fin q) (vec dx dy))
      = vec (ox + dx * q) (oy + dy * q) := by
  obtain ⟨h1, h2, h3, h4⟩ := h
  have e1 : F.mul A (F.fin dx) (F.fin q) = F.fin (dx * q) := h1
  have e2 : F.mul A (F.fin dy) (F.fin q) = F.fin (dy * q) := h3
  have e3 : F.add A (F.fin ox) (F.fin (dx * q)) = F.fin (ox + dx * q) := h2
  have e4 : F.add A (F.fin oy) (F.fin (dy * q)) = F.fin (oy + dy * q) := h4
  show (⟨F.add A (F.fin ox) (F.mul A (F.fin dx) (F.fin q)),
    F.add A (F.fin oy) (F.mul A (F.fin dy) (F.fin q))⟩ : Vector2f) = _
  rw [e1, e2, e3, e4]
  rfl

/-- A cast in an arithmetic that does not round on it returns what the exact cast returns:
the same final state, hit flag, side flag and distance, and the same hit point when the
point is not rounded either. -/
theorem cast_ray_agree {A : Arith} {g : Grid} {rows cols : Nat} (hr : Rect g rows cols)
    (hrows : 0 < rows) (cs : F) {ox oy dx dy : ℚ}
    (hroom : IntRoom A ⟨F.truncQ ox, F.truncQ oy⟩)
    (hx : AxisExact A ox dx (F.truncQ ox)) (hy : AxisExact A oy dy (F.truncQ oy)) :
    ∃ s r r0, castFinal A (vec ox oy) (vec dx dy) ⟨cs, g⟩ = some s ∧
      castFinal ideal (vec ox oy) (vec dx dy) ⟨cs, g⟩ = some s ∧
      cast_ray A (vec ox oy) (vec dx dy) ⟨cs, g⟩ = some r ∧
      cast_ray ideal (vec ox oy) (vec dx dy) ⟨cs, g⟩ = some r0 ∧
      r.hit = r0.hit ∧ r.isVertical = r0.isVertical ∧ r.distance = r0.distance ∧
      (∀ q, r0.distance = F.fin q → PointExact A ox oy dx dy q →
        r.hitPosition = vec (ox + dx * q) (oy + dy * q) ∧
        r0.hitPosition = vec (ox + dx * q) (oy + dy * q)) := by
  obtain ⟨n, hn1, hn, hfin, _, _⟩ := castFinal_rect hr hrows cs ox oy (vec dx dy)
  have hA := castFinal_agree hr hrows cs hroom hx hy
  rw [hfin] at hA
  have hdd : deltaDistOf A (vec dx dy) = deltaDistOf ideal (vec dx dy) :=
    deltaDistOf_agree hx.1 hy.1
  have hdist : distanceOf A (deltaDistOf A (vec dx dy))
      { walk ideal (deltaDistOf ideal (vec dx dy)) (stepOf (vec dx dy)) n
          (initState ideal (vec ox oy) (vec dx dy) ⟨F.truncQ ox, F.truncQ oy⟩) with
        hit := isWall g (walk ideal (deltaDistOf ideal (vec dx dy)) (stepOf (vec dx dy)) n
          (initState ideal (vec ox oy) (vec dx dy) ⟨F.truncQ ox, F.truncQ oy⟩)).mapPos
        i := n }
      = distanceOf ideal (deltaDistOf ideal (vec dx dy))
      { walk ideal (deltaDistOf ideal (vec dx dy)) (stepOf (vec dx dy)) n
          (initState ideal (vec ox oy) (vec dx dy) ⟨F.truncQ ox, F.truncQ oy⟩) with
        hit := isWall g (walk ideal (deltaDistOf ideal (vec dx dy)) (stepOf (vec dx dy)) n
          (initState ideal (vec ox oy) (vec dx dy) ⟨F.truncQ ox, F.truncQ oy⟩)).mapPos
        i := n } := by
    rw [hdd, distanceOf_with, distanceOf_with]
    exact distance_agree hx hy n hn1 hn
  refine ⟨_, _, _, hA, hfin, cast_ray_of_castFinal hA, cast_ray_of_castFinal hfin, rfl, rfl,
    hdist, ?_⟩
  intro q hq hpt
  simp only at hq ⊢
  rw [hdist, hq]
  exact ⟨hitPosition_agree hpt, @hitPosition_agree ideal ox oy dx dy q ⟨rfl, rfl, rfl, rfl⟩⟩

/-! ## The side flag, the step budget and the tie-break -/

/-- C3 (amended): for every arithmetic, on a rectangular grid, when the conversion of the
origin to its cell is defined and the cell has room for the traversal in `int`,
`isVertical = true` is returned exactly when the last step of the traversal advanced along
the Y axis (the row index changed, the column index did not), and `isVertical = false`
exactly when it advanced along the X axis. -/
theorem cast_ray_side_flag (A : Arith) (g : Grid) (rows cols : Nat) (cs : F)
    (start dir : Vector2f) (c0 : Vector2i) (hrect : Rect g rows cols) (hrows : 0 < rows)
    (hstart : start.toVector2i A = some c0) (hroom : IntRoom A c0) :
    ∃ s r prev, castFinal A start dir ⟨cs, g⟩ = some s ∧
      cast_ray A start dir ⟨cs, g⟩ = some r ∧ 1 ≤ s.i ∧
      prev = walk A (deltaDistOf A dir) (stepOf dir) (s.i - 1) (initState A start dir c0) ∧
      s.mapPos = (advance A (deltaDistOf A dir) (stepOf dir) prev).mapPos ∧
      (r.isVertical = true ↔ s.mapPos.y ≠ prev.mapPos.y ∧ s.mapPos.x = prev.mapPos.x) ∧
      (r.isVertical = false ↔ s.mapPos.x ≠ prev.mapPos.x ∧ s.mapPos.y = prev.mapPos.y) := by
  obtain ⟨n, hn1, _, hfinal, _, _⟩ := castFinal_any hrect hrows cs start dir c0 hstart hroom
  obtain ⟨m, rfl⟩ : ∃ m, n = m + 1 := ⟨n - 1, by omega⟩
  refine ⟨_, _, _, hfinal, cast_ray_of_castFinal hfinal, hn1, rfl, ?_, ?_, ?_⟩
  · simp only [Nat.add_sub_cancel, walk_succ]
  · simp only [Nat.add_sub_cancel, walk_succ]
    have hx := stepOf_x_ne_zero dir
    have hy := stepOf_y_ne_zero dir
    rcases advance_cases (deltaDistOf A dir) (stepOf dir)
      (walk A (deltaDistOf A dir) (stepOf dir) m (initState A start dir c0))
      with ⟨_, _, h2, h3⟩ | ⟨_, _, h2, h3⟩
    · rw [h2, h3]; simp
    · rw [h2, h3]; simp [hy]
  · simp only [Nat.add_sub_cancel, walk_succ]
    have hx := stepOf_x_ne_zero dir
    have hy := stepOf_y_ne_zero dir
    rcases advance_cases (deltaDistOf A dir) (stepOf dir)
      (walk A (deltaDistOf A dir) (stepOf dir) m (initState A start dir c0))
      with ⟨_, _, h2, h3⟩ | ⟨_, _, h2, h3⟩
    · rw [h2, h3]; simp [hx]
    · rw [h2, h3]; simp

/-- Counterexample to C3 as stated, in the program's arithmetic: in the end-to-end scenario
(5x5 grid, origin `(2, 2)`, direction `(1, 0)`) the loop makes 2 passes, the last step goes
from cell `(3, 2)` to cell `(4, 2)`, along the X axis, and `cast_ray` returns
`isVertical = false`, not `true`. -/
theorem cast_ray_side_flag_counterexample :
    ∃ s r, castFinal binary32 (vec 2 2) (vec 1 0) ⟨F.fin 10, grid5⟩ = some s ∧
      cast_ray binary32 (vec 2 2) (vec 1 0) ⟨F.fin 10, grid5⟩ = some r ∧
      s.i = 2 ∧
      (walk binary32 (deltaDistOf binary32 (vec 1 0)) (stepOf (vec 1 0)) 1
        (initState binary32 (vec 2 2) (vec 1 0) ⟨2, 2⟩)).mapPos = ⟨3, 2⟩ ∧
      s.mapPos = ⟨4, 2⟩ ∧ r.hit = true ∧ r.isVertical = false :=
  ⟨_, _, castFinal32_grid5, cast_ray_of_castFinal castFinal32_grid5, rfl, by decide!, rfl, rfl,
    rfl⟩

/-- Witness of C3 (amended) in the end-to-end scenario, in the program's arithmetic. -/
theorem cast_ray_side_flag_witness :
    ∃ s r prev, castFinal binary32 (vec 2 2) (vec 1 0) ⟨F.fin 10, grid5⟩ = some s ∧
      cast_ray binary32 (vec 2 2) (vec 1 0) ⟨F.fin 10, grid5⟩ = some r ∧ 1 ≤ s.i ∧
      prev = walk binary32 (deltaDistOf binary32 (vec 1 0)) (stepOf (vec 1 0)) (s.i - 1)
        (initState binary32 (vec 2 2) (vec 1 0) ⟨2, 2⟩) ∧
      s.mapPos = (advance binary32 (deltaDistOf binary32 (vec 1 0)) (stepOf (vec 1 0))
        prev).mapPos ∧
      (r.isVertical = true ↔ s.mapPos.y ≠ prev.mapPos.y ∧ s.mapPos.x = prev.mapPos.x) ∧
      (r.isVertical = false ↔ s.mapPos.x ≠ prev.mapPos.x ∧ s.mapPos.y = prev.mapPos.y) :=
  cast_ray_side_flag binary32 grid5 5 5 (F.fin 10) (vec 2 2) (vec 1 0) ⟨2, 2⟩ grid5_rect
    (by decide) (by decide!) (intRoom_binary32 _ (by decide) (by decide))

/-- C9: for every arithmetic, on a rectangular grid, when the conversion of the origin to its
cell is defined and the cell has room for the traversal in `int`, the loop of `cast_ray`
makes at least 1 and at most `MAX_CELL = 128` passes (the loop counter `i` at exit); and when
none of the first 128 cells of the traversal is a wall inside the grid, it makes exactly 128
passes and ends with `hit = false`. -/
theorem cast_ray_step_budget (A : Arith) (g : Grid) (rows cols : Nat) (cs : F)
    (start dir : Vector2f) (c0 : Vector2i) (hrect : Rect g rows cols) (hrows : 0 < rows)
    (hstart : start.toVector2i A = some c0) (hroom : IntRoom A c0) :
    ∃ s r, castFinal A start dir ⟨cs, g⟩ = some s ∧
      cast_ray A start dir ⟨cs, g⟩ = some r ∧ r.hit = s.hit ∧
      1 ≤ s.i ∧ s.i ≤ 128 ∧
      ((∀ k, 1 ≤ k → k ≤ 128 → isWall g (walk A (deltaDistOf A dir) (stepOf dir) k
          (initState A start dir c0)).mapPos = false) →
        s.i = 128 ∧ r.hit = false) := by
  obtain ⟨n, hn1, hn128, hfinal, _, hstop⟩ :=
    castFinal_any hrect hrows cs start dir c0 hstart hroom
  refine ⟨_, _, hfinal, cast_ray_of_castFinal hfinal, rfl, hn1, hn128, ?_⟩
  intro hnone
  have hw := hnone n hn1 hn128
  have hn : n = 128 := by
    by_contra hne
    have hlt : n < MAX_CELL := lt_of_le_of_ne hn128 hne
    rw [hstop hlt] at hw
    exact absurd hw (by simp)
  exact ⟨hn, hw⟩

/-- Witness of C9, the max-step scenario in the program's arithmetic: on a grid without a
wall the cast from `(1/2, 1/2)` in the direction `(1, 0)` makes exactly 128 passes and ends
with `hit = false`. -/
theorem cast_ray_step_budget_witness :
    ∃ s r, castFinal binary32 (vec (1 / 2) (1 / 2)) (vec 1 0) ⟨F.fin 10, [[0]]⟩ = some s ∧
      cast_ray binary32 (vec (1 / 2) (1 / 2)) (vec 1 0) ⟨F.fin 10, [[0]]⟩ = some r ∧
      s.i = 128 ∧ r.hit = false := by
  obtain ⟨s, r, h1, h2, _, _, _, h3⟩ :=
    cast_ray_step_budget binary32 [[0]] 1 1 (F.fin 10) (vec (1 / 2) (1 / 2)) (vec 1 0) ⟨0, 0⟩
      (by unfold Rect; simp) (by decide) (by decide!)
      (intRoom_binary32 _ (by decide) (by decide))
  exact ⟨s, r, h1, h2, h3 (fun k _ _ => isWall_open_cell _)⟩

/-- One pass of the loop on a rectangular grid returns a state when the new cell indices are
values of `int`; the step is the one of `advance`. -/
theorem castBody_isSome_any {A : Arith} {g : Grid} {rows cols : Nat} (hr : Rect g rows cols)
    (hrows : 0 < rows) (dd : Vector2f) (st : Vector2i) (s : CastState)
    (hx : A.isInt (advance A dd st s).mapPos.x = true)
    (hy : A.isInt (advance A dd st s).mapPos.y = true) :
    ∃ s1, castBody A g dd st s = some s1 ∧ s1.mapPos = (advance A dd st s).mapPos ∧
      s1.isVertical = (advance A dd st s).isVertical ∧
      s1.sideDist = (advance A dd st s).sideDist := by
  unfold castBody
  simp only [inGrid_rect hr hrows, hx, hy, Bool.and_self, if_true]
  by_cases hp : InRange rows cols (advance A dd st s).mapPos
  · obtain ⟨v, hv⟩ := cellAt_isSome_of_inRange hr hp
    simp only [decide_eq_true hp, hv]
    exact ⟨_, rfl, rfl, rfl, rfl⟩
  · simp only [decide_eq_false hp]
    exact ⟨_, rfl, rfl, rfl, rfl⟩

/-- C14 (amended): for every arithmetic, on a rectangular grid, an iteration of the loop of
`cast_ray` that starts with `sideDist.x = sideDist.y` (and whose new row index is a value of
`int`) takes its step along the Y axis: `mapPos.y` changes by `step.y`, `mapPos.x` does not
change, and `isVertical` is set. -/
theorem tie_steps_along_y (A : Arith) (g : Grid) (rows cols : Nat) (dir : Vector2f)
    (s : CastState) (hrect : Rect g rows cols) (hrows : 0 < rows)
    (hx : A.isInt s.mapPos.x = true) (hy : A.isInt (s.mapPos.y + (stepOf dir).y) = true)
    (htie : s.sideDist.x = s.sideDist.y) :
    ∃ s1, castBody A g (deltaDistOf A dir) (stepOf dir) s = some s1 ∧
      s1.mapPos.x = s.mapPos.x ∧ s1.mapPos.y = s.mapPos.y + (stepOf dir).y ∧
      s1.mapPos.y ≠ s.mapPos.y ∧ s1.isVertical = true := by
  have hlt : F.lt s.sideDist.x s.sideDist.y = false := by rw [htie]; exact F.lt_irrefl_all _
  have hadv : (advance A (deltaDistOf A dir) (stepOf dir) s).mapPos
      = ⟨s.mapPos.x, s.mapPos.y + (stepOf dir).y⟩ ∧
      (advance A (deltaDistOf A dir) (stepOf dir) s).isVertical = true := by
    rcases advance_cases (deltaDistOf A dir) (stepOf dir) s with ⟨h, _⟩ | ⟨_, _, h2, h3⟩
    · rw [hlt] at h; exact absurd h (by simp)
    · exact ⟨h2, h3⟩
  obtain ⟨s1, hs1, hm, hv, _⟩ :=
    castBody_isSome_any hrect hrows (deltaDistOf A dir) (stepOf dir) s
      (by rw [hadv.1]; exact hx) (by rw [hadv.1]; exact hy)
  have hy := stepOf_y_ne_zero dir
  refine ⟨s1, hs1, ?_, ?_, ?_, ?_⟩
  · rw [hm, hadv.1]
  · rw [hm, hadv.1]
  · rw [hm, hadv.1]; simp only; omega
  · rw [hv, hadv.2]

/-- Counterexample to C14 as stated, in the program's arithmetic: from the origin
`(1/2, 1/2)` in the direction `(1, 1)` the first iteration starts with
`sideDist.x = sideDist.y = 1/2`, and its step goes from the cell `(0, 0)` to the cell of
column 0, row 1: `mapPos.y` changes, `mapPos.x` does not. -/
theorem tie_break_counterexample :
    (initState binary32 (vec (1 / 2) (1 / 2)) (vec 1 1) ⟨0, 0⟩).sideDist
      = ⟨F.fin (1 / 2), F.fin (1 / 2)⟩ ∧
    (initState binary32 (vec (1 / 2) (1 / 2)) (vec 1 1) ⟨0, 0⟩).mapPos = ⟨0, 0⟩ ∧
    ∃ s1, castBody binary32 grid3 (deltaDistOf binary32 (vec 1 1)) (stepOf (vec 1 1))
        (initState binary32 (vec (1 / 2) (1 / 2)) (vec 1 1) ⟨0, 0⟩) = some s1 ∧
      s1.mapPos = ⟨0, 1⟩ :=
  ⟨by decide!, rfl, ⟨⟨F.fin (1 / 2), F.fin (3 / 2)⟩, ⟨0, 1⟩, true, true, 1⟩, by decide!, rfl⟩

/-- Witness of C14 (amended), at the origin `(1/2, 1/2)` with the direction `(1, 1)`, in the
program's arithmetic. -/
theorem tie_steps_along_y_witness :
    ∃ s1, castBody binary32 grid3 (deltaDistOf binary32 (vec 1 1)) (stepOf (vec 1 1))
        (initState binary32 (vec (1 / 2) (1 / 2)) (vec 1 1) ⟨0, 0⟩) = some s1 ∧
      s1.mapPos.x = 0 ∧ s1.mapPos.y ≠ 0 ∧ s1.isVertical = true := by
  obtain ⟨s1, h1, h2, _, h4, h5⟩ :=
    tie_steps_along_y binary32 grid3 3 3 (vec 1 1)
      (initState binary32 (vec (1 / 2) (1 / 2)) (vec 1 1) ⟨0, 0⟩) grid3_rect (by decide)
      (by decide!) (by decide!) (by decide!)
  exact ⟨s1, h1, h2, h4, h5⟩

/-! ## Grid accesses stay inside the grid -/

/-- In exact arithmetic `Player::update` returns, and the integer cell of the new position is
inside the grid unless the position is unchanged. -/
theorem update_in_range_ideal {g : Grid} {rows cols : Nat} (hrect : Rect g rows cols)
    (hrows : 0 < rows) (cs angle : F) (dir0 : Vector2f) (px py hx hy dt : ℚ) (keys : Keys) :
    ∃ p1 qx qy,
      Player.update ideal ⟨vec px py, angle, dir0⟩ (F.fin dt) ⟨cs, g⟩ keys (vec hx hy) = some p1 ∧
      p1.position = vec qx qy ∧
      ((qx = px ∧ qy = py) ∨ InRange rows cols ⟨F.truncQ qx, F.truncQ qy⟩) := by
  obtain ⟨p1, hp1, hpos⟩ := update_rect hrect hrows cs angle dir0 px py hx hy dt keys
  by_cases hb : (decide (cellAt g
      ⟨F.truncQ (px - hx * 8 * dt), F.truncQ (py - hy * 8 * dt)⟩ = some 0) && keys.Down) = true
  · by_cases hf : (decide (cellAt g
        ⟨F.truncQ (px + hx * 8 * dt), F.truncQ (py + hy * 8 * dt)⟩ = some 0) && keys.Up)
        = true
    · rw [if_pos hb, if_pos hf] at hpos
      exact ⟨p1, _, _, hp1, hpos, Or.inl ⟨add_sub_cancel_right _ _, add_sub_cancel_right _ _⟩⟩
    · rw [if_pos hb, if_neg hf] at hpos
      simp only [Bool.and_eq_true, decide_eq_true_eq] at hb
      exact ⟨p1, _, _, hp1, hpos, Or.inr (inRange_of_cellAt hrect hb.1)⟩
  · by_cases hf : (decide (cellAt g
        ⟨F.truncQ (px + hx * 8 * dt), F.truncQ (py + hy * 8 * dt)⟩ = some 0) && keys.Up)
        = true
    · rw [if_neg hb, if_pos hf] at hpos
      simp only [Bool.and_eq_true, decide_eq_true_eq] at hf
      exact ⟨p1, _, _, hp1, hpos, Or.inr (inRange_of_cellAt hrect hf.1)⟩
    · rw [if_neg hb, if_neg hf] at hpos
      exact ⟨p1, _, _, hp1, hpos, Or.inl ⟨rfl, rfl⟩⟩

/-- C15: on a rectangular grid with at least one row and one column, a grid read or write
is defined exactly at the cells inside the grid; for every arithmetic `A`, `cast_ray`,
`Player::update` and `Map::toggleCell` run without an access outside the grid (they return a
result as soon as their conversions to `int` are defined); a ray does not hit at a cell
outside the grid, and the agent moves only when a candidate cell inside the grid is open. In
exact arithmetic the integer cell of the new position is inside the grid unless the position
is unchanged. -/
theorem grid_access_in_bounds (A : Arith) (g : Grid) (rows cols : Nat)
    (hrect : Rect g rows cols) (hrows : 1 ≤ rows) (hcols : 1 ≤ cols) :
    (∀ p, (∃ v, cellAt g p = some v) ↔ InRange rows cols p) ∧
    (∀ p w, (∃ g1, setCell g p w = some g1) ↔ InRange rows cols p) ∧
    (∀ (cs : F) (start dir : Vector2f) (c0 : Vector2i),
      start.toVector2i A = some c0 → IntRoom A c0 → ∃ s r,
        castFinal A start dir ⟨cs, g⟩ = some s ∧
        cast_ray A start dir ⟨cs, g⟩ = some r ∧ r.hit = s.hit ∧
        (¬ InRange rows cols s.mapPos → r.hit = false)) ∧
    (∀ (cs angle : F) (dir0 pos heading : Vector2f) (dt : F) (keys : Keys) (n b : Vector2i),
      nextCell A pos heading dt = some n → backCell A pos heading dt = some b → ∃ p1,
        Player.update A ⟨pos, angle, dir0⟩ dt ⟨cs, g⟩ keys heading = some p1 ∧
        (p1.position = pos ∨
          (keys.Up = true ∧ InRange rows cols n ∧ cellAt g n = some 0) ∨
          (keys.Down = true ∧ InRange rows cols b ∧ cellAt g b = some 0))) ∧
    (∀ (cs angle : F) (dir0 : Vector2f) (px py hx hy dt : ℚ) (keys : Keys), ∃ p1 qx qy,
      Player.update ideal ⟨vec px py, angle, dir0⟩ (F.fin dt) ⟨cs, g⟩ keys (vec hx hy) = some p1 ∧
      p1.position = vec qx qy ∧
      ((qx = px ∧ qy = py) ∨ InRange rows cols ⟨F.truncQ qx, F.truncQ qy⟩)) ∧
    (∀ (cs : F) (p c : Vector2i), toggleIndex A cs p = some c →
      ∃ g1, Map.toggleCell A ⟨cs, g⟩ p = some ⟨cs, g1⟩) := by
  refine ⟨cellAt_isSome_iff hrect, setCell_isSome_iff hrect, ?_, ?_, ?_, ?_⟩
  · intro cs start dir c0 hstart hroom
    obtain ⟨n, _, _, hfinal, _, _⟩ := castFinal_any hrect hrows cs start dir c0 hstart hroom
    refine ⟨_, _, hfinal, cast_ray_of_castFinal hfinal, rfl, ?_⟩
    intro hout
    simp only at hout ⊢
    unfold isWall
    rw [cellAt_eq_none_of_not_inRange hrect hout]
  · intro cs angle dir0 pos heading dt keys n b hn hb
    obtain ⟨p1, hp1, _, hpos⟩ := update_any hrect hrows cs angle dir0 pos heading dt keys n b hn hb
    refine ⟨p1, hp1, ?_⟩
    by_cases h1 : (decide (cellAt g b = some 0) && keys.Down) = true
    · simp only [Bool.and_eq_true, decide_eq_true_eq] at h1
      exact Or.inr (Or.inr ⟨h1.2, inRange_of_cellAt hrect h1.1, h1.1⟩)
    · by_cases h2 : (decide (cellAt g n = some 0) && keys.Up) = true
      · simp only [Bool.and_eq_true, decide_eq_true_eq] at h2
        exact Or.inr (Or.inl ⟨h2.2, inRange_of_cellAt hrect h2.1, h2.1⟩)
      · rw [if_neg h1, if_neg h2] at hpos
        exact Or.inl hpos
  · intro cs angle dir0 px py hx hy dt keys
    exact update_in_range_ideal hrect hrows cs angle dir0 px py hx hy dt keys
  · intro cs p c hidx
    obtain ⟨g1, h, _⟩ := toggleCell_changes_any hrect hrows hcols cs p c hidx
    exact ⟨g1, h⟩

/-- Witness of C15 on the 5x5 grid, in the program's arithmetic: a cast along `(-1, 0)` from
`(2, 2)`, an update with all keys down and a toggle at a pixel left of the grid all return a
result. -/
theorem grid_access_in_bounds_witness :
    (∃ r, cast_ray binary32 (vec 2 2) (vec (-1) 0) ⟨F.fin 10, grid5⟩ = some r) ∧
    (∃ p1, Player.update binary32 ⟨vec 2 2, F.fin 0, vec 0 0⟩ (F.fin 1) ⟨F.fin 10, grid5⟩
      ⟨true, true, true, true⟩ (vec 1 0) = some p1) ∧
    (∃ g1, Map.toggleCell binary32 ⟨F.fin 10, grid5⟩ ⟨-500, 20⟩ = some ⟨F.fin 10, g1⟩) := by
  obtain ⟨_, _, h3, h4, _, h5⟩ :=
    grid_access_in_bounds binary32 grid5 5 5 grid5_rect (by decide) (by decide)
  obtain ⟨_, r, _, hr, _⟩ := h3 (F.fin 10) (vec 2 2) (vec (-1) 0) ⟨2, 2⟩ (by decide!)
    (intRoom_binary32 _ (by decide) (by decide))
  obtain ⟨p1, hp, _⟩ := h4 (F.fin 10) (F.fin 0) (vec 0 0) (vec 2 2) (vec 1 0) (F.fin 1)
    ⟨true, true, true, true⟩ ⟨10, 2⟩ ⟨-6, 2⟩ (by decide!) (by decide!)
  exact ⟨⟨r, hr⟩, ⟨p1, hp⟩, h5 (F.fin 10) ⟨-500, 20⟩ ⟨-50, 2⟩ (by decide!)⟩

/-! ## The cell of the origin -/

/-- C16: for every arithmetic `A` in which the cell of the origin has room for a traversal
among the values of `int`, and two rectangular grids of the same size that differ at most in
the cell of the origin (by floor, or by the conversion to `int` of the program), `cast_ray`
returns the same result and stops at the same cell on both; a hit is never at the cell of the
origin. -/
theorem cast_ray_ignores_origin_cell (A : Arith) (g1 g2 : Grid) (rows cols : Nat) (cs : F) (ox oy : ℚ)
    (dir : Vector2f) (c0 : Vector2i)
    (hc0 : c0 = ⟨⌊ox⌋, ⌊oy⌋⟩ ∨ c0 = ⟨F.truncQ ox, F.truncQ oy⟩)
    (hr1 : Rect g1 rows cols) (hr2 : Rect g2 rows cols) (hrows : 0 < rows)
    (hdiff : ∀ p, p ≠ c0 → cellAt g1 p = cellAt g2 p)
    (hroom : IntRoom A ⟨F.truncQ ox, F.truncQ oy⟩) :
    ∃ s r, castFinal A (vec ox oy) dir ⟨cs, g1⟩ = some s ∧
      castFinal A (vec ox oy) dir ⟨cs, g2⟩ = some s ∧
      cast_ray A (vec ox oy) dir ⟨cs, g1⟩ = some r ∧
      cast_ray A (vec ox oy) dir ⟨cs, g2⟩ = some r ∧
      s.mapPos ≠ ⟨F.truncQ ox, F.truncQ oy⟩ ∧ (r.hit = true → s.mapPos ≠ c0) := by
  -- the two grids agree away from the first cell of the traversal
  have hdiff1 : ∀ p, p ≠ (⟨F.truncQ ox, F.truncQ oy⟩ : Vector2i) →
      cellAt g1 p = cellAt g2 p := by
    intro p hp
    rcases hc0 with h | h
    · by_cases hpc : p = c0
      · have hneg : p.x < 0 ∨ p.y < 0 := by
          rw [hpc, h]
          simp only
          by_cases hx : ⌊ox⌋ = F.truncQ ox
          · by_cases hy : ⌊oy⌋ = F.truncQ oy
            · exfalso; apply hp; rw [hpc, h, hx, hy]
            · right; exact floor_neg_of_ne_truncQ hy
          · left; exact floor_neg_of_ne_truncQ hx
        rw [cellAt_neg hneg, cellAt_neg hneg]
      · exact hdiff p hpc
    · rw [h] at hdiff; exact hdiff p hp
  have hwall : ∀ k, 1 ≤ k →
      isWall g1 (walk A (deltaDistOf A dir) (stepOf dir) k
        (initState A (vec ox oy) dir ⟨F.truncQ ox, F.truncQ oy⟩)).mapPos
      = isWall g2 (walk A (deltaDistOf A dir) (stepOf dir) k
        (initState A (vec ox oy) dir ⟨F.truncQ ox, F.truncQ oy⟩)).mapPos := by
    intro k hk
    exact isWall_congr (hdiff1 _ (walk_ne_start (deltaDistOf A dir) dir _ k hk))
  obtain ⟨n1, hn1, hn1m, hfinal1, hbefore1, hstop1⟩ := castFinal_any hr1 hrows cs (vec ox oy) dir ⟨F.truncQ ox, F.truncQ oy⟩
      (toVector2i_any (intRoom_self hroom).1 (intRoom_self hroom).2) hroom
  obtain ⟨n2, hn2, hn2m, hfinal2, hbefore2, hstop2⟩ := castFinal_any hr2 hrows cs (vec ox oy) dir ⟨F.truncQ ox, F.truncQ oy⟩
      (toVector2i_any (intRoom_self hroom).1 (intRoom_self hroom).2) hroom
  have hn : n1 = n2 := by
    rcases lt_trichotomy n1 n2 with hlt | heq | hgt
    · exfalso
      have h1 := hstop1 (by omega)
      rw [hwall n1 hn1, hbefore2 n1 hn1 hlt] at h1
      exact absurd h1 (by simp)
    · exact heq
    · exfalso
      have h2 := hstop2 (by omega)
      rw [← hwall n2 hn2, hbefore1 n2 hn2 hgt] at h2
      exact absurd h2 (by simp)
  subst hn
  rw [← hwall n1 hn1] at hfinal2
  have hne : (walk A (deltaDistOf A dir) (stepOf dir) n1
      (initState A (vec ox oy) dir ⟨F.truncQ ox, F.truncQ oy⟩)).mapPos
      ≠ (initState A (vec ox oy) dir ⟨F.truncQ ox, F.truncQ oy⟩).mapPos :=
    walk_ne_start (deltaDistOf A dir) dir _ n1 hn1
  refine ⟨_, _, hfinal1, hfinal2, cast_ray_of_castFinal hfinal1,
    cast_ray_of_castFinal hfinal2, hne, ?_⟩
  intro hhit
  simp only at hhit ⊢
  rcases hc0 with h | h
  · intro heq
    by_cases hx : ⌊ox⌋ = F.truncQ ox
    · by_cases hy : ⌊oy⌋ = F.truncQ oy
      · apply hne; rw [heq, h, hx, hy]; rfl
      · have hneg : c0.x < 0 ∨ c0.y < 0 := by
          rw [h]; right; exact floor_neg_of_ne_truncQ hy
        rw [heq] at hhit
        unfold isWall at hhit
        rw [cellAt_neg hneg] at hhit
        exact absurd hhit (by simp)
    · have hneg : c0.x < 0 ∨ c0.y < 0 := by
        rw [h]; left; exact floor_neg_of_ne_truncQ hx
      rw [heq] at hhit
      unfold isWall at hhit
      rw [cellAt_neg hneg] at hhit
      exact absurd hhit (by simp)
  · rw [h]; exact hne
/-- Witness of C16 in the program's arithmetic: the casts from `(5/2, 5/2)` in the direction
`(1, 0)` on the 5x5 grid and on the same grid with a wall in the cell of the origin return
the same result. -/
theorem cast_ray_ignores_origin_cell_witness :
    ∃ r, cast_ray binary32 (vec (5 / 2) (5 / 2)) (vec 1 0) ⟨F.fin 10, grid5⟩ = some r ∧
      cast_ray binary32 (vec (5 / 2) (5 / 2)) (vec 1 0) ⟨F.fin 10, grid5w⟩ = some r ∧
      isWall grid5w ⟨⌊(5 / 2 : ℚ)⌋, ⌊(5 / 2 : ℚ)⌋⟩ = true := by
  obtain ⟨_, r, _, _, h1, h2, _, _⟩ :=
    cast_ray_ignores_origin_cell binary32 grid5 grid5w 5 5 (F.fin 10) (5 / 2) (5 / 2) (vec 1 0)
      ⟨2, 2⟩ (Or.inl (by rw [floor_five_halves])) grid5_rect grid5w_rect (by decide)
      grid5w_diff (intRoom_binary32 _ (by decide!) (by decide!))
  exact ⟨r, h1, h2, by rw [floor_five_halves]; rfl⟩

/-! ## The border ring -/

/-- C17: for every arithmetic `A`, on a rectangular grid with at least 3 rows and 3 columns,
a call of `Map::toggleCell` whose conversions to `int` are defined changes at most one cell,
a changed cell is strictly interior, and every cell of the border ring keeps its value; hence
a grid with an all-wall border has an all-wall border after every sequence of such calls. -/
theorem toggleCell_border_invariant (A : Arith) (g : Grid) (rows cols : Nat) (cs : F)
    (hrect : Rect g rows cols) (hrows : 3 ≤ rows) (hcols : 3 ≤ cols) :
    (∀ p c : Vector2i, toggleIndex A cs p = some c → ∃ g1,
      Map.toggleCell A ⟨cs, g⟩ p = some ⟨cs, g1⟩ ∧ Rect g1 rows cols ∧
      (∀ x y, cellAt g1 x ≠ cellAt g x → cellAt g1 y ≠ cellAt g y → x = y) ∧
      (∀ x, cellAt g1 x ≠ cellAt g x → Interior rows cols x) ∧
      (∀ x, InRange rows cols x → ¬ Interior rows cols x → cellAt g1 x = cellAt g x)) ∧
    (BorderWall g rows cols → ∀ ps : List Vector2i,
      (∀ p, p ∈ ps → ∃ c, toggleIndex A cs p = some c) → ∃ gn,
        toggleSeq A ⟨cs, g⟩ ps = some ⟨cs, gn⟩ ∧ Rect gn rows cols ∧
        BorderWall gn rows cols) := by
  constructor
  · intro p c hidx
    obtain ⟨g1, htog, hr1, hch⟩ :=
      toggleCell_changes_any hrect (by omega) (by omega) cs p c hidx
    refine ⟨g1, htog, hr1, ?_, ?_, ?_⟩
    · intro x y hx hy
      rw [(hch x hx).1, (hch y hy).1]
    · intro x hx
      exact (hch x hx).2
    · intro x _ hnot
      by_contra hne
      exact hnot (hch x hne).2
  · intro hborder ps
    induction ps generalizing g with
    | nil => intro _; exact ⟨g, rfl, hrect, hborder⟩
    | cons p ps ih =>
      intro hdef
      obtain ⟨c, hidx⟩ := hdef p (List.mem_cons_self _ _)
      obtain ⟨g1, htog, hr1, hch⟩ :=
        toggleCell_changes_any hrect (by omega) (by omega) cs p c hidx
      have hb1 : BorderWall g1 rows cols := by
        intro q hq hnot
        have : cellAt g1 q = cellAt g q := by
          by_contra hne
          exact hnot (hch q hne).2
        rw [this]
        exact hborder q hq hnot
      obtain ⟨gn, hseq, hrn, hbn⟩ :=
        ih g1 hr1 hb1 (fun q hq => hdef q (List.mem_cons_of_mem _ hq))
      refine ⟨gn, ?_, hrn, hbn⟩
      unfold toggleSeq
      rw [htog]
      exact hseq

/-- Witness of C17 in the program's arithmetic: on the 5x5 grid with cell size 10, after the
calls at the pixels `(25, 15)`, `(5, 5)` and `(-3, 70)` the border is still all wall. -/
theorem toggleCell_border_invariant_witness :
    ∃ gn, toggleSeq binary32 ⟨F.fin 10, grid5⟩ [⟨25, 15⟩, ⟨5, 5⟩, ⟨-3, 70⟩]
        = some ⟨F.fin 10, gn⟩ ∧ Rect gn 5 5 ∧ BorderWall gn 5 5 :=
  (toggleCell_border_invariant binary32 grid5 5 5 (F.fin 10) grid5_rect (by decide)
    (by decide)).2 grid5_border _ (by
      intro p hp
      simp only [List.mem_cons, List.mem_singleton, List.not_mem_nil, or_false] at hp
      rcases hp with h | h | h
      · exact ⟨⟨2, 1⟩, by rw [h]; decide!⟩
      · exact ⟨⟨0, 0⟩, by rw [h]; decide!⟩
      · exact ⟨⟨0, 7⟩, by rw [h]; decide!⟩)

/-- C18: for every arithmetic `A` in which the cell of the origin has room for a traversal
among the values of `int`, on a rectangular grid whose border ring is all wall, with
`(rows - 1) + (cols - 1) ≤ 128`, from an origin in a strictly interior cell and in every
direction, `cast_ray` returns `hit = true` and stops at a wall cell inside the grid. -/
theorem closed_border_hit (A : Arith) (g : Grid) (rows cols : Nat) (cs : F) (ox oy : ℚ) (dir : Vector2f)
    (hrect : Rect g rows cols) (hborder : BorderWall g rows cols)
    (hsize : (rows - 1) + (cols - 1) ≤ 128)
    (hint : Interior rows cols ⟨⌊ox⌋, ⌊oy⌋⟩) (hroom : IntRoom A ⟨⌊ox⌋, ⌊oy⌋⟩) :
    ∃ s r, castFinal A (vec ox oy) dir ⟨cs, g⟩ = some s ∧
      cast_ray A (vec ox oy) dir ⟨cs, g⟩ = some r ∧ r.hit = true ∧
      InRange rows cols s.mapPos ∧ isWall g s.mapPos = true := by
  have hint' := hint
  unfold Interior at hint'
  simp only at hint'
  obtain ⟨hx0, hx1, hy0, hy1⟩ := hint'
  have hrows : 0 < rows := by omega
  have ex : F.truncQ ox = ⌊ox⌋ := truncQ_eq_floor_of_pos (Or.inr hx0)
  have ey : F.truncQ oy = ⌊oy⌋ := truncQ_eq_floor_of_pos (Or.inr hy0)
  have hroom1 : IntRoom A ⟨F.truncQ ox, F.truncQ oy⟩ := by rw [ex, ey]; exact hroom
  have hstart : (initState A (vec ox oy) dir ⟨F.truncQ ox, F.truncQ oy⟩).mapPos
      = ⟨⌊ox⌋, ⌊oy⌋⟩ := by rw [ex, ey]; rfl
  have hint0 : Interior rows cols
      (initState A (vec ox oy) dir ⟨F.truncQ ox, F.truncQ oy⟩).mapPos := by
    rw [hstart]; exact hint
  -- the distances to the border ring along the two step directions
  obtain ⟨Ax, hAx, hAxle⟩ : ∃ Ax : Nat,
      (((stepOf dir).x = 1 ∧
          (initState A (vec ox oy) dir ⟨F.truncQ ox, F.truncQ oy⟩).mapPos.x + Ax
            = (cols : Int) - 1) ∨
        ((stepOf dir).x = -1 ∧
          (initState A (vec ox oy) dir ⟨F.truncQ ox, F.truncQ oy⟩).mapPos.x - Ax = 0)) ∧
      Ax + 2 ≤ cols := by
    rw [hstart]
    simp only
    rcases stepOf_x_cases dir with h | h
    · exact ⟨((cols : Int) - 1 - ⌊ox⌋).toNat, Or.inl ⟨h, by omega⟩, by omega⟩
    · exact ⟨(⌊ox⌋).toNat, Or.inr ⟨h, by omega⟩, by omega⟩
  obtain ⟨By, hBy, hByle⟩ : ∃ By : Nat,
      (((stepOf dir).y = 1 ∧
          (initState A (vec ox oy) dir ⟨F.truncQ ox, F.truncQ oy⟩).mapPos.y + By
            = (rows : Int) - 1) ∨
        ((stepOf dir).y = -1 ∧
          (initState A (vec ox oy) dir ⟨F.truncQ ox, F.truncQ oy⟩).mapPos.y - By = 0)) ∧
      By + 2 ≤ rows := by
    rw [hstart]
    simp only
    rcases stepOf_y_cases dir with h | h
    · exact ⟨((rows : Int) - 1 - ⌊oy⌋).toNat, Or.inl ⟨h, by omega⟩, by omega⟩
    · exact ⟨(⌊oy⌋).toNat, Or.inr ⟨h, by omega⟩, by omega⟩
  have hAx1 : 1 ≤ Ax := by
    rw [hstart] at hAx; simp only at hAx
    rcases hAx with ⟨_, h⟩ | ⟨_, h⟩ <;> omega
  have hBy1 : 1 ≤ By := by
    rw [hstart] at hBy; simp only at hBy
    rcases hBy with ⟨_, h⟩ | ⟨_, h⟩ <;> omega
  obtain ⟨j, hj1, hjle, hjw⟩ : ∃ j, 1 ≤ j ∧ j ≤ Ax + By - 1 ∧
      isWall g (walk A (deltaDistOf A dir) (stepOf dir) j
        (initState A (vec ox oy) dir ⟨F.truncQ ox, F.truncQ oy⟩)).mapPos = true := by
    rcases border_reached hborder (deltaDistOf A dir) dir _ hint0 Ax By hAx hBy (Ax + By - 1)
      with h | ⟨a, b, hab, ha, hb, _⟩
    · exact h
    · omega
  obtain ⟨n, hn1, hn128, hfinal, hbefore, hstop⟩ := castFinal_any hrect hrows cs (vec ox oy) dir ⟨F.truncQ ox, F.truncQ oy⟩
      (toVector2i_any (intRoom_self hroom1).1 (intRoom_self hroom1).2) hroom1
  have hnj : n ≤ j := by
    by_contra hcon
    have := hbefore j hj1 (by omega)
    rw [hjw] at this
    exact absurd this (by simp)
  have hw := hstop (by unfold MAX_CELL; omega)
  obtain ⟨v, hv⟩ := isWall_cellAt hw
  exact ⟨_, _, hfinal, cast_ray_of_castFinal hfinal, hw, inRange_of_cellAt hrect hv, hw⟩
/-- Witness of C18 in the program's arithmetic, on the built-in 24x24 map, from the start
position `(8, 10)` of the player in the direction `(1, 1)`: the cast hits a wall cell inside
the grid. -/
theorem closed_border_hit_witness :
    ∃ s r, castFinal binary32 (vec 8 10) (vec 1 1) ⟨F.fin 10, mainGrid⟩ = some s ∧
      cast_ray binary32 (vec 8 10) (vec 1 1) ⟨F.fin 10, mainGrid⟩ = some r ∧ r.hit = true ∧
      InRange 24 24 s.mapPos ∧ isWall mainGrid s.mapPos = true :=
  closed_border_hit binary32 mainGrid 24 24 (F.fin 10) 8 10 (vec 1 1) mainGrid_rect
    mainGrid_border (by decide) (by rw [floor_eight, floor_ten]; decide)
    (intRoom_binary32 _ (by rw [floor_eight]; decide) (by rw [floor_ten]; decide))

/-! ## The first wall along a ray -/

/-- The cast on the 3x3 grid from `(1/2, 1/2)` in the direction `(1, 1)` in the arithmetic
of the program: the first pass finds the two side distances equal, steps along Y into the
wall cell of column 0, row 1, and the loop stops there. -/
theorem castFinal32_grid3 :
    castFinal binary32 (vec (1 / 2) (1 / 2)) (vec 1 1) ⟨F.fin 10, grid3⟩
      = some ⟨⟨F.fin (1 / 2), F.fin (3 / 2)⟩, ⟨0, 1⟩, true, true, 1⟩ := by decide!

/-- The cast on `gridOneWall` from `(0.25, 0.75)` in the direction `(0.3f, 0.1f)` in the
arithmetic of the program: it runs for 128 passes and ends without a hit at column 96,
row 32. -/
theorem castFinal32_oneWall :
    Option.map (fun s => (s.mapPos, s.hit, s.i))
      (castFinal binary32 (vec (1 / 4) (3 / 4)) (vec (lit32 (3 / 10)) (lit32 (1 / 10)))
        ⟨F.fin 10, gridOneWall⟩) = some (⟨96, 32⟩, false, 128) := by decide!

/-- The first two side distances of that cast are both rounded to `2.5`. -/
theorem sideDist32_oneWall :
    sideDistOf binary32 (vec (1 / 4) (3 / 4)) (vec (lit32 (3 / 10)) (lit32 (1 / 10))) ⟨0, 0⟩
      = ⟨F.fin (5 / 2), F.fin (5 / 2)⟩ := by decide!

theorem floor_quarter : ⌊(1 / 4 : ℚ)⌋ = 0 := by
  rw [Int.floor_eq_iff]; constructor <;> norm_num

theorem floor_three_quarters : ⌊(3 / 4 : ℚ)⌋ = 0 := by
  rw [Int.floor_eq_iff]; constructor <;> norm_num

/-- The only wall of `gridOneWall` is the cell of column 1, row 0. -/
theorem gridOneWall_wall {w : Vector2i} (h : isWall gridOneWall w = true) : w = ⟨1, 0⟩ := by
  obtain ⟨v, hv⟩ := isWall_cellAt h
  have hin := inRange_of_cellAt gridOneWall_rect hv
  obtain ⟨wx, wy⟩ := w
  unfold InRange at hin
  simp only at hin
  obtain ⟨h1, h2, h3, h4⟩ := hin
  have h2' : wx < 2 := by exact_mod_cast h2
  have h4' : wy < 2 := by exact_mod_cast h4
  interval_cases wx <;> interval_cases wy
  · exact absurd h (by decide)
  · exact absurd h (by decide)
  · rfl
  · exact absurd h (by decide)

/-- The cast of the end-to-end scenario with the direction `(3, 0)`, in the arithmetic of the
program. -/
theorem cast_ray32_grid5_three :
    cast_ray binary32 (vec 2 2) (vec 3 0) ⟨F.fin 10, grid5⟩
      = some ⟨vec 4 2, F.fin (5592405 / 8388608), true, false⟩ := by decide!

/-- The cast on the built-in map from `(3/2, 3/2)` in the direction `(1.2e-38f, 0)`, in the
arithmetic of the program: it stops at column 5, row 16. -/
theorem castFinal32_main_small :
    Option.map (fun s => (s.mapPos, s.hit, s.isVertical, s.i))
      (castFinal binary32 (vec (3 / 2) (3 / 2)) (vec (lit32 (12 / 10 ^ 39)) 0)
        ⟨F.fin 10, mainGrid⟩) = some (⟨5, 16⟩, true, true, 19) := by decide!

/-- The cast on `gridRow4` from `(0.3f, 0.5)` in the direction `(0.7f, 0)`, in the arithmetic
of the program. -/
theorem cast_ray32_row4 :
    cast_ray binary32 (vec (lit32 (3 / 10)) (1 / 2)) (vec (lit32 (7 / 10)) 0)
        ⟨F.fin 10, gridRow4⟩
      = some ⟨vec (12582911 / 4194304) (1 / 2), F.fin (16178029 / 4194304), true, false⟩ := by
  decide!

/-- The final state of that cast. -/
theorem castFinal32_row4 :
    Option.map (fun s => (s.mapPos, s.hit, s.isVertical, s.i))
      (castFinal binary32 (vec (lit32 (3 / 10)) (1 / 2)) (vec (lit32 (7 / 10)) 0)
        ⟨F.fin 10, gridRow4⟩) = some (⟨3, 0⟩, true, false, 3) := by decide!

/-- The cast on `gridCol3` from `(1/2, 1/2)` in the direction `(1, 3)`, in the arithmetic of
the program. -/
theorem castFinal32_col3 :
    Option.map (fun s => (s.mapPos, s.hit, s.isVertical, s.i))
      (castFinal binary32 (vec (1 / 2) (1 / 2)) (vec 1 3) ⟨F.fin 10, gridCol3⟩)
      = some (⟨0, 2⟩, true, true, 2) := by decide!

/-- The cast on `gridCol3` from `(1/2, 1/2)` in the direction `(5, 15)`, in the arithmetic of
the program. -/
theorem castFinal32_col3_scaled :
    Option.map (fun s => (s.mapPos, s.hit, s.isVertical, s.i))
      (castFinal binary32 (vec (1 / 2) (1 / 2)) (vec (5 * 1) (5 * 3)) ⟨F.fin 10, gridCol3⟩)
      = some (⟨32, 96⟩, false, true, 128) := by decide!

/-- The `deltaDist` of an axis with a zero direction component is `+inf` in every
arithmetic: the division `1 / 0` is not rounded. -/
theorem delta_zero_any (A : Arith) : F.abs (F.div A (F.fin 1) (F.fin 0)) = F.pinf := by
  have h : F.div A (F.fin 1) (F.fin 0) = F.signedInf 1 := by
    show (if (0 : ℚ) = 0 then F.signedInf 1 else @Arith.rnd A (1 / 0)) = F.signedInf 1
    rw [if_pos rfl]
  rw [h, signedInf_pos (by norm_num)]
  rfl

/-- The cast of the 5x5 grid from `(2, 2)` in the direction `(1e-39f, 0)`, in the arithmetic
of the program: `1 / 1e-39f` overflows, both side distances are `+inf`, and the two passes of
the loop step along Y. -/
theorem castFinal32_grid5_tiny :
    castFinal binary32 (vec 2 2) (vec (lit32 (1 / 10 ^ 39)) 0) ⟨F.fin 10, grid5⟩
      = some ⟨⟨F.pinf, F.pinf⟩, ⟨2, 4⟩, true, true, 2⟩ := by decide!

/-- The cell that `Map::toggleCell` computes from a pixel position, in an arithmetic that
rounds neither the conversion of the pixel coordinates nor the two quotients: the
floor-divided cell, when the quotients are not negative. -/
theorem toggleIndex_agree {A : Arith} {cs : ℚ} (hcs : cs ≠ 0) (px py : Int)
    (hpx : Agree A px) (hpy : Agree A py) (hqx : Agree A ((px : ℚ) / cs))
    (hqy : Agree A ((py : ℚ) / cs)) :
    toggleIndex A (F.fin cs) ⟨px, py⟩
      = (if A.isInt (F.truncQ ((px : ℚ) / cs)) = true ∧ A.isInt (F.truncQ ((py : ℚ) / cs)) = true
          then some ⟨F.truncQ ((px : ℚ) / cs), F.truncQ ((py : ℚ) / cs)⟩ else none) := by
  have ex : F.div A (F.ofInt A px) (F.fin cs) = F.fin ((px : ℚ) / cs) := by
    rw [agree_ofInt hpx]
    exact agree_div hcs hqx
  have ey : F.div A (F.ofInt A py) (F.fin cs) = F.fin ((py : ℚ) / cs) := by
    rw [agree_ofInt hpy]
    exact agree_div hcs hqy
  show (match (F.div A (F.ofInt A px) (F.fin cs)).toInt A,
      (F.div A (F.ofInt A py) (F.fin cs)).toInt A with
    | some gridX, some gridY => some (⟨gridX, gridY⟩ : Vector2i)
    | _, _ => none) = _
  rw [ex, ey]
  by_cases h1 : A.isInt (F.truncQ ((px : ℚ) / cs)) = true
  · by_cases h2 : A.isInt (F.truncQ ((py : ℚ) / cs)) = true
    · simp [F.toInt, h1, h2]
    · simp [F.toInt, h1, h2]
  · simp [F.toInt, h1]

/-- C5 (amended): for every arithmetic `A`, on a rectangular grid with at least 3 rows and 3
columns, a pixel position for which the cell computed by `Map::toggleCell` (the conversions
to `int` of the two quotients by the cell size, as `A` computes them) is defined and strictly
interior makes `Map::toggleCell` flip that cell (`0` becomes `1`, `1` becomes `0`, every
other cell keeps its value), and a second call with the same pixel position gives back the
original grid. The computed cell is the floor-divided cell when `A` rounds neither the
conversion of the pixel coordinates nor the quotients. -/
theorem toggleCell_involution (A : Arith) (g : Grid) (rows cols : Nat) (cs : ℚ)
    (px py : Int) (c : Vector2i) (hrect : Rect g rows cols) (hrows : 3 ≤ rows)
    (hcols : 3 ≤ cols) (hidx : toggleIndex A (F.fin cs) ⟨px, py⟩ = some c)
    (hint : Interior rows cols c) :
    (∃ v g1,
      cellAt g c = some v ∧
      Map.toggleCell A ⟨F.fin cs, g⟩ ⟨px, py⟩ = some ⟨F.fin cs, g1⟩ ∧
      cellAt g1 c = some (1 - v) ∧
      (v = 0 → cellAt g1 c = some 1) ∧
      (v = 1 → cellAt g1 c = some 0) ∧
      (∀ q, q ≠ c → cellAt g1 q = cellAt g q) ∧
      Map.toggleCell A ⟨F.fin cs, g1⟩ ⟨px, py⟩ = some ⟨F.fin cs, g⟩) ∧
    (cs ≠ 0 → Agree A px → Agree A py → Agree A ((px : ℚ) / cs) → Agree A ((py : ℚ) / cs) →
      c = ⟨⌊(px : ℚ) / cs⌋, ⌊(py : ℚ) / cs⌋⟩) := by
  constructor
  · obtain ⟨v, g1, hv, hset, htog⟩ :=
      (toggleCell_any hrect (by omega) (by omega) (F.fin cs) ⟨px, py⟩ c hidx).1 hint
    have hself := cellAt_setCell_self hv hset
    have hrect1 : Rect g1 rows cols := setCell_rect hrect hv hset
    obtain ⟨v1, g2, hv1, hset1, htog1⟩ :=
      (toggleCell_any hrect1 (by omega) (by omega) (F.fin cs) ⟨px, py⟩ c hidx).1 hint
    have hv1e : v1 = 1 - v := by
      rw [hself] at hv1; exact (Option.some.inj hv1).symm
    have hback : setCell g1 c v = some g := setCell_restore hv hset
    have hg2 : g2 = g := by
      rw [hv1e, sub_sub_cancel, hback] at hset1
      exact (Option.some.inj hset1).symm
    refine ⟨v, g1, hv, htog, hself, ?_, ?_, ?_, ?_⟩
    · intro h0; rw [hself, h0]; rfl
    · intro h1; rw [hself, h1]; rfl
    · intro q hq; exact cellAt_setCell_ne hv hset hq
    · rw [htog1, hg2]
  · intro hcs hpx hpy hqx hqy
    rw [toggleIndex_agree hcs px py hpx hpy hqx hqy] at hidx
    by_cases h : A.isInt (F.truncQ ((px : ℚ) / cs)) = true ∧
        A.isInt (F.truncQ ((py : ℚ) / cs)) = true
    · rw [if_pos h] at hidx
      have e : c = ⟨F.truncQ ((px : ℚ) / cs), F.truncQ ((py : ℚ) / cs)⟩ :=
        (Option.some.inj hidx).symm
      rw [e] at hint ⊢
      rw [truncQ_eq_floor_of_pos (Or.inl hint.1), truncQ_eq_floor_of_pos (Or.inl hint.2.2.1)]
    · rw [if_neg h] at hidx
      exact absurd hidx (by simp)

/-- Counterexample to C5 as stated, in the arithmetic of the program: on the 6x6 grid with
the cell size `0.6f`, the pixel `(3, 3)` has the floor-divided cell `(4, 4)`, which is
strictly interior and open; but the program computes `3 / 0.6f = 5.0`, the cell `(5, 5)` of
the border ring, and `Map::toggleCell` returns the grid unchanged: the cell `(4, 4)` is not
flipped. -/
theorem toggleCell_involution_counterexample :
    Rect grid6 6 6 ∧ 0 < lit32 (3 / 5) ∧
    (⟨⌊((3 : Int) : ℚ) / lit32 (3 / 5)⌋, ⌊((3 : Int) : ℚ) / lit32 (3 / 5)⌋⟩ : Vector2i)
      = ⟨4, 4⟩ ∧
    Interior 6 6 ⟨4, 4⟩ ∧ cellAt grid6 ⟨4, 4⟩ = some 0 ∧
    toggleIndex binary32 (F.fin (lit32 (3 / 5))) ⟨3, 3⟩ = some ⟨5, 5⟩ ∧
    Map.toggleCell binary32 ⟨F.fin (lit32 (3 / 5)), grid6⟩ ⟨3, 3⟩
      = some ⟨F.fin (lit32 (3 / 5)), grid6⟩ := by
  have e : ⌊((3 : Int) : ℚ) / lit32 (3 / 5)⌋ = 4 := by
    rw [lit32_three_fifths, Int.floor_eq_iff]
    constructor <;> norm_num
  refine ⟨grid6_rect, by rw [lit32_three_fifths]; norm_num, by rw [e], by decide, rfl,
    by decide!, by decide!⟩

/-- Witness of C5 (amended) in the arithmetic of the program: on the 5x5 grid with cell
size 10 the pixel `(25, 15)` gives the interior cell of row 1, column 2; a call of
`toggleCell` changes the grid and a second call restores it. -/
theorem toggleCell_involution_witness :
    ∃ g1, Map.toggleCell binary32 ⟨F.fin 10, grid5⟩ ⟨25, 15⟩ = some ⟨F.fin 10, g1⟩ ∧
      cellAt g1 ⟨2, 1⟩ = some 1 ∧
      Map.toggleCell binary32 ⟨F.fin 10, g1⟩ ⟨25, 15⟩ = some ⟨F.fin 10, grid5⟩ := by
  obtain ⟨⟨v, g1, hv, h1, _, h0, _, _, h2⟩, _⟩ :=
    toggleCell_involution binary32 grid5 5 5 10 25 15 ⟨2, 1⟩ grid5_rect (by decide)
      (by decide) (by decide!) (by decide)
  have hv0 : v = 0 := by
    have : cellAt grid5 ⟨2, 1⟩ = some 0 := rfl
    rw [this] at hv
    exact (Option.some.inj hv).symm
  exact ⟨g1, h1, h0 hv0, h2⟩

/-- The forward candidate cell and the forward move of `Player::update` in an arithmetic
that rounds none of their values: the conversion to `int` of the exact moved position, and
the exact moved position. -/
theorem move_agree {A : Arith} {px py dx dy t : ℚ} (hx : MoveExact A px dx t)
    (hy : MoveExact A py dy t) :
    nextCell A (vec px py) (vec dx dy) (F.fin t)
      = Vector2f.toVector2i A (vec (px + dx * 8 * t) (py + dy * 8 * t)) ∧
    movedForward A (vec px py) (vec dx dy) (F.fin t)
      = vec (px + dx * 8 * t) (py + dy * 8 * t) := by
  obtain ⟨a1, a2, a3, a4, a5, a6⟩ := hx
  obtain ⟨b1, b2, b3, b4, b5, b6⟩ := hy
  have e1 : dx * t * 8 = dx * 8 * t := by ring
  have e2 : dy * t * 8 = dy * 8 * t := by ring
  have m1 : F.mul A (F.fin dx) (F.fin t) = F.fin (dx * t) := a1
  have m2 : F.mul A (F.fin (dx * t)) (F.fin 8) = F.fin (dx * t * 8) := a2
  have m3 : F.add A (F.fin px) (F.fin (dx * t * 8)) = F.fin (px + dx * t * 8) := a3
  have m4 : F.mul A (F.fin dx) (F.fin 8) = F.fin (dx * 8) := a4
  have m5 : F.mul A (F.fin (dx * 8)) (F.fin t) = F.fin (dx * 8 * t) := a5
  have m6 : F.add A (F.fin px) (F.fin (dx * 8 * t)) = F.fin (px + dx * 8 * t) := a6
  have n1 : F.mul A (F.fin dy) (F.fin t) = F.fin (dy * t) := b1
  have n2 : F.mul A (F.fin (dy * t)) (F.fin 8) = F.fin (dy * t * 8) := b2
  have n3 : F.add A (F.fin py) (F.fin (dy * t * 8)) = F.fin (py + dy * t * 8) := b3
  have n4 : F.mul A (F.fin dy) (F.fin 8) = F.fin (dy * 8) := b4
  have n5 : F.mul A (F.fin (dy * 8)) (F.fin t) = F.fin (dy * 8 * t) := b5
  have n6 : F.add A (F.fin py) (F.fin (dy * 8 * t)) = F.fin (py + dy * 8 * t) := b6
  constructor
  · show Vector2f.toVector2i A
      ⟨F.add A (F.fin px) (F.mul A (F.mul A (F.fin dx) (F.fin t)) (F.fin 8)),
       F.add A (F.fin py) (F.mul A (F.mul A (F.fin dy) (F.fin t)) (F.fin 8))⟩ = _
    rw [m1, m2, m3, n1, n2, n3, e1, e2]
    rfl
  · show (⟨F.add A (F.fin px) (F.mul A (F.mul A (F.fin dx) (F.fin 8)) (F.fin t)),
       F.add A (F.fin py) (F.mul A (F.mul A (F.fin dy) (F.fin 8)) (F.fin t))⟩ : Vector2f) = _
    rw [m4, m5, m6, n4, n5, n6]
    rfl

/-- C7 (amended): for every arithmetic `A`, on a rectangular grid, with only the
move-forward key down and the two candidate cells of `Player::update` defined: when the
forward candidate cell `next_pos` that the program computes (the conversion to `int` of
`position + direction * deltaTime * MOV_SPEED` as `A` computes it) is inside the grid and
open, the new position is `position + direction * MOV_SPEED * deltaTime` as `A` computes it;
when that cell is outside the grid or not open, the position is unchanged in both
coordinates. When `A` rounds none of these values, the candidate cell is the integer cell of
the exact sum and the new position is the exact sum. -/
theorem update_forward (A : Arith) (g : Grid) (rows cols : Nat) (cellsize angle : F)
    (dir0 pos heading : Vector2f) (dt : F) (n b : Vector2i) (hrect : Rect g rows cols)
    (hrows : 0 < rows) (hn : nextCell A pos heading dt = some n)
    (hb : backCell A pos heading dt = some b) :
    ∃ p1, Player.update A ⟨pos, angle, dir0⟩ dt ⟨cellsize, g⟩
        ⟨true, false, false, false⟩ heading = some p1 ∧
      (InRange rows cols n → cellAt g n = some 0 →
        p1.position = movedForward A pos heading dt) ∧
      ((¬ InRange rows cols n ∨ ∃ v, v ≠ 0 ∧ cellAt g n = some v) → p1.position = pos) ∧
      (∀ px py dx dy t : ℚ, pos = vec px py → heading = vec dx dy → dt = F.fin t →
        MoveExact A px dx t → MoveExact A py dy t →
        n = ⟨F.truncQ (px + dx * 8 * t), F.truncQ (py + dy * 8 * t)⟩ ∧
        movedForward A pos heading dt = vec (px + dx * 8 * t) (py + dy * 8 * t)) := by
  obtain ⟨p1, hp1, _, hpos⟩ :=
    update_any hrect hrows cellsize angle dir0 pos heading dt ⟨true, false, false, false⟩
      n b hn hb
  simp only [Bool.and_false, Bool.false_eq_true, if_false, Bool.and_true] at hpos
  refine ⟨p1, hp1, ?_, ?_, ?_⟩
  · intro _ h0
    rw [hpos, if_pos (by simp [h0])]
  · rintro (hout | ⟨v, hv, hc⟩)
    · rw [hpos, cellAt_eq_none_of_not_inRange hrect hout]
      simp
    · rw [hpos, hc]
      simp [hv]
  · intro px py dx dy t e1 e2 e3 hx hy
    subst e1 e2 e3
    obtain ⟨h1, h2⟩ := move_agree hx hy
    refine ⟨?_, h2⟩
    rw [h1] at hn
    simp only [Vector2f.toVector2i, vec, F.toInt] at hn
    by_cases c1 : A.isInt (F.truncQ (px + dx * 8 * t)) = true
    · by_cases c2 : A.isInt (F.truncQ (py + dy * 8 * t)) = true
      · simp only [c1, c2, if_true, Option.some.injEq] at hn
        exact hn.symm
      · simp [c1, c2] at hn
    · simp [c1] at hn

/-- The update on `gridRow4` from `(2.6f, 0.5)` with the heading `(1, 0)`, `deltaTime =
0.05f` and only the move-forward key down, in the arithmetic of the program: the position
does not change. -/
theorem update32_row4 :
    Option.map (fun p => p.position)
      (Player.update binary32 ⟨vec (lit32 (13 / 5)) (1 / 2), F.fin 0, vec 1 0⟩
        (F.fin (lit32 (1 / 20))) ⟨F.fin 10, gridRow4⟩ ⟨true, false, false, false⟩ (vec 1 0))
      = some (vec (lit32 (13 / 5)) (1 / 2)) := by decide!

/-- Counterexample to C7 as stated, in the arithmetic of the program: on the grid of one row
with a wall in column 3, from `(2.6f, 0.5)` with the heading `(1, 0)` and `deltaTime =
0.05f`, the exact sum `position + direction * MOV_SPEED * deltaTime` is
`(2.99999991.., 0.5)`, in the open cell of column 2 inside the grid; but the program computes
the sum `3.0`, tests the wall cell of column 3 and leaves the position unchanged. -/
theorem update_forward_counterexample :
    Rect gridRow4 1 4 ∧
    InRange 1 4 ⟨F.truncQ (lit32 (13 / 5) + 1 * 8 * lit32 (1 / 20)),
      F.truncQ (1 / 2 + 0 * 8 * lit32 (1 / 20))⟩ ∧
    cellAt gridRow4 ⟨F.truncQ (lit32 (13 / 5) + 1 * 8 * lit32 (1 / 20)),
      F.truncQ (1 / 2 + 0 * 8 * lit32 (1 / 20))⟩ = some 0 ∧
    nextCell binary32 (vec (lit32 (13 / 5)) (1 / 2)) (vec 1 0) (F.fin (lit32 (1 / 20)))
      = some ⟨3, 0⟩ ∧
    ∃ p1, Player.update binary32 ⟨vec (lit32 (13 / 5)) (1 / 2), F.fin 0, vec 1 0⟩
        (F.fin (lit32 (1 / 20))) ⟨F.fin 10, gridRow4⟩ ⟨true, false, false, false⟩ (vec 1 0)
        = some p1 ∧
      p1.position = vec (lit32 (13 / 5)) (1 / 2) ∧
      p1.position ≠ vec (lit32 (13 / 5) + 1 * 8 * lit32 (1 / 20))
        (1 / 2 + 0 * 8 * lit32 (1 / 20)) := by
  obtain ⟨p1, hp1, hpos⟩ := Option.map_eq_some'.mp update32_row4
  have e1 : F.truncQ (lit32 (13 / 5) + 1 * 8 * lit32 (1 / 20)) = 2 := by
    rw [lit32_thirteen_fifths, lit32_one_twentieth]
    unfold F.truncQ
    rw [if_pos (by norm_num), Int.floor_eq_iff]
    constructor <;> norm_num
  have e2 : F.truncQ (1 / 2 + 0 * 8 * lit32 (1 / 20)) = 0 := by
    unfold F.truncQ
    rw [if_pos (by norm_num), Int.floor_eq_iff]
    constructor <;> norm_num
  refine ⟨gridRow4_rect, by rw [e1, e2]; decide, by rw [e1, e2]; rfl, by decide!, p1, hp1,
    hpos, ?_⟩
  rw [hpos, lit32_thirteen_fifths, lit32_one_twentieth]
  intro h
  have h1 := congrArg Vector2f.x h
  have h2 : (5452595 / 2097152 : ℚ) = 5452595 / 2097152 + 1 * 8 * (13421773 / 268435456) :=
    F.fin.inj h1
  norm_num at h2

/-- Witness of C7 (amended) in the arithmetic of the program: on the 5x5 grid, from
position `(2, 2)` with direction `(1, 0)` and `deltaTime = 1/16`, the candidate cell
`(2, 2)` is open and the agent moves to `(5/2, 2)`. -/
theorem update_forward_witness :
    ∃ p1, Player.update binary32 ⟨vec 2 2, F.fin 0, vec 0 0⟩ (F.fin (1 / 16))
        ⟨F.fin 10, grid5⟩ ⟨true, false, false, false⟩ (vec 1 0) = some p1 ∧
      p1.position = vec (5 / 2) 2 := by
  obtain ⟨p1, h1, h2, _, h4⟩ :=
    update_forward binary32 grid5 5 5 (F.fin 10) (F.fin 0) (vec 0 0) (vec 2 2) (vec 1 0)
      (F.fin (1 / 16)) ⟨2, 2⟩ ⟨1, 2⟩ grid5_rect (by decide) (by decide!) (by decide!)
  refine ⟨p1, h1, ?_⟩
  rw [h2 (by decide) rfl]
  rw [(h4 2 2 1 0 (1 / 16) rfl rfl rfl (by decide!) (by decide!)).2]
  norm_num

/-! ## The agent stays in open cells -/

/-- C19: on a rectangular grid, for every `deltaTime`, heading and combination of the four
keys, when the integer cell (`static_cast<int>` of the position) of the agent is inside the
grid and open before `Player::update`, the integer cell of the agent after the update is
inside the grid and open again. -/
theorem update_stays_open (g : Grid) (rows cols : Nat) (cs angle : F) (dir0 : Vector2f)
    (px py hx hy dt : ℚ) (keys : Keys) (hrect : Rect g rows cols)
    (hin : InRange rows cols ⟨F.truncQ px, F.truncQ py⟩)
    (hopen : cellAt g ⟨F.truncQ px, F.truncQ py⟩ = some 0) :
    ∃ p1 qx qy, Player.update ideal ⟨vec px py, angle, dir0⟩ (F.fin dt) ⟨cs, g⟩ keys (vec hx hy)
        = some p1 ∧ p1.position = vec qx qy ∧
      InRange rows cols ⟨F.truncQ qx, F.truncQ qy⟩ ∧
      cellAt g ⟨F.truncQ qx, F.truncQ qy⟩ = some 0 := by
  have hrows : 0 < rows := rows_pos_of_cellAt hrect hopen
  obtain ⟨p1, hp1, hpos⟩ := update_rect hrect hrows cs angle dir0 px py hx hy dt keys
  by_cases hb : (decide (cellAt g ⟨F.truncQ (px - hx * 8 * dt), F.truncQ (py - hy * 8 * dt)⟩
      = some 0) && keys.Down) = true
  · by_cases hf : (decide (cellAt g
        ⟨F.truncQ (px + hx * 8 * dt), F.truncQ (py + hy * 8 * dt)⟩ = some 0) && keys.Up) = true
    · rw [if_pos hb, if_pos hf] at hpos
      refine ⟨p1, _, _, hp1, hpos, ?_, ?_⟩
      · rw [add_sub_cancel_right, add_sub_cancel_right]; exact hin
      · rw [add_sub_cancel_right, add_sub_cancel_right]; exact hopen
    · rw [if_pos hb, if_neg hf] at hpos
      have hc : cellAt g ⟨F.truncQ (px - hx * 8 * dt), F.truncQ (py - hy * 8 * dt)⟩
          = some 0 := by
        simp only [Bool.and_eq_true, decide_eq_true_eq] at hb
        exact hb.1
      exact ⟨p1, _, _, hp1, hpos, inRange_of_cellAt hrect hc, hc⟩
  · by_cases hf : (decide (cellAt g
        ⟨F.truncQ (px + hx * 8 * dt), F.truncQ (py + hy * 8 * dt)⟩ = some 0) && keys.Up) = true
    · rw [if_neg hb, if_pos hf] at hpos
      have hc : cellAt g ⟨F.truncQ (px + hx * 8 * dt), F.truncQ (py + hy * 8 * dt)⟩
          = some 0 := by
        simp only [Bool.and_eq_true, decide_eq_true_eq] at hf
        exact hf.1
      exact ⟨p1, _, _, hp1, hpos, inRange_of_cellAt hrect hc, hc⟩
    · rw [if_neg hb, if_neg hf] at hpos
      exact ⟨p1, _, _, hp1, hpos, hin, hopen⟩
/-- Witness of C19: on the 5x5 grid, from `(2, 2)` with heading `(1, 0)`, `deltaTime = 1/16`
and the Up and Down keys both down, the agent ends in an open cell inside the grid. -/
theorem update_stays_open_witness :
    ∃ p1 qx qy, Player.update ideal ⟨vec 2 2, F.fin 0, vec 0 0⟩ (F.fin (1 / 16)) ⟨F.fin 10, grid5⟩
        ⟨true, true, false, false⟩ (vec 1 0) = some p1 ∧ p1.position = vec qx qy ∧
      InRange 5 5 ⟨F.truncQ qx, F.truncQ qy⟩ ∧
      cellAt grid5 ⟨F.truncQ qx, F.truncQ qy⟩ = some 0 :=
  update_stays_open grid5 5 5 (F.fin 10) (F.fin 0) (vec 0 0) 2 2 1 0 (1 / 16)
    ⟨true, true, false, false⟩ grid5_rect (by rw [truncQ_two]; decide)
    (by rw [truncQ_two]; rfl)

/-! ## Construction -/

/-- C13 (amended): the constructor of `Map` never fails; for every cell size and every
grid, an empty grid and a non-positive cell size included, it produces the map that holds
them unchanged. -/
theorem construct_accepts (x : F) (y : Grid) : Map.construct x y = some ⟨x, y⟩ := rfl
/-- Counterexample to C13 as stated: the grid without rows and the cell size `0` are not
rejected; the construction produces a map. -/
theorem construct_counterexample :
    ([] : Grid).length < 1 ∧ Map.construct (F.fin 0) [] = some ⟨F.fin 0, []⟩ ∧
      Map.construct (F.fin 0) [] ≠ none := by
  refine ⟨by decide, rfl, ?_⟩
  simp [Map.construct]

/-! ## The camera -/

/-- C11: for every arithmetic `A` that represents `0`, `1`, `750`, `1500` and the two
components of the heading without rounding, and in which the camera plane of the heading is
finite, the centre column `i = SCREEN_W / 2 = 750` has `cameraX = 0` and its ray direction is
the heading itself, in `render::draw` and in `render::draw_3d`. In exact arithmetic this
holds for every heading `(dx, dy)`. -/
theorem rayDir_centre_column (A : Arith) (dx dy : ℚ) (h0 : Agree A 0) (h1 : Agree A 1)
    (h750 : Agree A 750) (h1500 : Agree A 1500) (hdx : Agree A dx) (hdy : Agree A dy)
    (hplane : ∃ px py : ℚ, planeOf A (vec dx dy) = vec px py) :
    SCREEN_W / 2 = 750 ∧ cameraX A 750 = F.fin 0 ∧
      rayDirOfDraw A (vec dx dy) 750 = vec dx dy ∧ rayDirOf A (vec dx dy) 750 = vec dx dy := by
  have hcam : cameraX A 750 = F.fin 0 := by
    have e1 : F.ofInt A ((750 : Nat) : Int) = F.fin 750 := by
      have : (((750 : Nat) : Int) : ℚ) = 750 := by norm_num
      unfold F.ofInt
      rw [this]
      exact h750
    have e2 : F.ofInt A ((SCREEN_W : Nat) : Int) = F.fin 1500 := by
      have : (((SCREEN_W : Nat) : Int) : ℚ) = 1500 := by unfold SCREEN_W; norm_num
      unfold F.ofInt
      rw [this]
      exact h1500
    have e3 : F.mul A (F.fin 750) (F.fin 2) = F.fin 1500 := by
      have : (750 : ℚ) * 2 = 1500 := by norm_num
      show @Arith.rnd A (750 * 2) = F.fin 1500
      rw [this]
      exact h1500
    have e4 : F.div A (F.fin 1500) (F.fin 1500) = F.fin 1 := by
      have : (1500 : ℚ) / 1500 = 1 := by norm_num
      show (if (1500 : ℚ) = 0 then F.signedInf 1500 else @Arith.rnd A (1500 / 1500)) = F.fin 1
      rw [if_neg (by norm_num), this]
      exact h1
    have e5 : F.sub A (F.fin 1) (F.fin 1) = F.fin 0 := by
      have : (1 : ℚ) + -1 = 0 := by norm_num
      show @Arith.rnd A (1 + -1) = F.fin 0
      rw [this]
      exact h0
    show F.sub A (F.div A (F.mul A (F.ofInt A ((750 : Nat) : Int)) (F.fin 2))
      (F.ofInt A ((SCREEN_W : Nat) : Int))) (F.fin 1) = F.fin 0
    rw [e1, e2, e3, e4, e5]
  obtain ⟨px, py, hp⟩ := hplane
  have hray : rayDirOf A (vec dx dy) 750 = vec dx dy := by
    have m1 : F.mul A (F.fin px) (F.fin 0) = F.fin 0 := by
      show @Arith.rnd A (px * 0) = F.fin 0
      rw [mul_zero]
      exact h0
    have m2 : F.mul A (F.fin py) (F.fin 0) = F.fin 0 := by
      show @Arith.rnd A (py * 0) = F.fin 0
      rw [mul_zero]
      exact h0
    have a1 : F.add A (F.fin dx) (F.fin 0) = F.fin dx := by
      show @Arith.rnd A (dx + 0) = F.fin dx
      rw [add_zero]
      exact hdx
    have a2 : F.add A (F.fin dy) (F.fin 0) = F.fin dy := by
      show @Arith.rnd A (dy + 0) = F.fin dy
      rw [add_zero]
      exact hdy
    show (⟨F.add A (F.fin dx) (F.mul A (planeOf A (vec dx dy)).x (cameraX A 750)),
      F.add A (F.fin dy) (F.mul A (planeOf A (vec dx dy)).y (cameraX A 750))⟩ : Vector2f) = _
    rw [hp, hcam]
    show (⟨F.add A (F.fin dx) (F.mul A (F.fin px) (F.fin 0)),
      F.add A (F.fin dy) (F.mul A (F.fin py) (F.fin 0))⟩ : Vector2f) = _
    rw [m1, m2, a1, a2]
    rfl
  exact ⟨by decide, hcam, hray, hray⟩

/-- Witness of C11 in the arithmetic of the program: for the heading `(0.6f, 0.8f)` the ray
of the centre column is the heading. -/
theorem rayDir_centre_column_witness :
    cameraX binary32 750 = F.fin 0 ∧
    rayDirOfDraw binary32 (vec (lit32 (3 / 5)) (lit32 (4 / 5))) 750
      = vec (lit32 (3 / 5)) (lit32 (4 / 5)) ∧
    rayDirOf binary32 (vec (lit32 (3 / 5)) (lit32 (4 / 5))) 750
      = vec (lit32 (3 / 5)) (lit32 (4 / 5)) :=
  (rayDir_centre_column binary32 (lit32 (3 / 5)) (lit32 (4 / 5)) (by decide!) (by decide!)
    (by decide!) (by decide!) (by decide!) (by decide!)
    ⟨-(5033165 / 8388608), 15099495 / 33554432, by decide!⟩).2

/-- C12 (amended): the ray directions of the edge columns `0` and `1499` are not reflections
of each other across the heading, because `cameraX` is `-1` for column `0` but less than `1`
for column `1499`. In the arithmetic of the program `cameraX 1499 = 8377423 / 8388608 =
0.99866664`, and for the heading `(1, 0)` the two rays are `(1, -3/4)` and
`(1, 6283067 / 8388608)`: their dot products with the heading are both `1`, their cross
products with it are `-3/4` and `6283067 / 8388608 = 0.74899995`. In exact arithmetic, for
every heading `h = (dx, dy)`, the dot products are both `|h|^2` and the cross products are
`-(3/4) |h|^2` and `(749/1000) |h|^2` (`cameraX = 749/750`). In every arithmetic
`render::draw` computes the same ray directions as `render::draw_3d`. -/
theorem rayDir_edge_columns (dx dy : ℚ) :
    (cameraX binary32 0 = F.fin (-1) ∧ cameraX binary32 1499 = F.fin (8377423 / 8388608) ∧
      rayDirOf binary32 (vec 1 0) 0 = vec 1 (-(3 / 4)) ∧
      rayDirOf binary32 (vec 1 0) 1499 = vec 1 (6283067 / 8388608) ∧
      dotF binary32 (rayDirOf binary32 (vec 1 0) 0) (vec 1 0) = F.fin 1 ∧
      dotF binary32 (rayDirOf binary32 (vec 1 0) 1499) (vec 1 0) = F.fin 1 ∧
      crossF binary32 (vec 1 0) (rayDirOf binary32 (vec 1 0) 0) = F.fin (-(3 / 4)) ∧
      crossF binary32 (vec 1 0) (rayDirOf binary32 (vec 1 0) 1499)
        = F.fin (6283067 / 8388608)) ∧
    (cameraX ideal 0 = F.fin (-1) ∧ cameraX ideal 1499 = F.fin (749 / 750) ∧
      dotF ideal (rayDirOf ideal (vec dx dy) 0) (vec dx dy) = F.fin (dx ^ 2 + dy ^ 2) ∧
      dotF ideal (rayDirOf ideal (vec dx dy) 1499) (vec dx dy) = F.fin (dx ^ 2 + dy ^ 2) ∧
      crossF ideal (vec dx dy) (rayDirOf ideal (vec dx dy) 0)
        = F.fin (-(3 / 4) * (dx ^ 2 + dy ^ 2)) ∧
      crossF ideal (vec dx dy) (rayDirOf ideal (vec dx dy) 1499)
        = F.fin ((749 / 1000) * (dx ^ 2 + dy ^ 2))) ∧
    (∀ (A : Arith) (h : Vector2f) (i : Nat), rayDirOfDraw A h i = rayDirOf A h i) := by
  obtain ⟨i1, i2, i3, i4, i5, i6, _, _⟩ := edge_columns_ideal dx dy
  exact ⟨⟨by decide!, by decide!, by decide!, by decide!, by decide!, by decide!, by decide!,
    by decide!⟩, ⟨i1, i2, i3, i4, i5, i6⟩, fun _ _ _ => rfl⟩

/-- Counterexample to C12 as stated, in the arithmetic of the program: for the heading
`(1, 0)` the cross products of the heading with the ray directions of the columns `0` and
`1499` are `-3/4` and `6283067 / 8388608`, which are not opposite (the dot products are
both `1`). -/
theorem rayDir_edge_columns_counterexample :
    crossF binary32 (vec 1 0) (rayDirOf binary32 (vec 1 0) 0) = F.fin (-(3 / 4)) ∧
    crossF binary32 (vec 1 0) (rayDirOf binary32 (vec 1 0) 1499)
      = F.fin (6283067 / 8388608) ∧
    (6283067 / 8388608 : ℚ) ≠ -(-(3 / 4)) ∧
    crossF binary32 (vec 1 0) (rayDirOf binary32 (vec 1 0) 1499)
      ≠ -crossF binary32 (vec 1 0) (rayDirOf binary32 (vec 1 0) 0) := by
  refine ⟨by decide!, by decide!, by norm_num, by decide!⟩

/-! ## Depth along the heading -/

/-- The cast on `gridOneWall` from `(0.05f, 0.5)` along the ray of the centre column for the
heading `(1, 0)`, in the arithmetic of the program. -/
theorem cast_ray32_oneWall_centre :
    cast_ray binary32 (vec (lit32 (1 / 20)) (1 / 2)) (rayDirOf binary32 (vec 1 0) 750)
        ⟨F.fin 10, gridOneWall⟩
      = some ⟨vec 1 (1 / 2), F.fin (3984589 / 4194304), true, false⟩ := by decide!

/-- The ray of column `0` for the heading `(0, 1)`, in the arithmetic of the program. -/
theorem rayDir32_up_zero : rayDirOf binary32 (vec 0 1) 0 = vec (3 / 4) 1 := by decide!

/-- The cast on the 5x5 grid from `(2, 2)` along that ray, in the arithmetic of the
program. -/
theorem cast_ray32_grid5_up :
    cast_ray binary32 (vec 2 2) (rayDirOf binary32 (vec 0 1) 0) ⟨F.fin 10, grid5⟩
      = some ⟨vec (7 / 2) 4, F.fin 2, true, true⟩ := by decide!

end RayCaster
